import Mathlib

/-!
Verification of the persistent collection library `pyrsistent.py`.

The Python source is shallowly embedded: each Python class becomes a Lean
structure, each method a Lean function on it.  Python `list` values become
Lean `List`s, `None`/exceptions become `Option`/`Except`, machine integers
are `Nat`/`Int` (Python integers are unbounded, so no wrap-around modelling
is needed), and the mutable evolver objects become explicit state records
that are threaded through the operations.
-/

namespace Pyrsistent

/-- Source: `BRANCH_FACTOR = 32`. -/
def BRANCH_FACTOR : Nat := 32

/-- Source: `BIT_MASK = BRANCH_FACTOR - 1`. -/
def BIT_MASK : Nat := 31

/-- Source: `SHIFT = _bitcount(BIT_MASK)` which evaluates to 5. -/
def SHIFT : Nat := 5

/-- A node of the bit-partitioned trie.  In the Python source a node is a
plain `list` that holds either child nodes (at positive shift) or leaf
elements (at shift 0); the embedding separates the two readings into two
constructors, and every operation dispatches on the `shift`/`level`
argument exactly as the source does. -/
inductive PNode (α : Type) where
  | leaf (elems : List α)
  | branch (children : List (PNode α))

/-- The persistent vector: fields `_count`, `_shift`, `_root`, `_tail` of
`PVector.__new__`.  The derived field `_tail_offset = count - len(tail)`
is recomputed on demand (`PVector.tailOffset`) instead of being stored. -/
structure PVector (α : Type) where
  count : Nat
  shift : Nat
  root : PNode α
  tail : List α

namespace PVector

/-- Source: `self._tail_offset = self._count - len(self._tail)`. -/
def tailOffset (v : PVector α) : Nat := v.count - v.tail.length

end PVector

namespace PNode

/-- Source: `PVector._fill_list`.  If `shift` is nonzero the node is read
as a list of children, otherwise as a list of leaf elements.  The two
mismatch cases (a leaf met at positive shift, a branch met at shift 0)
cannot arise for the tries the library builds and are mapped to `[]`. -/
def fillList (node : PNode α) (shift : Nat) : List α :=
  if shift ≠ 0 then
    match node with
    | .branch children =>
      (children.attach.map (fun n => fillList n.1 (shift - SHIFT))).flatten
    | .leaf _ => []
  else
    match node with
    | .leaf elems => elems
    | .branch _ => []
termination_by sizeOf node
decreasing_by
  have := List.sizeOf_lt_of_mem n.2
  simp only [PNode.branch.sizeOf_spec]
  omega

end PNode

namespace PVector

/-- Source: `PVector._tolist`, the realized element sequence
(`_fill_list(root, shift)` followed by the tail). -/
def toList (v : PVector α) : List α := v.root.fillList v.shift ++ v.tail

end PVector

namespace PNode

/-- The loop of `PVector._node_for`:
`for level in range(shift, 0, -SHIFT): node = node[(i >> level) & BIT_MASK]`.
Landing on a leaf while the level is still positive, or walking past the
end of a child list, would raise in Python; both are mapped to `none`. -/
def walkDown (node : PNode α) (shift i : Nat) : Option (PNode α) :=
  if shift = 0 then some node
  else
    match node with
    | .branch cs =>
      match cs[(i >>> shift) &&& BIT_MASK]? with
      | some c => walkDown c (shift - SHIFT) i
      | none => none
    | .leaf _ => none
termination_by shift
decreasing_by simp_all [SHIFT]; omega

end PNode

namespace PVector

/-- Source: `PVector._node_for` composed with the final leaf read of
`__getitem__`/the evolver `__getitem__`: for `0 <= i < count` return the
tail (when `i >= tail_offset`) or the leaf reached by the bit walk;
an out-of-range index raises IndexError, modelled by `none`. -/
def nodeForList (v : PVector α) (i : Int) : Option (List α) :=
  if 0 ≤ i ∧ i < (v.count : Int) then
    let j := i.toNat
    if v.tailOffset ≤ j then some v.tail
    else
      match v.root.walkDown v.shift j with
      | some (.leaf elems) => some elems
      | _ => none
  else none

/-- Source: `PVector.__getitem__` (non-slice path):
`if index < 0: index += count; return _node_for(self, index)[index & BIT_MASK]`.
`none` models the IndexError raised by `_node_for`. -/
def get (v : PVector α) (index : Int) : Option α :=
  let index := if index < 0 then index + (v.count : Int) else index
  (v.nodeForList index).bind (fun node => node[index.toNat &&& BIT_MASK]?)

end PVector

namespace PNode

/-- Source: `PVector._do_set` — copy the path from `node` down to the leaf
holding index `i` and replace the one entry.  (The evolver's `_do_set` is
the same computation: its `_dirty_nodes` bookkeeping only decides whether
an intermediate node is copied or reused in place, which is unobservable
at the level of values because reused nodes were created inside the same
session and are unshared.)  A missing child would raise in Python and
cannot arise for in-range indices of a well-formed trie; it is mapped to
an unchanged node. -/
def doSet (level : Nat) (node : PNode α) (i : Nat) (val : α) : PNode α :=
  if level = 0 then
    match node with
    | .leaf elems => .leaf (elems.set (i &&& BIT_MASK) val)
    | n => n
  else
    match node with
    | .branch cs =>
      let subIndex := (i >>> level) &&& BIT_MASK
      match cs[subIndex]? with
      | some c => .branch (cs.set subIndex (doSet (level - SHIFT) c i val))
      | none => .branch cs
    | n => n
termination_by level
decreasing_by simp_all [SHIFT]; omega

/-- Source: `PVector._new_path`. -/
def newPath (level : Nat) (node : PNode α) : PNode α :=
  if level = 0 then node else .branch [newPath (level - SHIFT) node]
termination_by level
decreasing_by simp_all [SHIFT]; omega

/-- Source: `PVector._push_tail`.  `count` is the value of `self._count`
at the call site (tree element count plus the full 32-element tail).
The source is only ever called with `level` a positive multiple of
`SHIFT`; `level = 0` is mapped to the unchanged parent, and a leaf parent
(impossible for well-formed tries) likewise. -/
def pushTail (count level : Nat) (parent : PNode α) (tailNode : PNode α) : PNode α :=
  if level = 0 then parent
  else
    match parent with
    | .branch cs =>
      if level = SHIFT then .branch (cs ++ [tailNode])
      else
        let subIndex := ((count - 1) >>> level) &&& BIT_MASK
        if h : subIndex < cs.length then
          .branch (cs.set subIndex (pushTail count (level - SHIFT) cs[subIndex] tailNode))
        else
          .branch (cs ++ [newPath (level - SHIFT) tailNode])
    | .leaf es => .leaf es
termination_by level
decreasing_by simp_all [SHIFT]; omega

end PNode

namespace PVector

/-- Source: `PVector._create_new_root`. -/
def createNewRoot (v : PVector α) : PNode α × Nat :=
  if (v.count >>> SHIFT) > (1 <<< v.shift) then
    (.branch [v.root, PNode.newPath v.shift (.leaf v.tail)], v.shift + SHIFT)
  else
    (PNode.pushTail v.count v.shift v.root (.leaf v.tail), v.shift)

/-- Source: `PVector.append`. -/
def append (v : PVector α) (val : α) : PVector α :=
  if v.tail.length < BRANCH_FACTOR then
    ⟨v.count + 1, v.shift, v.root, v.tail ++ [val]⟩
  else
    let p := v.createNewRoot
    ⟨v.count + 1, p.2, p.1, [val]⟩

/-- Source: `PVector.set`.  A negative index is resolved by adding
`count`; `0 <= i < count` replaces in the tail or path-copies the tree,
`i == count` appends, anything else raises IndexError (`none`).  (The
`TypeError` branch for a non-integral index cannot arise in the typed
embedding.) -/
def set (v : PVector α) (i : Int) (val : α) : Option (PVector α) :=
  let i := if i < 0 then i + (v.count : Int) else i
  if 0 ≤ i ∧ i < (v.count : Int) then
    let j := i.toNat
    if v.tailOffset ≤ j then
      some ⟨v.count, v.shift, v.root, v.tail.set (j &&& BIT_MASK) val⟩
    else
      some ⟨v.count, v.shift, PNode.doSet v.shift v.root j val, v.tail⟩
  else if i = (v.count : Int) then
    some (v.append val)
  else none

/-- Source: `PVector._mutating_insert_tail`. -/
def mutatingInsertTail (v : PVector α) : PVector α :=
  let p := v.createNewRoot
  ⟨v.count, p.2, p.1, []⟩

/-- Source: `PVector._mutating_fill_tail`.  The Python version advances an
offset into the sequence; the embedding returns the refilled vector
together with the not-yet-consumed remainder of the sequence. -/
def mutatingFillTail (v : PVector α) (seq : List α) : PVector α × List α :=
  let delta := seq.take (BRANCH_FACTOR - v.tail.length)
  (⟨v.count + delta.length, v.shift, v.root, v.tail ++ delta⟩,
   seq.drop (BRANCH_FACTOR - v.tail.length))

/-- Source: the loop of `PVector._mutating_extend`: fill the tail from the
sequence, flush it into the tree when it reaches 32 elements, repeat.
The source tests `len(self._tail) == BRANCH_FACTOR`; the embedding tests
`≤`, which is the same test because the refilled tail never exceeds 32
elements (`mutatingFillTail` adds at most `32 - len(tail)` of them) and
which makes termination evident for all inputs. -/
def mutatingExtend (v : PVector α) (seq : List α) : PVector α :=
  if h : seq.isEmpty then v
  else
    let p := v.mutatingFillTail seq
    let v' := if BRANCH_FACTOR ≤ p.1.tail.length then p.1.mutatingInsertTail else p.1
    mutatingExtend v' p.2
termination_by 2 * seq.length + (if BRANCH_FACTOR ≤ v.tail.length then 1 else 0)
decreasing_by
  have h2 : 1 ≤ seq.length := by
    cases seq with
    | nil => simp at h
    | cons a l => simp
  have hmin : ((mutatingFillTail v seq).1).tail.length
      = v.tail.length + min (BRANCH_FACTOR - v.tail.length) seq.length := by
    simp [mutatingFillTail]
  have hrest : ((mutatingFillTail v seq).2).length
      = seq.length - (BRANCH_FACTOR - v.tail.length) := by
    simp [mutatingFillTail]
  have hnil : ∀ w : PVector α, (mutatingInsertTail w).tail.length = 0 := fun w => rfl
  split
  · rename_i hfl
    rw [hrest, hnil, if_neg (by simp [BRANCH_FACTOR])]
    rw [hmin] at hfl
    simp only [BRANCH_FACTOR] at *
    split <;> omega
  · rename_i hfl
    rw [hrest]
    rw [hmin] at hfl
    simp only [BRANCH_FACTOR] at *
    split <;> omega

/-- Source: `PVector.extend` (the argument realized as a list). -/
def extend (v : PVector α) (obj : List α) : PVector α :=
  match obj with
  | [] => v
  | x :: rest => (v.append x).mutatingExtend rest

end PVector

/-- Source: `_EMPTY_VECTOR = PVector(0, SHIFT, [], [])`. -/
def emptyPVector {α : Type} : PVector α := ⟨0, SHIFT, .branch [], []⟩

/-- Source: `_pvector(iterable) = _EMPTY_VECTOR.extend(iterable)`. -/
def pvector {α : Type} (iterable : List α) : PVector α := emptyPVector.extend iterable

/-- The state of `PVector._Evolver` (fields of `_reset`).  `dirtied`
models `_dirty_nodes` being nonempty: it is set exactly when a write into
the existing structure (index `< count`) happens.  The `_cached_leafs`
cache and the identity-keyed `_dirty_nodes` dictionary only avoid copying
nodes that this session itself created — observably the write is always
the pure path copy `doSet` (or the tail update), which is what the
embedding performs. -/
structure VEvolver (α : Type) where
  count : Nat
  shift : Nat
  root : PNode α
  tail : List α
  extraTail : List α
  dirtied : Bool

namespace VEvolver

/-- The pvector-like view of the session used by `PVector._node_for`
(the evolver exposes the same `_count/_shift/_root/_tail` fields). -/
def asVector (e : VEvolver α) : PVector α := ⟨e.count, e.shift, e.root, e.tail⟩

/-- Source: `PVector._Evolver._reset` / `__init__`. -/
def reset (v : PVector α) : VEvolver α := ⟨v.count, v.shift, v.root, v.tail, [], false⟩

/-- Source: `PVector._Evolver.__len__`. -/
def length (e : VEvolver α) : Nat := e.count + e.extraTail.length

/-- Source: `PVector._Evolver.__getitem__`.  `none` models IndexError. -/
def get (e : VEvolver α) (index : Int) : Option α :=
  let index := if index < 0 then index + (e.count : Int) + e.extraTail.length else index
  if (e.count : Int) ≤ index ∧ index < (e.count : Int) + e.extraTail.length then
    e.extraTail[index.toNat - e.count]?
  else
    (e.asVector.nodeForList index).bind (fun node => node[index.toNat &&& BIT_MASK]?)

/-- Source: `PVector._Evolver.__setitem__`.  The three write paths for an
index `< count` (cached leaf, tail, tree) all amount to the pure update
of the tail or the path copy `doSet`; `_tail_offset` is the value
snapshotted at reset, which equals `count - len(tail)` throughout the
session because neither field changes.  `none` models IndexError. -/
def set (e : VEvolver α) (index : Int) (val : α) : Option (VEvolver α) :=
  let index := if index < 0 then index + (e.count : Int) + e.extraTail.length else index
  if 0 ≤ index ∧ index < (e.count : Int) then
    let i := index.toNat
    if e.count - e.tail.length ≤ i then
      some { e with tail := e.tail.set (i &&& BIT_MASK) val, dirtied := true }
    else
      some { e with root := PNode.doSet e.shift e.root i val, dirtied := true }
  else if (e.count : Int) ≤ index ∧ index < (e.count : Int) + e.extraTail.length then
    some { e with extraTail := e.extraTail.set (index.toNat - e.count) val }
  else if index = (e.count : Int) + e.extraTail.length then
    some { e with extraTail := e.extraTail ++ [val] }
  else none

/-- Source: `PVector._Evolver.append`. -/
def append (e : VEvolver α) (element : α) : VEvolver α :=
  { e with extraTail := e.extraTail ++ [element] }

/-- Source: `PVector._Evolver.extend`. -/
def extendBuf (e : VEvolver α) (iterable : List α) : VEvolver α :=
  { e with extraTail := e.extraTail ++ iterable }

/-- Source: `PVector._Evolver.is_dirty`:
`self._dirty_nodes or self._extra_tail`. -/
def isDirty (e : VEvolver α) : Bool := e.dirtied || !e.extraTail.isEmpty

/-- Source: `PVector._Evolver.persistent`:
`PVector(count, shift, root, tail).extend(extra_tail)` (the session is
then reset onto the result; the embedding returns the result and callers
use `reset` when they keep evolving). -/
def persistent (e : VEvolver α) : PVector α := e.asVector.extend e.extraTail

end VEvolver

/-- A single vector operation of the evolver-equivalence property:
`set i val` or `append val`. -/
inductive VOp (α : Type) where
  | set (i : Int) (val : α)
  | append (val : α)

/-- Apply a sequence of operations as direct persistent calls
(`PVector.set` / `PVector.append`); the first IndexError aborts. -/
def runDirect : PVector α → List (VOp α) → Option (PVector α)
  | v, [] => some v
  | v, .set i x :: ops => (v.set i x).bind (fun w => runDirect w ops)
  | v, .append x :: ops => runDirect (v.append x) ops

/-- Apply the same operations through one evolver session. -/
def runEvolver : VEvolver α → List (VOp α) → Option (VEvolver α)
  | e, [] => some e
  | e, .set i x :: ops => (e.set i x).bind (fun e' => runEvolver e' ops)
  | e, .append x :: ops => runEvolver (e.append x) ops

/-!
### Canonical tries (specification side)

The library never removes elements from a vector, so every root it builds
is the canonical radix-32 trie of the list of elements stored in the tree
part.  `chunksOf` splits a list into consecutive blocks, `buildTree`
builds the canonical trie, and `PVector.WF` says a vector is in canonical
form; the proofs show `WF` is preserved by every operation.
-/

/-- Split a list into consecutive blocks of `n` elements (the last block
may be shorter). -/
def chunksOf (n : Nat) (l : List α) : List (List α) :=
  if l.isEmpty ∨ n = 0 then [] else l.take n :: chunksOf n (l.drop n)
termination_by l.length
decreasing_by
  rename_i hcond
  push_neg at hcond
  have h1 : l ≠ [] := by simpa [List.isEmpty_iff] using hcond.1
  have h2 : 1 ≤ l.length := List.length_pos.mpr h1
  simp only [List.length_drop]
  omega

/-- The canonical radix-32 trie of height `h` (shift `SHIFT * h`) holding
the list `l`: at height `h + 1` the children are the canonical tries of
the `32 ^ (h + 1)`-element blocks of `l`. -/
def buildTree : Nat → List α → PNode α
  | 0, l => .leaf l
  | h + 1, l => .branch ((chunksOf (BRANCH_FACTOR ^ (h + 1)) l).map (buildTree h))

/-- Well-formedness of a vector: the stored fields are the canonical
representation of some tree-part list `lt` and the tail.  Every vector
the library builds satisfies this. -/
def PVector.WF (v : PVector α) : Prop :=
  ∃ (h : Nat) (lt : List α),
    1 ≤ h ∧ v.shift = SHIFT * h ∧ v.root = buildTree h lt ∧
    BRANCH_FACTOR ∣ lt.length ∧ lt.length ≤ BRANCH_FACTOR ^ (h + 1) ∧
    v.tail.length ≤ BRANCH_FACTOR ∧ v.count = lt.length + v.tail.length

/-- Well-formedness of an evolver session: its vector view is well formed
(the `extraTail` buffer is unconstrained). -/
def VEvolver.WF (e : VEvolver α) : Prop := e.asVector.WF

/-- The abstract element sequence an evolver session represents: the
realized elements of its vector view followed by the buffered appends.
This is the sequence `persistent()` realizes. -/
def VEvolver.absList (e : VEvolver α) : List α := e.asVector.toList ++ e.extraTail

/-!
### Persistent hash maps

`PMap` keeps its buckets in a `PVector`; a bucket is `None` (here `none`)
or a list of key–value collision pairs.  Python's `hash` builtin becomes
an explicit parameter `hash : K → Int` (Python's hashability contract
`k1 == k2 → hash(k1) == hash(k2)` holds automatically for a Lean
function), and `hash(key) % len(buckets)` is `Int.emod`, which agrees
with Python `%` on a positive right operand.  The identity test
`v is val` becomes a parameter `pyIs : V → V → Bool`; where a proof needs
that identical objects are equal values it assumes
`pyIs a b = true → a = b`.  The float comparison
`len(self._buckets_evolver) < 0.67 * self._size` guarding reallocation in
`PMap._Evolver.__setitem__` is abstracted as an arbitrary predicate
`loadCheck : Nat → Nat → Bool` of the two integers compared, so each
theorem quantifying over `loadCheck` holds for every reallocation
schedule, in particular the source's float one.  An out-of-range bucket
read or write (impossible while the bucket vector is nonempty, which
every reachable map satisfies) is mapped to the absent bucket / `none`.
-/

/-- A bucket of the bucket vector. -/
def Bucket (K V : Type) : Type := Option (List (K × V))

/-- Python truthiness of a bucket (`if bucket:`): `None` and the empty
list are falsy. -/
def bucketTruthy (b : Bucket K V) : Bool :=
  match b with
  | none => false
  | some l => !l.isEmpty

/-- The pair list a bucket holds (`None` holds no pairs). -/
def bucketPairs (b : Bucket K V) : List (K × V) :=
  match b with
  | none => []
  | some l => l

/-- The scan `for k, v in bucket: if k == key: return v`: the value of the
first pair whose key equals `key`, `none` when the scan falls through. -/
def listFind [DecidableEq K] (l : List (K × V)) (key : K) : Option V :=
  match l with
  | [] => none
  | (k, v) :: rest => if k = key then some v else listFind rest key

/-- `hash(key) % len(buckets)`: Python `%` on a positive modulus is
`Int.emod`. -/
def bucketIndex (hash : K → Int) (n : Nat) (key : K) : Nat :=
  ((hash key) % (n : Int)).toNat

/-- Source: class `PMap(size, buckets)`. -/
structure PMap (K V : Type) where
  size : Nat
  buckets : PVector (Bucket K V)

/-- Source: `PMap._get_bucket(buckets, key)` on the persistent bucket
vector: `index = hash(key) % len(buckets); bucket = buckets[index]`. -/
def PMap.getBucket (hash : K → Int) (buckets : PVector (Bucket K V)) (key : K) :
    Nat × Bucket K V :=
  let index := bucketIndex hash buckets.count key
  (index, (buckets.get (index : Int)).getD none)

/-- Source: `PMap._getitem(buckets, key)`; `none` models the `KeyError`. -/
def PMap.getitemBuckets [DecidableEq K] (hash : K → Int)
    (buckets : PVector (Bucket K V)) (key : K) : Option V :=
  let b := (PMap.getBucket hash buckets key).2
  if bucketTruthy b then listFind (bucketPairs b) key else none

/-- Source: `PMap.__getitem__`. -/
def PMap.getitem [DecidableEq K] (hash : K → Int) (m : PMap K V) (key : K) : Option V :=
  PMap.getitemBuckets hash m.buckets key

/-- Source: `PMap._contains(buckets, key)` / `PMap.__contains__`. -/
def PMap.containsBuckets [DecidableEq K] (hash : K → Int)
    (buckets : PVector (Bucket K V)) (key : K) : Bool :=
  let b := (PMap.getBucket hash buckets key).2
  if bucketTruthy b then (listFind (bucketPairs b) key).isSome else false

/-- One iteration of the bucket-filling loop shared by `_turbo_mapping`
and `PMap._Evolver._reallocate`: append the pair to its bucket (the
modulus is the bucket-list length, which the loop keeps constant). -/
def placePair (hash : K → Int) (bl : List (Bucket K V)) (kv : K × V) :
    List (Bucket K V) :=
  let index := bucketIndex hash bl.length kv.1
  let b := bl.getD index none
  if bucketTruthy b then bl.set index (some (bucketPairs b ++ [kv]))
  else bl.set index (some [kv])

/-- The whole bucket-filling loop of `_reallocate` / `_turbo_mapping`. -/
def placeAll (hash : K → Int) (bl : List (Bucket K V)) (items : List (K × V)) :
    List (Bucket K V) :=
  items.foldl (placePair hash) bl

/-- `chain.from_iterable(x for x in buckets if x)`: the pairs of all
truthy buckets in bucket order. -/
def allItems (bl : List (Bucket K V)) : List (K × V) :=
  ((bl.filter bucketTruthy).map bucketPairs).flatten

/-- The pairs of all buckets in bucket order; equal to `allItems` because
a falsy bucket holds no pairs (`allItems_eq`). -/
def mapItems (bl : List (Bucket K V)) : List (K × V) :=
  (bl.map bucketPairs).flatten

/-- The state of `PMap._Evolver`: a vector evolver over the buckets, the
running size, and the original map for the clean-session shortcut. -/
structure MEvolver (K V : Type) where
  bucketsEvolver : VEvolver (Bucket K V)
  size : Nat
  originalPMap : PMap K V

/-- Source: `PMap.evolver` / `PMap._Evolver.__init__`. -/
def PMap.evolver (m : PMap K V) : MEvolver K V :=
  ⟨VEvolver.reset m.buckets, m.size, m⟩

/-- Source: `PMap._get_bucket(self._buckets_evolver, key)`: the duck-typed
bucket read through the vector evolver's `__len__` and `__getitem__`. -/
def MEvolver.getBucket (hash : K → Int) (be : VEvolver (Bucket K V)) (key : K) :
    Nat × Bucket K V :=
  let index := bucketIndex hash be.length key
  (index, (be.get (index : Int)).getD none)

/-- Source: `PMap._Evolver.__getitem__` (`PMap._getitem` on the bucket
evolver). -/
def MEvolver.getitem [DecidableEq K] (hash : K → Int) (e : MEvolver K V) (key : K) :
    Option V :=
  let b := (MEvolver.getBucket hash e.bucketsEvolver key).2
  if bucketTruthy b then listFind (bucketPairs b) key else none

/-- Source: `PMap._Evolver._reallocate`: rebuild the bucket list from the
realized bucket vector's pairs and restart the bucket evolver on it
(fresh, hence clean). -/
def MEvolver.reallocate (hash : K → Int) (e : MEvolver K V) (newSize : Nat) :
    MEvolver K V :=
  let buckets := e.bucketsEvolver.persistent
  let newList := placeAll hash (List.replicate newSize none) (allItems buckets.toList)
  { e with bucketsEvolver := VEvolver.reset (pvector newList) }

/-- Source: `PMap._Evolver.__setitem__`.  The comprehension
`[(k2, v2) if k2 != k else (k2, val) ...]` compares against the found key
`k`, which `==` the argument `key`, so it is rendered with `key`.
`none` would be the `IndexError` of an out-of-range bucket write, which a
nonempty bucket vector never produces. -/
def MEvolver.setitem [DecidableEq K] (hash : K → Int) (loadCheck : Nat → Nat → Bool)
    (pyIs : V → V → Bool) (e : MEvolver K V) (key : K) (val : V) :
    Option (MEvolver K V) :=
  let e := if loadCheck e.bucketsEvolver.length e.size
           then e.reallocate hash (2 * e.bucketsEvolver.length) else e
  let p := MEvolver.getBucket hash e.bucketsEvolver key
  let bucket := p.2
  if bucketTruthy bucket then
    match listFind (bucketPairs bucket) key with
    | some v =>
        if pyIs v val then some e
        else
          (e.bucketsEvolver.set (p.1 : Int)
              (some ((bucketPairs bucket).map
                (fun kv => if kv.1 ≠ key then kv else (kv.1, val))))).map
            (fun be => { e with bucketsEvolver := be })
    | none =>
        (e.bucketsEvolver.set (p.1 : Int) (some ((key, val) :: bucketPairs bucket))).map
          (fun be => { e with bucketsEvolver := be, size := e.size + 1 })
  else
    (e.bucketsEvolver.set (p.1 : Int) (some [(key, val)])).map
      (fun be => { e with bucketsEvolver := be, size := e.size + 1 })

/-- Source: `PMap._Evolver.__delitem__`; the outer `none` models the
`KeyError` (and subsumes the impossible `IndexError` of the bucket
write). -/
def MEvolver.delitem [DecidableEq K] (hash : K → Int) (e : MEvolver K V) (key : K) :
    Option (MEvolver K V) :=
  let p := MEvolver.getBucket hash e.bucketsEvolver key
  let bucket := p.2
  if bucketTruthy bucket then
    let newBucket := (bucketPairs bucket).filter (fun kv => kv.1 ≠ key)
    if newBucket.length < (bucketPairs bucket).length then
      (e.bucketsEvolver.set (p.1 : Int)
          (if newBucket.isEmpty then none else some newBucket)).bind
        (fun be => some { e with bucketsEvolver := be, size := e.size - 1 })
    else none
  else none

/-- Source: `PMap._Evolver.is_dirty`. -/
def MEvolver.isDirty (e : MEvolver K V) : Bool := e.bucketsEvolver.isDirty

/-- Source: `PMap._Evolver.persistent`: a clean session hands back the
original map object. -/
def MEvolver.persistent (e : MEvolver K V) : PMap K V :=
  if e.isDirty then ⟨e.size, e.bucketsEvolver.persistent⟩ else e.originalPMap

/-- Source: `PMap.set`: one evolver write, then `persistent()`. -/
def PMap.set [DecidableEq K] (hash : K → Int) (loadCheck : Nat → Nat → Bool)
    (pyIs : V → V → Bool) (m : PMap K V) (key : K) (val : V) : Option (PMap K V) :=
  (MEvolver.setitem hash loadCheck pyIs m.evolver key val).map MEvolver.persistent

/-- Source: `PMap.remove`: one evolver delete, then `persistent()`;
`none` models the `KeyError`. -/
def PMap.remove [DecidableEq K] (hash : K → Int) (m : PMap K V) (key : K) :
    Option (PMap K V) :=
  (MEvolver.delitem hash m.evolver key).map MEvolver.persistent

/-- Source: `_turbo_mapping(initial, pre_size)` (`initial` modelled as its
item list; the callers pass mappings, whose keys are distinct):
`size = pre_size or (2 * len(initial)) or 8` with Python `or` on the falsy
`0`, then the same bucket-filling loop as `_reallocate`. -/
def turboMapping (hash : K → Int) (initial : List (K × V)) (preSize : Nat) :
    PMap K V :=
  let size := if preSize ≠ 0 then preSize
              else if 2 * initial.length ≠ 0 then 2 * initial.length else 8
  ⟨initial.length, pvector (placeAll hash (List.replicate size none) initial)⟩

/-- Source: `_EMPTY_PMAP = _turbo_mapping({}, 0)` (8 empty buckets;
independent of the hash function). -/
def emptyPMap : PMap K V := ⟨0, pvector (List.replicate 8 none)⟩

/-- Source: `pmap(initial, pre_size)`: a falsy (empty) `initial` returns
`_EMPTY_PMAP`, ignoring `pre_size`. -/
def pmapOf (hash : K → Int) (initial : List (K × V)) (preSize : Nat) : PMap K V :=
  if initial.isEmpty then emptyPMap else turboMapping hash initial preSize

/-- A map operation of the evolver-equivalence property: `set key val`
(`m[key] = val` through an evolver / `PMap.set` directly). -/
inductive MOp (K V : Type) where
  | set (key : K) (val : V)

/-- Apply map operations as direct persistent calls; `none` aborts. -/
def runMapDirect [DecidableEq K] (hash : K → Int) (loadCheck : Nat → Nat → Bool)
    (pyIs : V → V → Bool) : PMap K V → List (MOp K V) → Option (PMap K V)
  | m, [] => some m
  | m, .set k v :: ops =>
      (PMap.set hash loadCheck pyIs m k v).bind
        (fun m' => runMapDirect hash loadCheck pyIs m' ops)

/-- Apply the same map operations through one evolver session. -/
def runMapEvolver [DecidableEq K] (hash : K → Int) (loadCheck : Nat → Nat → Bool)
    (pyIs : V → V → Bool) : MEvolver K V → List (MOp K V) → Option (MEvolver K V)
  | e, [] => some e
  | e, .set k v :: ops =>
      (MEvolver.setitem hash loadCheck pyIs e k v).bind
        (fun e' => runMapEvolver hash loadCheck pyIs e' ops)

/-- The bucket a key's scan reads, at the bucket-list level. -/
def lookupBL [DecidableEq K] (hash : K → Int) (bl : List (Bucket K V)) (key : K) :
    Option V :=
  listFind (bucketPairs (bl.getD (bucketIndex hash bl.length key) none)) key

/-- Well-formedness of a bucket list: it is nonempty, every pair sits in
the bucket its key hashes to, and no bucket holds two pairs with the same
key.  Every bucket list the library builds satisfies this. -/
def BucketsWF [DecidableEq K] (hash : K → Int) (bl : List (Bucket K V)) : Prop :=
  0 < bl.length ∧
  (∀ idx, ∀ kv ∈ bucketPairs (bl.getD idx none), bucketIndex hash bl.length kv.1 = idx) ∧
  (∀ idx, (bucketPairs (bl.getD idx none)).Pairwise (fun a b => a.1 ≠ b.1))

/-- Well-formedness of a map: canonical bucket vector, well-formed bucket
list, and the stored size counts the pairs. -/
def PMap.WF [DecidableEq K] (hash : K → Int) (m : PMap K V) : Prop :=
  m.buckets.WF ∧ BucketsWF hash m.buckets.toList ∧
  m.size = (mapItems m.buckets.toList).length

/-- Well-formedness of a map evolver session: the bucket evolver is a
well-formed vector evolver with no buffered appends (the map layer only
writes in range), its realized bucket list is well formed, and the
running size counts the pairs. -/
def MEvolver.WF [DecidableEq K] (hash : K → Int) (e : MEvolver K V) : Prop :=
  e.bucketsEvolver.WF ∧ e.bucketsEvolver.extraTail = [] ∧
  BucketsWF hash e.bucketsEvolver.asVector.toList ∧
  e.size = (mapItems e.bucketsEvolver.asVector.toList).length

/-!
### Persistent deques

A `_PList` is embedded as the Lean list of its elements (`_EMPTY_PLIST`
is `[]`, `cons` is `::`, `reverse` is `List.reverse`).
-/

/-- Source: `_PList.rest` / `_EmptyPList.rest`: the empty plist is its
own rest (`_EmptyPList.rest` returns `self`), so `rest` never raises. -/
def plistRest : List α → List α
  | [] => []
  | _ :: t => t

/-- Source: class `_PDeque(left_list, right_list, length, maxlen)`. -/
structure PDeque (α : Type) where
  leftList : List α
  rightList : List α
  length : Nat
  maxlen : Option Nat

/-- Source: `_PDeque._pop_lists`: pop `count` elements off the primary
list, refilling it from the reversed secondary list when it runs dry;
`count` is a Python int.  Truthiness of a plist is nonemptiness. -/
def popLists (primary secondary : List α) (count : Int) : List α × List α :=
  if h : 0 < count ∧ (primary.isEmpty = false ∨ secondary.isEmpty = false) then
    if (plistRest primary).isEmpty = false then
      popLists (plistRest primary) secondary (count - 1)
    else if primary.isEmpty = false then
      popLists secondary.reverse [] (count - 1)
    else
      popLists (plistRest secondary.reverse) [] (count - 1)
  else (primary, secondary)
termination_by count.toNat
decreasing_by
  · omega
  · omega
  · omega

/-- The body of `_PDeque.pop` for a nonnegative count:
`_pop_lists(right, left, count)` then
`_PDeque(new_left, new_right, max(length - count, 0), maxlen)`. -/
def PDeque.popPos (d : PDeque α) (count : Int) : PDeque α :=
  let p := popLists d.rightList d.leftList count
  ⟨p.2, p.1, (max ((d.length : Int) - count) 0).toNat, d.maxlen⟩

/-- The body of `_PDeque.popleft` for a nonnegative count. -/
def PDeque.popleftPos (d : PDeque α) (count : Int) : PDeque α :=
  let p := popLists d.leftList d.rightList count
  ⟨p.1, p.2, (max ((d.length : Int) - count) 0).toNat, d.maxlen⟩

/-- Source: `_PDeque.pop`: a negative count delegates to `popleft(-count)`
(whose own count is then positive, so it runs its main body). -/
def PDeque.pop (d : PDeque α) (count : Int) : PDeque α :=
  if count < 0 then d.popleftPos (-count) else d.popPos count

/-- Source: `_PDeque.popleft`. -/
def PDeque.popleft (d : PDeque α) (count : Int) : PDeque α :=
  if count < 0 then d.popPos (-count) else d.popleftPos count

/-!
### The vector comparison protocol

A Python operand is either a `PVector` or some other host object (`other`,
tagged by an opaque id).  `comparator` embeds the `_comparator` decorator:
the wrapped method runs only when both operands pass the `isinstance`
checks, and returns `NotImplemented` (here `none`) otherwise.
`pyListCmp` is CPython's lexicographic list comparison, parameterised by
the element comparison.  `hostBoolOp` embeds the host interpreter's
rich-comparison dispatch for `==`/`!=`: the forward method, then the
reflected method, then the identity fallback (which always yields a
boolean).
-/

inductive PyVal (α : Type) where
  | vec : PVector α → PyVal α
  | other : Nat → PyVal α

def PyVal.isVec : PyVal α → Bool
  | .vec _ => true
  | .other _ => false

/-- Source: `_comparator` (lines 19–25). -/
def comparator (f : PVector α → PVector α → Bool) (x y : PyVal α) : Option Bool :=
  match x, y with
  | .vec a, .vec b => some (f a b)
  | _, _ => none

def pyListCmp (cmp : α → α → Ordering) : List α → List α → Ordering
  | [], [] => .eq
  | [], _ :: _ => .lt
  | _ :: _, [] => .gt
  | x :: xs, y :: ys =>
    match cmp x y with
    | .eq => pyListCmp cmp xs ys
    | o => o

/-- Source: `PVector.__ne__`: `self._tolist() != other._tolist()`. -/
def vec_ne [DecidableEq α] (a b : PVector α) : Bool :=
  decide (¬ a.toList = b.toList)

/-- Source: `PVector.__eq__`: `self is other or self._tolist() == other._tolist()`. -/
def vec_eq [DecidableEq α] (pyIsV : PVector α → PVector α → Bool)
    (a b : PVector α) : Bool :=
  pyIsV a b || decide (a.toList = b.toList)

/-- Source: `PVector.__gt__`. -/
def vec_gt (cmp : α → α → Ordering) (a b : PVector α) : Bool :=
  pyListCmp cmp a.toList b.toList == .gt

/-- Source: `PVector.__lt__`. -/
def vec_lt (cmp : α → α → Ordering) (a b : PVector α) : Bool :=
  pyListCmp cmp a.toList b.toList == .lt

/-- Source: `PVector.__ge__`. -/
def vec_ge (cmp : α → α → Ordering) (a b : PVector α) : Bool :=
  pyListCmp cmp a.toList b.toList != .lt

/-- Source: `PVector.__le__`. -/
def vec_le (cmp : α → α → Ordering) (a b : PVector α) : Bool :=
  pyListCmp cmp a.toList b.toList != .gt

def vec_neM [DecidableEq α] : PyVal α → PyVal α → Option Bool :=
  comparator vec_ne

def vec_eqM [DecidableEq α] (pyIsV : PVector α → PVector α → Bool) :
    PyVal α → PyVal α → Option Bool :=
  comparator (vec_eq pyIsV)

def vec_gtM (cmp : α → α → Ordering) : PyVal α → PyVal α → Option Bool :=
  comparator (vec_gt cmp)

def vec_ltM (cmp : α → α → Ordering) : PyVal α → PyVal α → Option Bool :=
  comparator (vec_lt cmp)

def vec_geM (cmp : α → α → Ordering) : PyVal α → PyVal α → Option Bool :=
  comparator (vec_ge cmp)

def vec_leM (cmp : α → α → Ordering) : PyVal α → PyVal α → Option Bool :=
  comparator (vec_le cmp)

/-- The host interpreter's `==`/`!=` dispatch: forward method, reflected
method, identity fallback (`fallback` is `a is b` for `==` and its
negation for `!=`). -/
def hostBoolOp (fwd rev : Option Bool) (fallback : Bool) : Option Bool :=
  match fwd with
  | some b => some b
  | none =>
    match rev with
    | some b => some b
    | none => some fallback

/-!
### Freeze and thaw

`PyObj` is the universe of host values relevant to `freeze`/`thaw`: the
atoms, the four native containers, and the three persistent containers.
`freeze` and `thaw` are direct transcriptions of the source functions:
`freeze` converts a dict to a pmap recursing on values only, a list to a
pvector recursively, a tuple to a tuple recursively, a set to a pset
without recursing, and returns anything else unchanged; `thaw` is the
reverse.  `nativeB d x` says `x` is built from native containers with
atoms at the leaves, nested at most `d` deep.
-/

inductive PyObj where
  | int : Int → PyObj
  | str : String → PyObj
  | list : List PyObj → PyObj
  | tuple : List PyObj → PyObj
  | set : List PyObj → PyObj
  | dict : List (PyObj × PyObj) → PyObj
  | pvec : List PyObj → PyObj
  | pmap : List (PyObj × PyObj) → PyObj
  | pset : List PyObj → PyObj

mutual

def freeze : PyObj → PyObj
  | .dict kvs => .pmap (freezeVals kvs)
  | .list xs => .pvec (freezeList xs)
  | .tuple xs => .tuple (freezeList xs)
  | .set xs => .pset xs
  | .int n => .int n
  | .str t => .str t
  | .pvec xs => .pvec xs
  | .pmap kvs => .pmap kvs
  | .pset xs => .pset xs

def freezeList : List PyObj → List PyObj
  | [] => []
  | x :: xs => freeze x :: freezeList xs

def freezeVals : List (PyObj × PyObj) → List (PyObj × PyObj)
  | [] => []
  | (k, v) :: kvs => (k, freeze v) :: freezeVals kvs

end

mutual

def thaw : PyObj → PyObj
  | .pvec xs => .list (thawList xs)
  | .pmap kvs => .dict (thawVals kvs)
  | .tuple xs => .tuple (thawList xs)
  | .pset xs => .set xs
  | .int n => .int n
  | .str t => .str t
  | .list xs => .list xs
  | .dict kvs => .dict kvs
  | .set xs => .set xs

def thawList : List PyObj → List PyObj
  | [] => []
  | x :: xs => thaw x :: thawList xs

def thawVals : List (PyObj × PyObj) → List (PyObj × PyObj)
  | [] => []
  | (k, v) :: kvs => (k, thaw v) :: thawVals kvs

end

def PyObj.isAtom : PyObj → Bool
  | .int _ => true
  | .str _ => true
  | _ => false

def nativeB : Nat → PyObj → Bool
  | 0, x => x.isAtom
  | _+1, .int _ => true
  | _+1, .str _ => true
  | d+1, .list xs => xs.all (nativeB d)
  | d+1, .tuple xs => xs.all (nativeB d)
  | d+1, .set xs => xs.all (nativeB d)
  | d+1, .dict kvs => kvs.all (fun kv => nativeB d kv.1 && nativeB d kv.2)
  | _+1, _ => false

/-!
### Persistent records

The record layer on top of `PMap`: a class (`RecordCls`) carries the
declared fields, the global invariants, the precomputed mandatory-field
names and the missing-field rendering; a field (`FieldSpec`) carries its
factory, type check, invariant and mandatory flag.  `_PRecordEvolver`
extends the map evolver with the two accumulated error lists.  A factory
may raise `InvariantException` (the `Except.error` case), which
`__setitem__` catches, extending both lists and skipping the write;
`persistent` first extends the missing list with every mandatory field
absent from the result (the source guards this with
`if cls._precord_mandatory_fields:`, which changes nothing when the set
is empty), raises with the accumulated field-stage lists when either is
nonempty, and only otherwise evaluates the global invariants, raising
with the codes of every failing one.
-/

structure FieldSpec (V EC MF : Type) where
  factory : V → Except (List EC × List MF) V
  hasType : Bool
  typeOk : V → Bool
  invariant : V → Bool × EC
  mandatory : Bool

structure RecordCls (K V EC MF : Type) where
  fields : K → Option (FieldSpec V EC MF)
  invariants : List (PMap K V → Bool × EC)
  mandatoryFields : List K
  renderMissing : K → MF

structure PRecEvolver (K V EC MF : Type) where
  base : MEvolver K V
  invariantErrorCodes : List EC
  missingFields : List MF

/-- Source: `PRecord.evolver` / `_PRecordEvolver.__init__`. -/
def PRecEvolver.init (m : PMap K V) : PRecEvolver K V EC MF :=
  ⟨m.evolver, [], []⟩

/-- Source: `_PRecordEvolver.__setitem__`.  `none` models the uncaught
`TypeError` (the value fails the type check) and `AttributeError` (the
key is not among the declared fields). -/
def PRecEvolver.setitem [DecidableEq K] (hash : K → Int)
    (loadCheck : Nat → Nat → Bool) (pyIs : V → V → Bool)
    (cls : RecordCls K V EC MF) (e : PRecEvolver K V EC MF)
    (key : K) (originalValue : V) : Option (PRecEvolver K V EC MF) :=
  match cls.fields key with
  | some field =>
    match field.factory originalValue with
    | .error p =>
      some { e with invariantErrorCodes := e.invariantErrorCodes ++ p.1,
                    missingFields := e.missingFields ++ p.2 }
    | .ok value =>
      if field.hasType && !field.typeOk value then none
      else
        let codes := if (field.invariant value).1 then e.invariantErrorCodes
                     else e.invariantErrorCodes ++ [(field.invariant value).2]
        (MEvolver.setitem hash loadCheck pyIs e.base key value).map
          (fun b => { e with base := b, invariantErrorCodes := codes })
  | none => none

/-- The second stage of `_PRecordEvolver.persistent`: the codes of every
failing global invariant, in declaration order. -/
def globalCodes (cls : RecordCls K V EC MF) (result : PMap K V) : List EC :=
  ((cls.invariants.map (fun inv => inv result)).filter
    (fun p => !p.1)).map (fun p => p.2)

/-- The mandatory-field extension of `_PRecordEvolver.persistent`:
`cls._precord_mandatory_fields - set(result.keys())`, rendered. -/
def missingNow [DecidableEq K] (hash : K → Int) (cls : RecordCls K V EC MF)
    (result : PMap K V) : List MF :=
  (cls.mandatoryFields.filter
    (fun f => !(PMap.containsBuckets hash result.buckets f))).map
    cls.renderMissing

/-- Source: `_PRecordEvolver.persistent`. -/
def PRecEvolver.persistent [DecidableEq K] (hash : K → Int)
    (cls : RecordCls K V EC MF) (e : PRecEvolver K V EC MF) :
    Except (List EC × List MF) (PMap K V) :=
  let result := MEvolver.persistent e.base
  let missing := e.missingFields ++ missingNow hash cls result
  if e.invariantErrorCodes.isEmpty = false ∨ missing.isEmpty = false then
    .error (e.invariantErrorCodes, missing)
  else if (globalCodes cls result).isEmpty = false then
    .error (globalCodes cls result, [])
  else
    .ok result

/-- A record-evolver session: the writes of `PRecord.__new__`,
`PRecord.set`/`update` and explicit evolver use, in order. -/
def runRecOps [DecidableEq K] (hash : K → Int) (loadCheck : Nat → Nat → Bool)
    (pyIs : V → V → Bool) (cls : RecordCls K V EC MF) :
    PRecEvolver K V EC MF → List (K × V) → Option (PRecEvolver K V EC MF)
  | e, [] => some e
  | e, (k, v) :: ops =>
    match PRecEvolver.setitem hash loadCheck pyIs cls e k v with
    | some e' => runRecOps hash loadCheck pyIs cls e' ops
    | none => none

/-- The field-invariant codes a session of straight-through writes (the
factory succeeds, no type check) accumulates: one code per write whose
field invariant rejects the value, in op order. -/
def fieldCodes (cls : RecordCls K V EC MF) : List (K × V) → List EC
  | [] => []
  | (k, v) :: ops =>
    (match cls.fields k with
     | some f => if (f.invariant v).1 then [] else [(f.invariant v).2]
     | none => []) ++ fieldCodes cls ops

/-- The concrete record class of the `C8` counterexample: one declared
field (key `0`) whose invariant always fails with code `1`, and one
global invariant that always fails with code `2`. -/
def cls0 : RecordCls Nat Nat Nat Nat where
  fields := fun k =>
    if k = 0 then
      some ⟨fun v => .ok v, false, fun _ => true, fun _ => (false, 1), false⟩
    else none
  invariants := [fun _ => (false, 2)]
  mandatoryFields := []
  renderMissing := fun k => k

/-! ### Lemmas about `chunksOf` -/

theorem chunksOf_nil (n : Nat) : chunksOf n ([] : List α) = [] := by
  simp [chunksOf]

theorem chunksOf_cons_of (n : Nat) (l : List α) (hn : n ≠ 0) (hl : l ≠ []) :
    chunksOf n l = l.take n :: chunksOf n (l.drop n) := by
  rw [chunksOf]
  simp [hl, hn]

theorem chunksOf_flatten (n : Nat) (hn : n ≠ 0) (l : List α) :
    (chunksOf n l).flatten = l := by
  suffices H : ∀ len (l : List α), l.length ≤ len → (chunksOf n l).flatten = l from
    H l.length l le_rfl
  intro len
  induction len with
  | zero =>
    intro l hl
    have : l = [] := List.length_eq_zero.mp (by omega)
    simp [this, chunksOf_nil]
  | succ len ih =>
    intro l hlen
    by_cases hl : l = []
    · simp [hl, chunksOf_nil]
    · rw [chunksOf_cons_of n l hn hl]
      simp only [List.flatten_cons]
      have hpos : 0 < l.length := List.length_pos.mpr hl
      rw [ih _ (by simp only [List.length_drop]; omega)]
      exact List.take_append_drop n l

theorem chunksOf_length (n : Nat) (hn : n ≠ 0) (l : List α) :
    (chunksOf n l).length = (l.length + n - 1) / n := by
  suffices H : ∀ len (l : List α), l.length ≤ len →
      (chunksOf n l).length = (l.length + n - 1) / n from H l.length l le_rfl
  intro len
  induction len with
  | zero =>
    intro l hl
    have : l = [] := List.length_eq_zero.mp (by omega)
    simp [this, chunksOf_nil, Nat.div_eq_of_lt (by omega : n - 1 < n)]
  | succ len ih =>
    intro l hlen
    by_cases hl : l = []
    · simp [hl, chunksOf_nil, Nat.div_eq_of_lt (by omega : n - 1 < n)]
    · rw [chunksOf_cons_of n l hn hl]
      have hpos : 0 < l.length := List.length_pos.mpr hl
      rw [List.length_cons, ih (l.drop n) (by simp only [List.length_drop]; omega),
        List.length_drop]
      have h2 : l.length + n - 1 = (l.length - 1) + n := by omega
      rw [h2, Nat.add_div_right _ (Nat.pos_of_ne_zero hn)]
      rcases Nat.le_total n l.length with hc | hc
      · have h1 : l.length - n + n - 1 = l.length - 1 := by omega
        rw [h1]
      · have h1 : l.length - n + n - 1 = n - 1 := by omega
        rw [h1, Nat.div_eq_of_lt (by omega), Nat.div_eq_of_lt (by omega)]

theorem chunksOf_getElem? (n : Nat) (hn : n ≠ 0) (j : Nat) (l : List α)
    (hj : j * n < l.length) :
    (chunksOf n l)[j]? = some ((l.drop (j * n)).take n) := by
  induction j generalizing l with
  | zero =>
    have hl : l ≠ [] := by
      intro h; subst h; simp at hj
    rw [chunksOf_cons_of n l hn hl]
    simp
  | succ j ih =>
    have hl : l ≠ [] := by
      intro h; subst h; simp at hj
    rw [chunksOf_cons_of n l hn hl]
    have hj' : j * n < (l.drop n).length := by
      simp only [List.length_drop]
      have : (j + 1) * n = j * n + n := by ring
      omega
    rw [List.getElem?_cons_succ, ih (l.drop n) hj', List.drop_drop]
    congr 2
    ring_nf

theorem chunksOf_append_of_dvd (n : Nat) (hn : n ≠ 0) (l t : List α)
    (hd : n ∣ l.length) :
    chunksOf n (l ++ t) = chunksOf n l ++ chunksOf n t := by
  suffices H : ∀ len (l : List α), l.length ≤ len → n ∣ l.length →
      chunksOf n (l ++ t) = chunksOf n l ++ chunksOf n t from H l.length l le_rfl hd
  intro len
  induction len with
  | zero =>
    intro l hl _
    have : l = [] := List.length_eq_zero.mp (by omega)
    simp [this, chunksOf_nil]
  | succ len ih =>
    intro l hlen hdl
    by_cases hl : l = []
    · simp [hl, chunksOf_nil]
    · have hpos : 0 < l.length := List.length_pos.mpr hl
      have hnl : n ≤ l.length := Nat.le_of_dvd hpos hdl
      have hne : l ++ t ≠ [] := by simp [hl]
      rw [chunksOf_cons_of n l hn hl, chunksOf_cons_of n (l ++ t) hn hne]
      rw [List.take_append_of_le_length hnl, List.drop_append_of_le_length hnl]
      rw [ih _ (by simp only [List.length_drop]; omega)
        (by simp only [List.length_drop]; exact Nat.dvd_sub' hdl dvd_rfl)]
      simp

theorem chunksOf_singleton (n : Nat) (l : List α) (hl : l ≠ [])
    (hle : l.length ≤ n) :
    chunksOf n l = [l] := by
  have hpos : 0 < l.length := List.length_pos.mpr hl
  have hn : n ≠ 0 := by omega
  rw [chunksOf_cons_of n l hn hl]
  rw [List.take_of_length_le hle, List.drop_eq_nil_of_le hle, chunksOf_nil]

/-! ### Lemmas about `fillList` and `buildTree` -/

theorem fillList_leaf (es : List α) (s : Nat) :
    (PNode.leaf es).fillList s = if s = 0 then es else [] := by
  rw [PNode.fillList]
  by_cases hs : s = 0 <;> simp [hs]

theorem fillList_branch (cs : List (PNode α)) (s : Nat) (hs : s ≠ 0) :
    (PNode.branch cs).fillList s = (cs.map (fun n => n.fillList (s - SHIFT))).flatten := by
  rw [PNode.fillList]
  simp only [hs, if_true, ne_eq, not_false_iff]
  congr 1
  rw [List.map_attach]
  simp

theorem list_take_set (l : List α) (n m : Nat) (a : α) :
    (l.set m a).take n = if m < n then (l.take n).set m a else l.take n := by
  induction l generalizing n m with
  | nil => simp
  | cons x xs ih =>
    cases m with
    | zero =>
      cases n with
      | zero => simp
      | succ n => simp
    | succ m =>
      cases n with
      | zero => simp
      | succ n =>
        simp only [List.set_cons_succ, List.take_succ_cons, ih]
        by_cases hmn : m < n
        · simp [hmn, Nat.succ_lt_succ hmn]
        · simp [hmn, fun hh => hmn (Nat.lt_of_succ_lt_succ hh)]

theorem fillList_buildTree (h : Nat) (l : List α) :
    (buildTree h l).fillList (SHIFT * h) = l := by
  induction h generalizing l with
  | zero => simp [buildTree, fillList_leaf]
  | succ h ih =>
    have hs : SHIFT * (h + 1) ≠ 0 := by simp [SHIFT]
    have harith : SHIFT * (h + 1) - SHIFT = SHIFT * h := by simp [SHIFT]; omega
    rw [buildTree, fillList_branch _ _ hs, List.map_map, harith]
    have hmap : ∀ c ∈ chunksOf (BRANCH_FACTOR ^ (h + 1)) l,
        ((fun n => PNode.fillList n (SHIFT * h)) ∘ buildTree h) c = id c := by
      intro c _
      simp [Function.comp, ih]
    rw [List.map_congr_left hmap, List.map_id]
    exact chunksOf_flatten _ (by simp [BRANCH_FACTOR]) l

/-! ### Index arithmetic for the bit walk -/

theorem and_mask_eq_mod (x : Nat) : x &&& BIT_MASK = x % BRANCH_FACTOR :=
  Nat.and_pow_two_sub_one_eq_mod x 5

theorem two_pow_shift_mul (h : Nat) : 2 ^ (SHIFT * h) = BRANCH_FACTOR ^ h := by
  rw [Nat.pow_mul]
  norm_num [SHIFT, BRANCH_FACTOR]

/-- The child index chosen at a node of height `h + 1` is the block index
of `i` (modulo the capacity of the node) among `32 ^ (h + 1)`-blocks. -/
theorem subIndex_eq (h i : Nat) :
    (i >>> (SHIFT * (h + 1))) &&& BIT_MASK
      = i % BRANCH_FACTOR ^ (h + 2) / BRANCH_FACTOR ^ (h + 1) := by
  rw [and_mask_eq_mod, Nat.shiftRight_eq_div_pow, two_pow_shift_mul]
  have hsplit : BRANCH_FACTOR ^ (h + 2) = BRANCH_FACTOR ^ (h + 1) * BRANCH_FACTOR := by
    ring
  rw [hsplit, Nat.mod_mul_right_div_self]

theorem mod_pow_succ_lower (h i : Nat) :
    i % BRANCH_FACTOR ^ (h + 2) % BRANCH_FACTOR ^ (h + 1) = i % BRANCH_FACTOR ^ (h + 1) :=
  Nat.mod_mod_of_dvd i (pow_dvd_pow _ (by omega))

/-! ### The bit walk reads the canonical trie correctly -/

theorem walkDown_buildTree (h : Nat) (l : List α) (i : Nat)
    (hlen : l.length ≤ BRANCH_FACTOR ^ (h + 1))
    (hi : i % BRANCH_FACTOR ^ (h + 1) < l.length) :
    ∃ es : List α, (buildTree h l).walkDown (SHIFT * h) i = some (.leaf es) ∧
      es[i &&& BIT_MASK]? = l[i % BRANCH_FACTOR ^ (h + 1)]? := by
  induction h generalizing l with
  | zero =>
    refine ⟨l, ?_, ?_⟩
    · rw [buildTree, PNode.walkDown]
      simp
    · rw [and_mask_eq_mod]
      norm_num
  | succ h ih =>
    have hs : SHIFT * (h + 1) ≠ 0 := by simp [SHIFT]
    set n := BRANCH_FACTOR ^ (h + 1) with hn
    set N := BRANCH_FACTOR ^ (h + 2) with hN
    have hnpos : 0 < n := by
      rw [hn]
      exact pow_pos (by norm_num [BRANCH_FACTOR]) _
    set j := i % N / n with hj
    have hjn : j * n ≤ i % N := by
      rw [hj, Nat.mul_comm]
      exact Nat.mul_div_le _ _
    have hjlt : j * n < l.length := lt_of_le_of_lt hjn hi
    have hchunk : (chunksOf n l)[j]? = some ((l.drop (j * n)).take n) :=
      chunksOf_getElem? n (by omega) j l hjlt
    have hstep : (buildTree (h + 1) l).walkDown (SHIFT * (h + 1)) i
        = PNode.walkDown (buildTree h ((l.drop (j * n)).take n)) (SHIFT * h) i := by
      conv_lhs => rw [buildTree, PNode.walkDown]
      rw [if_neg hs, subIndex_eq h i, ← hN, ← hn, ← hj, List.getElem?_map, hchunk,
        Option.map_some']
      have harith : SHIFT * (h + 1) - SHIFT = SHIFT * h := by simp only [SHIFT]; omega
      rw [harith]
    rw [hstep]
    set c := (l.drop (j * n)).take n with hc
    have hclen : c.length ≤ n := by
      rw [hc]; simp
    have hmod : i % N % n = i % n := mod_pow_succ_lower h i
    have hdecomp : i % N = j * n + i % n := by
      have h0 := Nat.div_add_mod (i % N) n
      rw [hmod, ← hj, Nat.mul_comm n j] at h0
      exact h0.symm
    have hcl : i % n < c.length := by
      have h1 : i % n < n := Nat.mod_lt _ hnpos
      have h2 : c.length = min n (l.length - j * n) := by rw [hc]; simp
      have h3 : j * n + i % n < l.length := lt_of_eq_of_lt hdecomp.symm hi
      rw [h2]
      exact lt_min h1 (Nat.lt_sub_of_add_lt (by rwa [Nat.add_comm] at h3))
    obtain ⟨es, hwalk, hes⟩ := ih c hclen hcl
    refine ⟨es, hwalk, ?_⟩
    rw [hes, hc]
    rw [List.getElem?_take_of_lt (by exact Nat.mod_lt _ hnpos), List.getElem?_drop]
    congr 1
    omega

/-! ### Path copying updates the canonical trie correctly -/

theorem div_lt_chunksOf_length (n : Nat) (hn : n ≠ 0) (l : List α) (m : Nat)
    (hm : m < l.length) :
    m / n < (chunksOf n l).length := by
  rw [chunksOf_length n hn]
  rw [Nat.div_lt_iff_lt_mul (Nat.pos_of_ne_zero hn)]
  have h1 : l.length + n - 1 = (l.length - 1) + n := by omega
  rw [h1, Nat.add_div_right _ (Nat.pos_of_ne_zero hn), Nat.add_mul, Nat.one_mul]
  have h2 : m ≤ l.length - 1 := by omega
  calc m ≤ l.length - 1 := h2
    _ < (l.length - 1) / n * n + n := Nat.lt_div_mul_add (Nat.pos_of_ne_zero hn)

theorem le_chunksOf_length_iff (n : Nat) (hn : n ≠ 0) (l : List α) (k : Nat)
    (hk : l.length ≤ k * n) :
    (chunksOf n l).length ≤ k := by
  rw [chunksOf_length n hn, Nat.div_le_iff_le_mul_add_pred (Nat.pos_of_ne_zero hn)]
  calc l.length + n - 1 ≤ k * n + (n - 1) := by omega
    _ = n * k + (n - 1) := by ring_nf

theorem chunksOf_set (n : Nat) (hn : n ≠ 0) (l : List α) (m : Nat) (v : α)
    (hm : m < l.length) :
    chunksOf n (l.set m v)
      = (chunksOf n l).set (m / n) (((l.drop (m / n * n)).take n).set (m % n) v) := by
  have hnpos : 0 < n := Nat.pos_of_ne_zero hn
  apply List.ext_getElem?
  intro k
  by_cases hk : k * n < l.length
  · rw [chunksOf_getElem? n hn k _ (by rwa [List.length_set]), List.getElem?_set]
    by_cases hjk : m / n = k
    · subst hjk
      rw [if_pos rfl, if_pos (div_lt_chunksOf_length n hn l m hm)]
      have hge : ¬ m < m / n * n := by
        simp only [not_lt]
        exact Nat.div_mul_le_self m n
      rw [List.drop_set, if_neg (by omega : ¬ m < m / n * n)]
      have hsub : m - m / n * n = m % n := by
        have h0 := Nat.div_add_mod m n
        rw [Nat.mul_comm] at h0
        omega
      rw [hsub, list_take_set, if_pos (Nat.mod_lt _ hnpos)]
    · rw [if_neg hjk, chunksOf_getElem? n hn k l hk]
      by_cases hmk : m < k * n
      · rw [List.drop_set, if_pos hmk]
      · have hup : ¬ (m - k * n < n) := by
          simp only [not_lt] at hmk ⊢
          have h1 : m / n ≠ k := hjk
          have h2 : k < m / n := by
            rcases Nat.lt_or_ge k (m / n) with hc | hc
            · exact hc
            · exfalso
              have h3 : m / n < k ∨ m / n = k := by omega
              rcases h3 with h3 | h3
              · have h4 : m < k * n := by
                  have h5 : m < m / n * n + n := Nat.lt_div_mul_add (Nat.pos_of_ne_zero hn)
                  have h6 : (m / n + 1) * n ≤ k * n := Nat.mul_le_mul_right n (by omega)
                  rw [Nat.succ_mul] at h6
                  omega
                exact absurd h4 (by omega)
              · exact hjk h3
          have h5 : (k + 1) * n ≤ m / n * n := Nat.mul_le_mul_right n (by omega)
          have h6 : m / n * n ≤ m := Nat.div_mul_le_self m n
          calc n = (k + 1) * n - k * n := by rw [Nat.succ_mul]; omega
            _ ≤ m - k * n := by omega
        rw [List.drop_set, if_neg (by omega : ¬ m < k * n), list_take_set, if_neg hup]
  · have hlk : l.length ≤ k * n := by omega
    rw [List.getElem?_eq_none, List.getElem?_eq_none]
    · rw [List.length_set]
      exact le_chunksOf_length_iff n hn l k hlk
    · exact le_chunksOf_length_iff n hn _ k (by rwa [List.length_set])

theorem doSet_buildTree (h : Nat) (l : List α) (i : Nat) (val : α)
    (hlen : l.length ≤ BRANCH_FACTOR ^ (h + 1))
    (hi : i % BRANCH_FACTOR ^ (h + 1) < l.length) :
    PNode.doSet (SHIFT * h) (buildTree h l) i val
      = buildTree h (l.set (i % BRANCH_FACTOR ^ (h + 1)) val) := by
  induction h generalizing l with
  | zero =>
    rw [Nat.mul_zero, buildTree, PNode.doSet]
    simp only [if_pos rfl]
    rw [buildTree, and_mask_eq_mod]
    norm_num
  | succ h ih =>
    have hs : SHIFT * (h + 1) ≠ 0 := by simp [SHIFT]
    set n := BRANCH_FACTOR ^ (h + 1) with hn
    set N := BRANCH_FACTOR ^ (h + 2) with hN
    have hnpos : 0 < n := by
      rw [hn]
      exact pow_pos (by norm_num [BRANCH_FACTOR]) _
    set j := i % N / n with hj
    have hjn : j * n ≤ i % N := by
      rw [hj, Nat.mul_comm]
      exact Nat.mul_div_le _ _
    have hjlt : j * n < l.length := lt_of_le_of_lt hjn hi
    have hchunk : (chunksOf n l)[j]? = some ((l.drop (j * n)).take n) :=
      chunksOf_getElem? n (by omega) j l hjlt
    have hmod : i % N % n = i % n := mod_pow_succ_lower h i
    have hdecomp : i % N = j * n + i % n := by
      have h0 := Nat.div_add_mod (i % N) n
      rw [hmod, ← hj, Nat.mul_comm n j] at h0
      exact h0.symm
    set c := (l.drop (j * n)).take n with hc
    have hclen : c.length ≤ n := by
      rw [hc]; simp
    have hcl : i % n < c.length := by
      have h1 : i % n < n := Nat.mod_lt _ hnpos
      have h2 : c.length = min n (l.length - j * n) := by rw [hc]; simp
      have h3 : j * n + i % n < l.length := lt_of_eq_of_lt hdecomp.symm hi
      rw [h2]
      exact lt_min h1 (Nat.lt_sub_of_add_lt (by rwa [Nat.add_comm] at h3))
    have hstep : PNode.doSet (SHIFT * (h + 1)) (buildTree (h + 1) l) i val
        = .branch (((chunksOf n l).map (buildTree h)).set j
            (PNode.doSet (SHIFT * h) (buildTree h c) i val)) := by
      conv_lhs => rw [buildTree, PNode.doSet]
      rw [if_neg hs]
      have harith : SHIFT * (h + 1) - SHIFT = SHIFT * h := by simp only [SHIFT]; omega
      simp only [subIndex_eq h i, ← hN, ← hn, ← hj, List.getElem?_map, hchunk,
        Option.map_some', harith]
    rw [hstep, ih c hclen hcl]
    conv_rhs => rw [buildTree]
    rw [chunksOf_set n (by omega) l (i % N) val hi, ← hj, hmod, ← hc, List.map_set]

/-! ### Pushing a full tail into the canonical trie -/

theorem newPath_buildTree (h : Nat) (t : List α) (ht : t ≠ [])
    (htl : t.length ≤ BRANCH_FACTOR) :
    PNode.newPath (SHIFT * h) (.leaf t) = buildTree h t := by
  induction h with
  | zero =>
    rw [Nat.mul_zero, PNode.newPath, buildTree]
    simp
  | succ h ih =>
    have hs : SHIFT * (h + 1) ≠ 0 := by simp [SHIFT]
    rw [PNode.newPath, if_neg hs]
    have harith : SHIFT * (h + 1) - SHIFT = SHIFT * h := by simp only [SHIFT]; omega
    rw [harith, ih, buildTree, chunksOf_singleton _ t ht]
    · simp
    · calc t.length ≤ BRANCH_FACTOR := htl
        _ = BRANCH_FACTOR ^ 1 := (pow_one _).symm
        _ ≤ BRANCH_FACTOR ^ (h + 1) :=
          Nat.pow_le_pow_right (by norm_num [BRANCH_FACTOR]) (by omega)

theorem chunksOf_split_last (n : Nat) (hn : n ≠ 0) (l : List α)
    (hnd : ¬ n ∣ l.length) :
    chunksOf n l
      = chunksOf n (l.take (l.length / n * n)) ++ [l.drop (l.length / n * n)] := by
  have hq : l.length / n * n ≤ l.length := Nat.div_mul_le_self _ _
  have hrpos : l.length / n * n ≠ l.length := by
    intro hcon
    exact hnd ⟨l.length / n, by rw [Nat.mul_comm]; exact hcon.symm⟩
  have hdrop : (l.drop (l.length / n * n)).length = l.length - l.length / n * n := by
    simp
  have hdne : l.drop (l.length / n * n) ≠ [] := by
    intro hcon
    have := congrArg List.length hcon
    rw [hdrop] at this
    simp at this
    omega
  have hmod : l.length - l.length / n * n = l.length % n := by
    have h0 := Nat.div_add_mod l.length n
    rw [Nat.mul_comm] at h0
    omega
  have hdlen : (l.drop (l.length / n * n)).length ≤ n := by
    rw [hdrop, hmod]
    exact le_of_lt (Nat.mod_lt _ (Nat.pos_of_ne_zero hn))
  conv_lhs => rw [← List.take_append_drop (l.length / n * n) l]
  rw [chunksOf_append_of_dvd n hn _ _ (by
    rw [List.length_take, min_eq_left hq]
    exact ⟨l.length / n, Nat.mul_comm _ n⟩)]
  rw [chunksOf_singleton n _ hdne hdlen]

theorem pushTail_buildTree (h : Nat) (hh : 1 ≤ h) :
    ∀ (l t : List α) (c : Nat),
    BRANCH_FACTOR ∣ l.length →
    l.length + BRANCH_FACTOR ≤ BRANCH_FACTOR ^ (h + 1) →
    t.length = BRANCH_FACTOR →
    (c - 1) % BRANCH_FACTOR ^ (h + 1) = l.length + BIT_MASK →
    PNode.pushTail c (SHIFT * h) (buildTree h l) (.leaf t) = buildTree h (l ++ t) := by
  induction h, hh using Nat.le_induction with
  | base =>
    intro l t c hdvd hroom ht hc
    have htne : t ≠ [] := by
      intro hcon
      rw [hcon] at ht
      simp [BRANCH_FACTOR] at ht
    have hstep : PNode.pushTail c (SHIFT * 1) (buildTree 1 l) (.leaf t)
        = PNode.branch (((chunksOf (BRANCH_FACTOR ^ (0 + 1)) l).map (buildTree 0))
            ++ [PNode.leaf t]) := by
      conv_lhs => rw [buildTree, PNode.pushTail.eq_def]
      norm_num [SHIFT]
    rw [hstep]
    conv_rhs => rw [buildTree]
    rw [chunksOf_append_of_dvd _ (by norm_num [BRANCH_FACTOR]) l t (by simpa using hdvd)]
    rw [chunksOf_singleton _ t htne (by simp [ht])]
    simp
    rw [buildTree]
  | succ h hh ih =>
    intro l t c hdvd hroom ht hc
    have hs : SHIFT * (h + 1) ≠ 0 := by simp [SHIFT]
    have hns : SHIFT * (h + 1) ≠ SHIFT := by
      simp only [SHIFT]
      omega
    have harith : SHIFT * (h + 1) - SHIFT = SHIFT * h := by simp only [SHIFT]; omega
    set n := BRANCH_FACTOR ^ (h + 1) with hn
    set N := BRANCH_FACTOR ^ (h + 2) with hN
    have hnpos : 0 < n := by
      rw [hn]
      exact pow_pos (by norm_num [BRANCH_FACTOR]) _
    have hn32 : BRANCH_FACTOR ≤ n := by
      rw [hn]
      calc BRANCH_FACTOR = BRANCH_FACTOR ^ 1 := (pow_one _).symm
        _ ≤ BRANCH_FACTOR ^ (h + 1) :=
          Nat.pow_le_pow_right (by norm_num [BRANCH_FACTOR]) (by omega)
    have hdvdn : BRANCH_FACTOR ∣ n := by
      rw [hn]
      exact dvd_pow_self _ (by omega)
    have htne : t ≠ [] := by
      intro hcon
      rw [hcon] at ht
      simp [BRANCH_FACTOR] at ht
    have hrdvd : BRANCH_FACTOR ∣ l.length % n := (Nat.dvd_mod_iff hdvdn).mpr hdvd
    have hrlt : l.length % n < n := Nat.mod_lt _ hnpos
    have hrbound : l.length % n + BIT_MASK < n := by
      have h5 : BRANCH_FACTOR ∣ (n - l.length % n) := Nat.dvd_sub' hdvdn hrdvd
      have h6 : 0 < n - l.length % n := by omega
      have h7 : BRANCH_FACTOR ≤ n - l.length % n := Nat.le_of_dvd h6 h5
      simp only [BIT_MASK, BRANCH_FACTOR] at *
      omega
    have hcmod : (c - 1) % n = l.length % n + BIT_MASK := by
      have h0 : (c - 1) % N % n = (c - 1) % n :=
        Nat.mod_mod_of_dvd _ (by rw [hn, hN]; exact pow_dvd_pow _ (by omega))
      have hbm : BIT_MASK % n = BIT_MASK :=
        Nat.mod_eq_of_lt (by simp only [BIT_MASK, BRANCH_FACTOR] at *; omega)
      rw [← h0, hc, Nat.add_mod, hbm, Nat.mod_eq_of_lt hrbound]
    -- the child index examined by `pushTail`
    have hsub : ((c - 1) >>> (SHIFT * (h + 1))) &&& BIT_MASK = (l.length + BIT_MASK) / n := by
      rw [subIndex_eq h (c - 1), ← hN, ← hn, hc]
    have hq : (l.length + BIT_MASK) / n = l.length / n := by
      conv_lhs => rw [← Nat.div_add_mod l.length n, Nat.add_assoc, Nat.mul_add_div hnpos]
      rw [Nat.div_eq_of_lt hrbound, Nat.add_zero]
    set q := l.length / n with hqdef
    have hBM : BIT_MASK = 31 := rfl
    have hBF : BRANCH_FACTOR = 32 := rfl
    -- unfold one step of `pushTail`
    conv_lhs => rw [buildTree, PNode.pushTail.eq_def]
    rw [if_neg hs]
    simp only [if_neg hns, hsub, hq, ← hqdef]
    by_cases hdl : n ∣ l.length
    · -- the last child is full: append a fresh path holding the tail
      have hlq : l.length = n * q := by
        rcases hdl with ⟨k, hk⟩
        rw [hqdef, hk, Nat.mul_div_cancel_left _ hnpos]
      have hcslen : (chunksOf n l).length = q := by
        rw [chunksOf_length n (by omega) l, hlq]
        have : n * q + n - 1 = n * q + (n - 1) := by omega
        rw [this, Nat.mul_add_div hnpos, Nat.div_eq_of_lt (by omega), Nat.add_zero]
      rw [dif_neg (by rw [List.length_map, hcslen]; omega)]
      rw [harith, newPath_buildTree h t htne (by rw [ht])]
      conv_rhs => rw [buildTree]
      rw [chunksOf_append_of_dvd n (by omega) l t hdl,
        chunksOf_singleton n t htne (by rw [ht]; exact hn32)]
      simp
    · -- the last child is partial: push the tail into it recursively
      have hrpos : 0 < l.length % n := by
        rcases Nat.eq_zero_or_pos (l.length % n) with hz | hz
        · exact absurd (Nat.dvd_of_mod_eq_zero hz) hdl
        · exact hz
      have hqn : q * n ≤ l.length := by
        rw [hqdef]
        exact Nat.div_mul_le_self _ _
      have hdroplen : (l.drop (q * n)).length = l.length % n := by
        simp only [List.length_drop]
        have h0 := Nat.div_add_mod l.length n
        rw [Nat.mul_comm, ← hqdef] at h0
        omega
      have hcslen : (chunksOf n l).length = q + 1 := by
        rw [chunksOf_length n (by omega) l]
        conv_lhs => rw [← Nat.div_add_mod l.length n, Nat.mul_comm, ← hqdef]
        have : q * n + l.length % n + n - 1 = q * n + (l.length % n + n - 1) := by omega
        rw [this, Nat.mul_comm q n, Nat.mul_add_div hnpos]
        have hone : (l.length % n + n - 1) / n = 1 := by
          have hlow : 1 * n ≤ l.length % n + n - 1 := by omega
          have hhigh : l.length % n + n - 1 < 2 * n := by omega
          exact Nat.div_eq_of_lt_le hlow hhigh
        rw [hone]
      rw [dif_pos (by rw [List.length_map, hcslen]; omega)]
      have hqlt : q * n < l.length := by
        have h0 := hdroplen
        simp only [List.length_drop] at h0
        omega
      -- identify the child that is descended into
      have hchunk? : (chunksOf n l)[q]? = some (l.drop (q * n)) := by
        rw [chunksOf_getElem? n (by omega) q l hqlt]
        congr 1
        exact List.take_of_length_le (by rw [hdroplen]; omega)
      have hqlt2 : q < ((chunksOf n l).map (buildTree h)).length := by
        rw [List.length_map, hcslen]
        omega
      have hchild : ((chunksOf n l).map (buildTree h))[q]
          = buildTree h (l.drop (q * n)) := by
        have h0 : ((chunksOf n l).map (buildTree h))[q]? = some (buildTree h (l.drop (q * n))) := by
          rw [List.getElem?_map, hchunk?, Option.map_some']
        rwa [List.getElem?_eq_getElem hqlt2, Option.some_inj] at h0
      rw [hchild, harith]
      have hroom2 : (l.drop (q * n)).length + BRANCH_FACTOR ≤ BRANCH_FACTOR ^ (h + 1) := by
        rw [hdroplen, ← hn]
        omega
      have hc2 : (c - 1) % BRANCH_FACTOR ^ (h + 1) = (l.drop (q * n)).length + BIT_MASK := by
        rw [← hn, hcmod, hdroplen]
      rw [ih (l.drop (q * n)) t c (by rw [hdroplen]; exact hrdvd) hroom2 ht hc2]
      -- now rebuild the right-hand side
      conv_rhs => rw [buildTree]
      have hsplit : chunksOf n (l ++ t)
          = chunksOf n (l.take (q * n)) ++ [l.drop (q * n) ++ t] := by
        conv_lhs => rw [← List.take_append_drop (q * n) l, List.append_assoc]
        rw [chunksOf_append_of_dvd n (by omega) _ _ (by
          rw [List.length_take, min_eq_left hqn]
          exact ⟨q, Nat.mul_comm _ n⟩)]
        rw [chunksOf_singleton n (l.drop (q * n) ++ t) (by
          intro hcon
          have h9 := congrArg List.length hcon
          rw [List.length_append, hdroplen, ht] at h9
          simp only [List.length_nil] at h9
          omega) (by
          rw [List.length_append, hdroplen, ht]
          omega)]
      have hsplit2 : chunksOf n l = chunksOf n (l.take (q * n)) ++ [l.drop (q * n)] := by
        rw [hqdef] at *
        exact chunksOf_split_last n (by omega) l hdl
      have htakelen : (chunksOf n (l.take (q * n))).length = q := by
        rw [chunksOf_length n (by omega), List.length_take, min_eq_left hqn]
        have : q * n + n - 1 = n * q + (n - 1) := by rw [Nat.mul_comm]; omega
        rw [this, Nat.mul_add_div hnpos, Nat.div_eq_of_lt (by omega), Nat.add_zero]
      rw [hsplit, hsplit2, List.map_append, List.map_append, List.set_append]
      rw [if_neg (by rw [List.length_map, htakelen]; omega)]
      rw [List.length_map, htakelen, Nat.sub_self]
      simp

/-! ### `createNewRoot` and `append` preserve the canonical form -/

theorem bf_pow_pos (k : Nat) : 0 < BRANCH_FACTOR ^ k :=
  pow_pos (by norm_num [BRANCH_FACTOR]) k

theorem bf_pow_ne_zero (k : Nat) : BRANCH_FACTOR ^ k ≠ 0 := (bf_pow_pos k).ne'

theorem bf_le_bf_pow (k : Nat) (hk : 1 ≤ k) : BRANCH_FACTOR ≤ BRANCH_FACTOR ^ k := by
  calc BRANCH_FACTOR = BRANCH_FACTOR ^ 1 := (pow_one _).symm
    _ ≤ BRANCH_FACTOR ^ k := Nat.pow_le_pow_right (by norm_num [BRANCH_FACTOR]) hk

theorem createNewRoot_spec (v : PVector α) (h : Nat) (lt : List α)
    (hh : 1 ≤ h) (hshift : v.shift = SHIFT * h) (hroot : v.root = buildTree h lt)
    (hdvd : BRANCH_FACTOR ∣ lt.length) (hlen : lt.length ≤ BRANCH_FACTOR ^ (h + 1))
    (htail : v.tail.length = BRANCH_FACTOR)
    (hcount : v.count = lt.length + BRANCH_FACTOR) :
    ∃ h', 1 ≤ h' ∧ v.createNewRoot.2 = SHIFT * h'
      ∧ v.createNewRoot.1 = buildTree h' (lt ++ v.tail)
      ∧ lt.length + BRANCH_FACTOR ≤ BRANCH_FACTOR ^ (h' + 1) := by
  have hBF : BRANCH_FACTOR = 32 := rfl
  have htne : v.tail ≠ [] := by
    intro hcon
    rw [hcon] at htail
    simp [BRANCH_FACTOR] at htail
  have hshiftpow : (1 <<< v.shift) = BRANCH_FACTOR ^ h := by
    rw [hshift, Nat.one_shiftLeft, two_pow_shift_mul]
  have hcountdiv : v.count >>> SHIFT = lt.length / BRANCH_FACTOR + 1 := by
    rw [Nat.shiftRight_eq_div_pow, hcount]
    have h32 : (2 : Nat) ^ SHIFT = BRANCH_FACTOR := by norm_num [SHIFT, BRANCH_FACTOR]
    rw [h32]
    rcases hdvd with ⟨k, hk⟩
    rw [hk, ← Nat.mul_succ, Nat.mul_div_cancel_left _ (by norm_num [BRANCH_FACTOR]),
      Nat.mul_div_cancel_left _ (by norm_num [BRANCH_FACTOR])]
  have hcond : (v.count >>> SHIFT > 1 <<< v.shift) ↔ lt.length = BRANCH_FACTOR ^ (h + 1) := by
    rw [hcountdiv, hshiftpow]
    constructor
    · intro hgt
      have h1 : BRANCH_FACTOR ^ h ≤ lt.length / BRANCH_FACTOR := by omega
      have h2 : BRANCH_FACTOR ^ (h + 1) ≤ lt.length := by
        have h3 := Nat.mul_le_mul_left BRANCH_FACTOR h1
        calc BRANCH_FACTOR ^ (h + 1) = BRANCH_FACTOR * BRANCH_FACTOR ^ h := by ring
          _ ≤ BRANCH_FACTOR * (lt.length / BRANCH_FACTOR) := h3
          _ ≤ lt.length := Nat.mul_div_le _ _
      omega
    · intro heq
      rw [heq]
      have : BRANCH_FACTOR ^ (h + 1) / BRANCH_FACTOR = BRANCH_FACTOR ^ h := by
        rw [pow_succ, Nat.mul_div_cancel _ (by norm_num [BRANCH_FACTOR])]
      rw [this]
      omega
  rw [PVector.createNewRoot]
  by_cases hover : lt.length = BRANCH_FACTOR ^ (h + 1)
  · -- root overflow: one extra level
    rw [if_pos (hcond.mpr hover)]
    refine ⟨h + 1, by omega, by rw [hshift]; ring, ?_, ?_⟩
    · rw [hroot, hshift]
      rw [newPath_buildTree h v.tail htne (by rw [htail])]
      conv_rhs => rw [buildTree]
      rw [chunksOf_append_of_dvd _ (bf_pow_ne_zero (h + 1)) lt v.tail
          (by rw [hover]),
        chunksOf_singleton _ lt (by
          intro hcon
          rw [hcon] at hover
          rw [List.length_nil] at hover
          exact (bf_pow_ne_zero (h + 1)) hover.symm) (le_of_eq hover),
        chunksOf_singleton _ v.tail htne (by rw [htail]; exact bf_le_bf_pow _ (by omega))]
      simp
    · rw [hover]
      calc BRANCH_FACTOR ^ (h + 1) + BRANCH_FACTOR
          ≤ BRANCH_FACTOR ^ (h + 1) + BRANCH_FACTOR ^ (h + 1) := by
            have := bf_le_bf_pow (h + 1) (by omega)
            omega
        _ ≤ BRANCH_FACTOR ^ (h + 1 + 1) := by
            have h2 : BRANCH_FACTOR ^ (h + 1) + BRANCH_FACTOR ^ (h + 1)
                = BRANCH_FACTOR ^ (h + 1) * 2 := by ring
            rw [h2]
            conv_rhs => rw [pow_succ]
            exact Nat.mul_le_mul_left _ (by norm_num [BRANCH_FACTOR])
  · -- room in the current root: push the tail down
    have hroomy : lt.length + BRANCH_FACTOR ≤ BRANCH_FACTOR ^ (h + 1) := by
      have h5 : BRANCH_FACTOR ∣ (BRANCH_FACTOR ^ (h + 1) - lt.length) :=
        Nat.dvd_sub' (dvd_pow_self _ (by omega)) hdvd
      have h6 : 0 < BRANCH_FACTOR ^ (h + 1) - lt.length := by omega
      have h7 : BRANCH_FACTOR ≤ BRANCH_FACTOR ^ (h + 1) - lt.length := Nat.le_of_dvd h6 h5
      omega
    rw [if_neg (by
      intro hgt
      exact hover (hcond.mp hgt))]
    refine ⟨h, hh, hshift, ?_, hroomy⟩
    rw [hroot, hshift]
    exact pushTail_buildTree h hh lt v.tail v.count hdvd hroomy htail (by
      rw [hcount]
      have hc1 : lt.length + BRANCH_FACTOR - 1 = lt.length + BIT_MASK := by
        simp only [BIT_MASK, BRANCH_FACTOR]
        omega
      rw [hc1]
      exact Nat.mod_eq_of_lt (by simp only [BIT_MASK, BRANCH_FACTOR] at *; omega))

theorem append_spec (v : PVector α) (x : α) (hwf : v.WF) :
    (v.append x).WF ∧ (v.append x).toList = v.toList ++ [x]
      ∧ (v.append x).count = v.count + 1 := by
  obtain ⟨h, lt, hh, hshift, hroot, hdvd, hlen, htail, hcount⟩ := hwf
  have hfill : v.root.fillList v.shift = lt := by
    rw [hroot, hshift]
    exact fillList_buildTree h lt
  rw [PVector.append]
  by_cases hr : v.tail.length < BRANCH_FACTOR
  · rw [if_pos hr]
    refine ⟨⟨h, lt, hh, hshift, hroot, hdvd, hlen, ?_, ?_⟩, ?_, rfl⟩
    · simp only [List.length_append, List.length_cons, List.length_nil]
      omega
    · simp only [List.length_append, List.length_cons, List.length_nil]
      omega
    · simp only [PVector.toList, hfill]
      rw [List.append_assoc]
  · rw [if_neg hr]
    have htail32 : v.tail.length = BRANCH_FACTOR := by omega
    obtain ⟨h', hh', hshift', hroot', hroom'⟩ :=
      createNewRoot_spec v h lt hh hshift hroot hdvd hlen htail32 (by omega)
    refine ⟨⟨h', lt ++ v.tail, hh', hshift', hroot', ?_, ?_, ?_, ?_⟩, ?_, rfl⟩
    · simp only [List.length_append, htail32]
      exact Dvd.dvd.add hdvd dvd_rfl
    · simp only [List.length_append, htail32]
      exact hroom'
    · simp [BRANCH_FACTOR]
    · simp only [List.length_append, List.length_cons, List.length_nil, htail32]
      omega
    · simp only [PVector.toList, hroot', hshift']
      rw [fillList_buildTree h' (lt ++ v.tail)]
      simp only [hfill]

/-! ### Bulk extension preserves the canonical form -/

theorem mutatingFillTail_spec (v : PVector α) (seq : List α) (hwf : v.WF) :
    (v.mutatingFillTail seq).1.WF
      ∧ (v.mutatingFillTail seq).1.toList
          = v.toList ++ seq.take (BRANCH_FACTOR - v.tail.length)
      ∧ seq.take (BRANCH_FACTOR - v.tail.length) ++ (v.mutatingFillTail seq).2 = seq := by
  obtain ⟨h, lt, hh, hshift, hroot, hdvd, hlen, htail, hcount⟩ := hwf
  have hfill : v.root.fillList v.shift = lt := by
    rw [hroot, hshift]
    exact fillList_buildTree h lt
  refine ⟨⟨h, lt, hh, hshift, hroot, hdvd, hlen, ?_, ?_⟩, ?_, ?_⟩
  · simp only [PVector.mutatingFillTail, List.length_append, List.length_take]
    omega
  · simp only [PVector.mutatingFillTail, List.length_append, List.length_take]
    omega
  · simp only [PVector.mutatingFillTail, PVector.toList, hfill]
    rw [List.append_assoc]
  · simp only [PVector.mutatingFillTail]
    exact List.take_append_drop _ seq

theorem mutatingInsertTail_spec (v : PVector α) (h : Nat) (lt : List α)
    (hh : 1 ≤ h) (hshift : v.shift = SHIFT * h) (hroot : v.root = buildTree h lt)
    (hdvd : BRANCH_FACTOR ∣ lt.length) (hlen : lt.length ≤ BRANCH_FACTOR ^ (h + 1))
    (htail : v.tail.length = BRANCH_FACTOR)
    (hcount : v.count = lt.length + BRANCH_FACTOR) :
    v.mutatingInsertTail.WF ∧ v.mutatingInsertTail.toList = v.toList := by
  obtain ⟨h', hh', hshift', hroot', hroom'⟩ :=
    createNewRoot_spec v h lt hh hshift hroot hdvd hlen htail hcount
  have hfill : v.root.fillList v.shift = lt := by
    rw [hroot, hshift]
    exact fillList_buildTree h lt
  constructor
  · refine ⟨h', lt ++ v.tail, hh', hshift', hroot', ?_, ?_, ?_, ?_⟩
    · simp only [List.length_append, htail]
      exact Dvd.dvd.add hdvd dvd_rfl
    · simp only [List.length_append, htail]
      exact hroom'
    · simp [PVector.mutatingInsertTail, BRANCH_FACTOR]
    · simp only [PVector.mutatingInsertTail, List.length_nil, List.length_append, htail]
      omega
  · simp only [PVector.mutatingInsertTail, PVector.toList, hroot', hshift']
    rw [fillList_buildTree h' (lt ++ v.tail)]
    simp [hfill]

theorem mutatingExtend_spec (v : PVector α) (seq : List α) :
    v.WF → (v.mutatingExtend seq).WF
      ∧ (v.mutatingExtend seq).toList = v.toList ++ seq := by
  induction v, seq using PVector.mutatingExtend.induct with
  | case1 v seq hempty =>
    intro hwf
    rw [PVector.mutatingExtend, dif_pos hempty]
    have : seq = [] := by simpa [List.isEmpty_iff] using hempty
    simp [this, hwf]
  | case2 v seq hempty p v' ih =>
    intro hwf
    rw [PVector.mutatingExtend, dif_neg hempty]
    obtain ⟨hwf1, htol1, hsplit1⟩ := mutatingFillTail_spec v seq hwf
    have hpdef : p = v.mutatingFillTail seq := rfl
    rw [← hpdef] at hwf1 htol1 hsplit1
    have hstep : v'.WF ∧ v'.toList = p.1.toList := by
      by_cases hfl : BRANCH_FACTOR ≤ p.1.tail.length
      · have hvd : v' = p.1.mutatingInsertTail := dif_pos hfl
        rw [hvd]
        obtain ⟨h, lt, hh, hshift, hroot, hdvd, hlen, htail, hcount⟩ := hwf1
        have htail32 : p.1.tail.length = BRANCH_FACTOR := by omega
        exact mutatingInsertTail_spec _ h lt hh hshift hroot hdvd hlen htail32 (by omega)
      · have hvd : v' = p.1 := dif_neg hfl
        rw [hvd]
        exact ⟨hwf1, rfl⟩
    obtain ⟨ihwf, ihtol⟩ := ih hstep.1
    refine ⟨ihwf, ?_⟩
    exact ihtol.trans (by rw [hstep.2, htol1, List.append_assoc, hsplit1])

theorem extend_spec (v : PVector α) (obj : List α) (hwf : v.WF) :
    (v.extend obj).WF ∧ (v.extend obj).toList = v.toList ++ obj := by
  cases obj with
  | nil => simp [PVector.extend, hwf]
  | cons x rest =>
    rw [PVector.extend]
    obtain ⟨hwfa, htola, _⟩ := append_spec v x hwf
    obtain ⟨hwfm, htolm⟩ := mutatingExtend_spec (v.append x) rest hwfa
    refine ⟨hwfm, ?_⟩
    rw [htolm, htola, List.append_assoc]
    rfl

theorem emptyPVector_wf : (emptyPVector : PVector α).WF := by
  refine ⟨1, [], le_rfl, by norm_num [emptyPVector, SHIFT], ?_, by simp, ?_, ?_, ?_⟩
  · rw [buildTree, chunksOf_nil]
    rfl
  · simp [bf_pow_pos]
  · simp [emptyPVector, BRANCH_FACTOR]
  · simp [emptyPVector]

theorem pvector_spec (l : List α) : (pvector l).WF ∧ (pvector l).toList = l := by
  have h := extend_spec (emptyPVector : PVector α) l emptyPVector_wf
  have hempty : (emptyPVector : PVector α).toList = [] := by
    simp [PVector.toList, emptyPVector, PNode.fillList]
  rw [pvector]
  exact ⟨h.1, by rw [h.2, hempty]; simp⟩

/-! ### Reading and writing single elements -/

theorem count_eq_toList_length (v : PVector α) (hwf : v.WF) :
    v.count = v.toList.length := by
  obtain ⟨h, lt, hh, hshift, hroot, hdvd, hlen, htail, hcount⟩ := hwf
  have hfill : v.root.fillList v.shift = lt := by
    rw [hroot, hshift]
    exact fillList_buildTree h lt
  rw [PVector.toList, hfill, List.length_append, hcount]

theorem tail_index_mod (lt tail : List α) (j : Nat)
    (hdvd : BRANCH_FACTOR ∣ lt.length) (hj : j < tail.length)
    (htail : tail.length ≤ BRANCH_FACTOR) :
    (lt.length + j) &&& BIT_MASK = j := by
  rcases hdvd with ⟨k, hk⟩
  rw [and_mask_eq_mod, hk, Nat.mul_add_mod]
  exact Nat.mod_eq_of_lt (by omega)

theorem get_in_range (v : PVector α) (hwf : v.WF) (i : Nat) (hi : i < v.count) :
    v.get (i : Int) = v.toList[i]? := by
  obtain ⟨h, lt, hh, hshift, hroot, hdvd, hlen, htail, hcount⟩ := hwf
  have hfill : v.root.fillList v.shift = lt := by
    rw [hroot, hshift]
    exact fillList_buildTree h lt
  have htol : v.toList = lt ++ v.tail := by rw [PVector.toList, hfill]
  have hnonneg : ¬ ((i : Int) < 0) := by omega
  have hoffset : v.tailOffset = lt.length := by
    rw [PVector.tailOffset, hcount]
    omega
  rw [PVector.get]
  simp only [hnonneg, if_false]
  rw [PVector.nodeForList, if_pos (by constructor <;> omega)]
  simp only [Int.toNat_natCast, hoffset]
  by_cases hcase : lt.length ≤ i
  · rw [if_pos hcase]
    have hj : i - lt.length < v.tail.length := by omega
    have hmask : i &&& BIT_MASK = i - lt.length := by
      have h0 := tail_index_mod lt v.tail (i - lt.length) hdvd hj htail
      rwa [Nat.add_sub_cancel' hcase] at h0
    rw [Option.some_bind, hmask, htol, List.getElem?_append_right hcase]
  · rw [if_neg hcase]
    push_neg at hcase
    have hi2 : i % BRANCH_FACTOR ^ (h + 1) < lt.length := by
      rw [Nat.mod_eq_of_lt (lt_of_lt_of_le hcase hlen)]
      exact hcase
    obtain ⟨es, hwalk, hes⟩ := walkDown_buildTree h lt i hlen hi2
    rw [hroot, hshift, hwalk]
    rw [Option.some_bind, hes, Nat.mod_eq_of_lt (lt_of_lt_of_le hcase hlen), htol]
    exact (List.getElem?_append_left hcase).symm

theorem get_out_of_range (v : PVector α) (i : Int)
    (hi : ¬ (0 ≤ (if i < 0 then i + (v.count : Int) else i)
        ∧ (if i < 0 then i + (v.count : Int) else i) < (v.count : Int))) :
    v.get i = none := by
  have h0 : v.nodeForList (if i < 0 then i + (v.count : Int) else i) = none := by
    rw [PVector.nodeForList, if_neg hi]
  rw [PVector.get]
  simp only [h0, Option.none_bind]

theorem set_in_range (v : PVector α) (hwf : v.WF) (i : Nat) (hi : i < v.count) (val : α) :
    ∃ w, v.set (i : Int) val = some w ∧ w.WF ∧ w.toList = v.toList.set i val
      ∧ w.count = v.count := by
  obtain ⟨h, lt, hh, hshift, hroot, hdvd, hlen, htail, hcount⟩ := hwf
  have hfill : v.root.fillList v.shift = lt := by
    rw [hroot, hshift]
    exact fillList_buildTree h lt
  have htol : v.toList = lt ++ v.tail := by rw [PVector.toList, hfill]
  have hnonneg : ¬ ((i : Int) < 0) := by omega
  have hoffset : v.tailOffset = lt.length := by
    rw [PVector.tailOffset, hcount]
    omega
  rw [PVector.set]
  simp only [hnonneg, if_false]
  rw [if_pos (by constructor <;> omega)]
  simp only [Int.toNat_natCast, hoffset]
  by_cases hcase : lt.length ≤ i
  · rw [if_pos hcase]
    have hj : i - lt.length < v.tail.length := by omega
    have hmask : i &&& BIT_MASK = i - lt.length := by
      have h0 := tail_index_mod lt v.tail (i - lt.length) hdvd hj htail
      rwa [Nat.add_sub_cancel' hcase] at h0
    refine ⟨_, rfl, ⟨h, lt, hh, hshift, hroot, hdvd, hlen, ?_, ?_⟩, ?_, rfl⟩
    · simp only [List.length_set]
      omega
    · simp only [List.length_set]
      omega
    · simp only [PVector.toList, hfill]
      rw [hmask, List.set_append, if_neg (by omega)]
  · rw [if_neg hcase]
    push_neg at hcase
    have hi2 : i % BRANCH_FACTOR ^ (h + 1) < lt.length := by
      rw [Nat.mod_eq_of_lt (lt_of_lt_of_le hcase hlen)]
      exact hcase
    have hdo : PNode.doSet v.shift v.root i val = buildTree h (lt.set i val) := by
      rw [hroot, hshift, doSet_buildTree h lt i val hlen hi2,
        Nat.mod_eq_of_lt (lt_of_lt_of_le hcase hlen)]
    refine ⟨_, rfl, ⟨h, lt.set i val, hh, hshift, hdo, ?_, ?_, htail, ?_⟩, ?_, rfl⟩
    · simp only [List.length_set]
      exact hdvd
    · simp only [List.length_set]
      exact hlen
    · simp only [List.length_set]
      exact hcount
    · simp only [PVector.toList]
      rw [hfill, hdo, hshift, fillList_buildTree h (lt.set i val)]
      rw [List.set_append, if_pos hcase]

theorem set_at_count (v : PVector α) (i : Int) (val : α)
    (hi : (if i < 0 then i + (v.count : Int) else i) = (v.count : Int)) :
    v.set i val = some (v.append val) := by
  rw [PVector.set]
  rw [if_neg (by omega), if_pos hi]

theorem set_out_of_range (v : PVector α) (i : Int) (val : α)
    (hi : ¬ (0 ≤ (if i < 0 then i + (v.count : Int) else i)
        ∧ (if i < 0 then i + (v.count : Int) else i) < (v.count : Int)))
    (hne : (if i < 0 then i + (v.count : Int) else i) ≠ (v.count : Int)) :
    v.set i val = none := by
  rw [PVector.set]
  rw [if_neg hi, if_neg hne]

/-! ### Evolver sessions simulate direct persistent updates -/

theorem absList_length (e : VEvolver α) (hwf : e.WF) :
    e.absList.length = e.count + e.extraTail.length := by
  rw [VEvolver.absList, List.length_append, ← count_eq_toList_length _ hwf]
  rfl

theorem evolver_reset_spec (v : PVector α) (hwf : v.WF) :
    (VEvolver.reset v).WF ∧ (VEvolver.reset v).absList = v.toList := by
  constructor
  · exact hwf
  · rw [VEvolver.absList]
    simp [VEvolver.reset, VEvolver.asVector, PVector.toList]

theorem evolver_append_spec (e : VEvolver α) (x : α) (hwf : e.WF) :
    (e.append x).WF ∧ (e.append x).absList = e.absList ++ [x] := by
  constructor
  · exact hwf
  · rw [VEvolver.absList, VEvolver.absList, VEvolver.append]
    simp [VEvolver.asVector, PVector.toList, List.append_assoc]

theorem evolver_persistent_spec (e : VEvolver α) (hwf : e.WF) :
    e.persistent.WF ∧ e.persistent.toList = e.absList := by
  obtain ⟨h1, h2⟩ := extend_spec e.asVector e.extraTail hwf
  exact ⟨h1, h2⟩

theorem evolver_set_in_range (e : VEvolver α) (hwf : e.WF) (i : Nat)
    (hi : i < e.count) (x : α) :
    ∃ e', e.set (i : Int) x = some e' ∧ e'.WF
      ∧ e'.absList = e.absList.set i x
      ∧ e'.count = e.count ∧ e'.extraTail = e.extraTail ∧ e'.dirtied = true := by
  have hnonneg : ¬ ((i : Int) < 0) := by omega
  have hrange : 0 ≤ (i : Int) ∧ (i : Int) < (e.count : Int) := ⟨by omega, by exact_mod_cast hi⟩
  have hlen : e.count = (VEvolver.asVector e).toList.length :=
    count_eq_toList_length e.asVector hwf
  simp only [VEvolver.asVector] at hlen
  obtain ⟨w, hw, hwWF, hwtol, hwcount⟩ := set_in_range e.asVector hwf i hi x
  rw [PVector.set, PVector.tailOffset] at hw
  simp only [VEvolver.asVector, hnonneg, if_false, Int.toNat_natCast] at hw
  rw [if_pos hrange] at hw
  simp only [VEvolver.asVector] at hwtol
  rw [VEvolver.set]
  simp only [hnonneg, if_false, Int.toNat_natCast]
  rw [if_pos hrange]
  by_cases hcase : e.count - e.tail.length ≤ i
  · rw [if_pos hcase] at hw ⊢
    injection hw with hw
    refine ⟨_, rfl, ?_, ?_, rfl, rfl, rfl⟩
    · rw [VEvolver.WF]
      simp only [VEvolver.asVector]
      rw [hw]
      exact hwWF
    · simp only [VEvolver.absList, VEvolver.asVector]
      rw [hw, hwtol, List.set_append, if_pos (by omega)]
  · rw [if_neg hcase] at hw ⊢
    injection hw with hw
    refine ⟨_, rfl, ?_, ?_, rfl, rfl, rfl⟩
    · rw [VEvolver.WF]
      simp only [VEvolver.asVector]
      rw [hw]
      exact hwWF
    · simp only [VEvolver.absList, VEvolver.asVector]
      rw [hw, hwtol, List.set_append, if_pos (by omega)]

theorem set_normalize (v : PVector α) (i : Int) (val : α)
    (h0 : 0 ≤ (if i < 0 then i + (v.count : Int) else i)) :
    v.set i val = v.set (if i < 0 then i + (v.count : Int) else i) val := by
  by_cases hi : i < 0
  · rw [if_pos hi] at h0 ⊢
    have hnn : ¬ (i + (v.count : Int) < 0) := by omega
    rw [PVector.set, PVector.set]
    simp only [hi, if_true, hnn, if_false]
  · rw [if_neg hi]

theorem set_int_in_range (v : PVector α) (hwf : v.WF) (i : Int) (val : α)
    (h0 : 0 ≤ (if i < 0 then i + (v.count : Int) else i))
    (h1 : (if i < 0 then i + (v.count : Int) else i) < (v.count : Int)) :
    ∃ w, v.set i val = some w ∧ w.WF
      ∧ w.toList = v.toList.set (if i < 0 then i + (v.count : Int) else i).toNat val
      ∧ w.count = v.count := by
  have hn : (if i < 0 then i + (v.count : Int) else i)
      = ((if i < 0 then i + (v.count : Int) else i).toNat : Int) :=
    (Int.toNat_of_nonneg h0).symm
  obtain ⟨w, hw, hwWF, hwtol, hwc⟩ :=
    set_in_range v hwf (if i < 0 then i + (v.count : Int) else i).toNat (by omega) val
  exact ⟨w, by rw [set_normalize v i val h0, hn]; exact hw, hwWF, hwtol, hwc⟩

theorem evolver_set_normalize (e : VEvolver α) (i : Int) (x : α)
    (h0 : 0 ≤ (if i < 0 then i + (e.count : Int) + e.extraTail.length else i)) :
    e.set i x = e.set (if i < 0 then i + (e.count : Int) + e.extraTail.length else i) x := by
  by_cases hi : i < 0
  · rw [if_pos hi] at h0 ⊢
    have hnn : ¬ (i + (e.count : Int) + e.extraTail.length < 0) := by omega
    rw [VEvolver.set, VEvolver.set]
    simp only [hi, if_true, hnn, if_false]
  · rw [if_neg hi]

theorem evolver_set_extra (e : VEvolver α) (hwf : e.WF) (i : Nat)
    (hlo : e.count ≤ i) (hhi : i < e.count + e.extraTail.length) (x : α) :
    ∃ e', e.set (i : Int) x = some e' ∧ e'.WF
      ∧ e'.absList = e.absList.set i x
      ∧ e'.count = e.count ∧ e'.extraTail.length = e.extraTail.length := by
  have hnonneg : ¬ ((i : Int) < 0) := by omega
  have hnin : ¬ (0 ≤ (i : Int) ∧ (i : Int) < (e.count : Int)) := by omega
  have hbuf : (e.count : Int) ≤ (i : Int)
      ∧ (i : Int) < (e.count : Int) + e.extraTail.length := by
    constructor
    · exact_mod_cast hlo
    · omega
  have hlen : e.count = (VEvolver.asVector e).toList.length :=
    count_eq_toList_length e.asVector hwf
  simp only [VEvolver.asVector] at hlen
  rw [VEvolver.set]
  simp only [hnonneg, if_false, Int.toNat_natCast]
  rw [if_neg hnin, if_pos hbuf]
  refine ⟨_, rfl, hwf, ?_, rfl, by simp⟩
  simp only [VEvolver.absList, VEvolver.asVector]
  rw [List.set_append, if_neg (by omega), ← hlen]

theorem evolver_set_at_end (e : VEvolver α) (i : Int) (x : α)
    (hi : (if i < 0 then i + (e.count : Int) + e.extraTail.length else i)
        = (e.count : Int) + e.extraTail.length) :
    e.set i x = some (e.append x) := by
  have h1 : ¬ (0 ≤ (e.count : Int) + (e.extraTail.length : Int)
      ∧ (e.count : Int) + (e.extraTail.length : Int) < (e.count : Int)) := by omega
  have h2 : ¬ ((e.count : Int) ≤ (e.count : Int) + (e.extraTail.length : Int)
      ∧ (e.count : Int) + (e.extraTail.length : Int)
          < (e.count : Int) + (e.extraTail.length : Int)) := by omega
  rw [VEvolver.set, VEvolver.append]
  simp only
  rw [hi, if_neg h1, if_neg h2, if_pos rfl]

theorem evolver_set_none (e : VEvolver α) (i : Int) (x : α)
    (h : (if i < 0 then i + (e.count : Int) + e.extraTail.length else i) < 0
      ∨ (e.count : Int) + e.extraTail.length
          < (if i < 0 then i + (e.count : Int) + e.extraTail.length else i)) :
    e.set i x = none := by
  have h1 : ¬ (0 ≤ (if i < 0 then i + (e.count : Int) + e.extraTail.length else i)
      ∧ (if i < 0 then i + (e.count : Int) + e.extraTail.length else i)
          < (e.count : Int)) := by omega
  have h2 : ¬ ((e.count : Int) ≤ (if i < 0 then i + (e.count : Int) + e.extraTail.length else i)
      ∧ (if i < 0 then i + (e.count : Int) + e.extraTail.length else i)
          < (e.count : Int) + (e.extraTail.length : Int)) := by omega
  have h3 : ¬ ((if i < 0 then i + (e.count : Int) + e.extraTail.length else i)
      = (e.count : Int) + (e.extraTail.length : Int)) := by omega
  rw [VEvolver.set]
  simp only
  rw [if_neg h1, if_neg h2, if_neg h3]

theorem evolver_set_int_in_range (e : VEvolver α) (hwf : e.WF) (i : Int) (x : α)
    (h0 : 0 ≤ (if i < 0 then i + (e.count : Int) + e.extraTail.length else i))
    (h1 : (if i < 0 then i + (e.count : Int) + e.extraTail.length else i)
        < (e.count : Int) + e.extraTail.length) :
    ∃ e', e.set i x = some e' ∧ e'.WF
      ∧ e'.absList = e.absList.set
          (if i < 0 then i + (e.count : Int) + e.extraTail.length else i).toNat x
      ∧ e'.count = e.count ∧ e'.extraTail.length = e.extraTail.length := by
  have hn : (if i < 0 then i + (e.count : Int) + e.extraTail.length else i)
      = (((if i < 0 then i + (e.count : Int) + e.extraTail.length else i).toNat : Nat) : Int) :=
    (Int.toNat_of_nonneg h0).symm
  rw [evolver_set_normalize e i x h0, hn]
  by_cases hcase :
      (if i < 0 then i + (e.count : Int) + e.extraTail.length else i).toNat < e.count
  · obtain ⟨e', he', hWF, habs, hc, het, _⟩ := evolver_set_in_range e hwf _ hcase x
    exact ⟨e', he', hWF, habs, hc, by rw [het]⟩
  · obtain ⟨e', he', hWF, habs, hc, het⟩ :=
      evolver_set_extra e hwf
        (if i < 0 then i + (e.count : Int) + e.extraTail.length else i).toNat
        (by omega) (by omega) x
    exact ⟨e', he', hWF, habs, hc, het⟩

/-- One evolver session simulates the sequence of direct persistent calls:
from aligned states (same abstract element sequence) the two runs either
both raise IndexError at the same operation or both succeed with the same
abstract element sequence. -/
theorem runs_match (ops : List (VOp α)) (vd : PVector α) (e : VEvolver α)
    (hv : vd.WF) (he : e.WF) (htol : vd.toList = e.absList) :
    (runDirect vd ops = none ∧ runEvolver e ops = none) ∨
    (∃ vd' e', runDirect vd ops = some vd' ∧ runEvolver e ops = some e'
      ∧ vd'.WF ∧ e'.WF ∧ vd'.toList = e'.absList) := by
  induction ops generalizing vd e with
  | nil => exact Or.inr ⟨vd, e, rfl, rfl, hv, he, htol⟩
  | cons op rest ih =>
    cases op with
    | append x =>
      obtain ⟨hwa, htola, _⟩ := append_spec vd x hv
      obtain ⟨hwea, htolea⟩ := evolver_append_spec e x he
      have hrd : runDirect vd (.append x :: rest) = runDirect (vd.append x) rest := rfl
      have hre : runEvolver e (.append x :: rest) = runEvolver (e.append x) rest := rfl
      rw [hrd, hre]
      exact ih (vd.append x) (e.append x) hwa hwea (by rw [htola, htolea, htol])
    | set i x =>
      have hL : vd.count = e.count + e.extraTail.length := by
        have h1 := count_eq_toList_length vd hv
        have h2 := absList_length e he
        rw [htol, h2] at h1
        exact h1
      have hnorm : (if i < 0 then i + (vd.count : Int) else i)
          = (if i < 0 then i + (e.count : Int) + e.extraTail.length else i) := by
        by_cases hi : i < 0
        · rw [if_pos hi, if_pos hi]
          omega
        · rw [if_neg hi, if_neg hi]
      by_cases hin : 0 ≤ (if i < 0 then i + (vd.count : Int) else i)
          ∧ (if i < 0 then i + (vd.count : Int) else i) < (vd.count : Int)
      · obtain ⟨vd', hvd', hwv', htolv', _⟩ := set_int_in_range vd hv i x hin.1 hin.2
        obtain ⟨e', he', hwe', habs', _, _⟩ := evolver_set_int_in_range e he i x
          (by rw [← hnorm]; exact hin.1) (by rw [← hnorm]; omega)
        have hrd : runDirect vd (.set i x :: rest) = runDirect vd' rest := by
          rw [runDirect, hvd', Option.some_bind]
        have hre : runEvolver e (.set i x :: rest) = runEvolver e' rest := by
          rw [runEvolver, he', Option.some_bind]
        rw [hrd, hre]
        refine ih vd' e' hwv' hwe' ?_
        rw [htolv', habs', htol, ← hnorm]
      · by_cases heq : (if i < 0 then i + (vd.count : Int) else i) = (vd.count : Int)
        · have hvd' := set_at_count vd i x heq
          have he' := evolver_set_at_end e i x (by rw [← hnorm, heq]; omega)
          obtain ⟨hwa, htola, _⟩ := append_spec vd x hv
          obtain ⟨hwea, htolea⟩ := evolver_append_spec e x he
          have hrd : runDirect vd (.set i x :: rest) = runDirect (vd.append x) rest := by
            rw [runDirect, hvd', Option.some_bind]
          have hre : runEvolver e (.set i x :: rest) = runEvolver (e.append x) rest := by
            rw [runEvolver, he', Option.some_bind]
          rw [hrd, hre]
          exact ih (vd.append x) (e.append x) hwa hwea (by rw [htola, htolea, htol])
        · have h1 := set_out_of_range vd i x hin heq
          have h2 := evolver_set_none e i x (by rw [← hnorm]; omega)
          left
          constructor
          · rw [runDirect, h1, Option.none_bind]
          · rw [runEvolver, h2, Option.none_bind]

/-! ### The hash-map layer: bucket-list lemmas -/

theorem bucketPairs_of_not_truthy (b : Bucket K V) (h : bucketTruthy b = false) :
    bucketPairs b = [] := by
  cases b with
  | none => rfl
  | some l =>
    cases l with
    | nil => rfl
    | cons x xs => simp [bucketTruthy] at h

theorem allItems_eq (bl : List (Bucket K V)) : allItems bl = mapItems bl := by
  induction bl with
  | nil => rfl
  | cons b rest ih =>
    rw [allItems, mapItems] at *
    cases hb : bucketTruthy b
    · rw [List.filter_cons, if_neg (by simp [hb])]
      simp only [List.map_cons, List.flatten_cons, bucketPairs_of_not_truthy b hb,
        List.nil_append]
      exact ih
    · rw [List.filter_cons, if_pos hb]
      simp only [List.map_cons, List.flatten_cons]
      rw [ih]

theorem listFind_eq_none [DecidableEq K] (l : List (K × V)) (key : K) :
    listFind l key = none ↔ ∀ kv ∈ l, kv.1 ≠ key := by
  induction l with
  | nil => simp [listFind]
  | cons kv rest ih =>
    obtain ⟨k, v⟩ := kv
    by_cases hk : k = key
    · subst hk
      simp [listFind]
    · simp [listFind, hk, ih]

theorem listFind_mem [DecidableEq K] (l : List (K × V)) (key : K) (v : V)
    (h : listFind l key = some v) : (key, v) ∈ l := by
  induction l with
  | nil => simp [listFind] at h
  | cons kv rest ih =>
    obtain ⟨k, w⟩ := kv
    rw [listFind] at h
    by_cases hk : k = key
    · rw [if_pos hk] at h
      injection h with h
      rw [← hk, ← h]
      exact List.mem_cons_self _ _
    · rw [if_neg hk] at h
      exact List.mem_cons_of_mem _ (ih h)

theorem listFind_of_mem [DecidableEq K] (l : List (K × V)) (key : K) (v : V)
    (hdis : l.Pairwise (fun a b => a.1 ≠ b.1)) (hmem : (key, v) ∈ l) :
    listFind l key = some v := by
  induction l with
  | nil => simp at hmem
  | cons kv rest ih =>
    obtain ⟨k, w⟩ := kv
    rw [List.pairwise_cons] at hdis
    rw [listFind]
    rcases List.mem_cons.mp hmem with heq | hmem'
    · injection heq with h1 h2
      rw [if_pos h1.symm, h2]
    · by_cases hk : k = key
      · exact absurd hk.symm (fun hkk => (hdis.1 (key, v) hmem') (by rw [hk]))
      · rw [if_neg hk]
        exact ih hdis.2 hmem'

theorem listFind_append [DecidableEq K] (l1 l2 : List (K × V)) (key : K) :
    listFind (l1 ++ l2) key = (listFind l1 key).or (listFind l2 key) := by
  induction l1 with
  | nil => simp [listFind]
  | cons kv rest ih =>
    obtain ⟨k, v⟩ := kv
    rw [List.cons_append, listFind, listFind]
    by_cases hk : k = key
    · rw [if_pos hk, if_pos hk]
      rfl
    · rw [if_neg hk, if_neg hk, ih]

theorem listFind_filter [DecidableEq K] (l : List (K × V)) (key : K)
    (p : K × V → Bool) (hp : ∀ kv : K × V, kv.1 = key → p kv = true) :
    listFind (l.filter p) key = listFind l key := by
  induction l with
  | nil => rfl
  | cons kv rest ih =>
    obtain ⟨k, v⟩ := kv
    rw [List.filter_cons]
    by_cases hk : k = key
    · rw [if_pos (hp (k, v) hk), listFind, listFind, if_pos hk, if_pos hk]
    · cases hpv : p (k, v)
      · rw [if_neg (by simp), listFind, if_neg hk]
        exact ih
      · rw [if_pos rfl, listFind, listFind, if_neg hk, if_neg hk]
        exact ih

theorem bucketIndex_lt (hash : K → Int) (n : Nat) (hn : 0 < n) (key : K) :
    bucketIndex hash n key < n := by
  have h1 : 0 ≤ (hash key) % (n : Int) :=
    Int.emod_nonneg _ (by exact_mod_cast hn.ne')
  have h2 : (hash key) % (n : Int) < (n : Int) :=
    Int.emod_lt_of_pos _ (by exact_mod_cast hn)
  rw [bucketIndex]
  omega

theorem getD_set_self (l : List α) (i : Nat) (a d : α) (hi : i < l.length) :
    (l.set i a).getD i d = a := by
  induction l generalizing i with
  | nil => simp at hi
  | cons x xs ih =>
    cases i with
    | zero => rfl
    | succ n => exact ih n (by simpa using hi)

theorem getD_set_ne (l : List α) (i j : Nat) (a d : α) (hij : i ≠ j) :
    (l.set i a).getD j d = l.getD j d := by
  induction l generalizing i j with
  | nil => rfl
  | cons x xs ih =>
    cases i with
    | zero =>
      cases j with
      | zero => exact absurd rfl hij
      | succ m => rfl
    | succ n =>
      cases j with
      | zero => rfl
      | succ m => exact ih n m (by omega)

theorem getD_replicate (n i : Nat) (d : α) : (List.replicate n d).getD i d = d := by
  induction n generalizing i with
  | zero => cases i <;> rfl
  | succ m ih =>
    cases i with
    | zero => rfl
    | succ j => exact ih j

theorem placePair_length (hash : K → Int) (bl : List (Bucket K V)) (kv : K × V) :
    (placePair hash bl kv).length = bl.length := by
  simp only [placePair]
  split <;> simp

theorem placePair_at (hash : K → Int) (bl : List (Bucket K V)) (kv : K × V)
    (hlen : 0 < bl.length) (idx : Nat) :
    bucketPairs ((placePair hash bl kv).getD idx none)
      = if bucketIndex hash bl.length kv.1 = idx
        then bucketPairs (bl.getD idx none) ++ [kv]
        else bucketPairs (bl.getD idx none) := by
  have hidx : bucketIndex hash bl.length kv.1 < bl.length :=
    bucketIndex_lt hash _ hlen kv.1
  simp only [placePair]
  by_cases heq : bucketIndex hash bl.length kv.1 = idx
  · rw [if_pos heq]
    subst heq
    by_cases htr : bucketTruthy (bl.getD (bucketIndex hash bl.length kv.1) none) = true
    · rw [if_pos htr, getD_set_self _ _ _ _ hidx]
      rfl
    · have hf : bucketTruthy (bl.getD (bucketIndex hash bl.length kv.1) none) = false := by
        revert htr
        cases bucketTruthy (bl.getD (bucketIndex hash bl.length kv.1) none) <;> simp
      rw [if_neg htr, getD_set_self _ _ _ _ hidx, bucketPairs_of_not_truthy _ hf]
      rfl
  · rw [if_neg heq]
    split
    · rw [getD_set_ne _ _ _ _ _ heq]
    · rw [getD_set_ne _ _ _ _ _ heq]

theorem placeAll_length (hash : K → Int) (bl : List (Bucket K V))
    (items : List (K × V)) : (placeAll hash bl items).length = bl.length := by
  induction items generalizing bl with
  | nil => rfl
  | cons kv rest ih =>
    rw [placeAll, List.foldl_cons]
    have h := ih (placePair hash bl kv)
    rw [placeAll] at h
    rw [h, placePair_length]

theorem placeAll_at (hash : K → Int) (bl : List (Bucket K V)) (items : List (K × V))
    (hlen : 0 < bl.length) (idx : Nat) :
    bucketPairs ((placeAll hash bl items).getD idx none)
      = bucketPairs (bl.getD idx none)
        ++ items.filter (fun kv => bucketIndex hash bl.length kv.1 = idx) := by
  induction items generalizing bl with
  | nil => simp [placeAll]
  | cons kv rest ih =>
    rw [placeAll, List.foldl_cons]
    have hstep := placePair_at hash bl kv hlen idx
    have hlen' : 0 < (placePair hash bl kv).length := by
      rw [placePair_length]
      exact hlen
    have ihh := ih (placePair hash bl kv) hlen'
    rw [placeAll] at ihh
    rw [ihh, placePair_length, hstep, List.filter_cons]
    by_cases heq : bucketIndex hash bl.length kv.1 = idx
    · rw [if_pos heq, if_pos (by simp [heq])]
      simp
    · rw [if_neg heq, if_neg (by simp [heq])]

theorem bucketPairs_some (l : List (K × V)) : bucketPairs (some l) = l := rfl

theorem getD_eq_getElem (l : List α) (i : Nat) (d : α) (h : i < l.length) :
    l.getD i d = l[i] := by
  rw [List.getD_eq_getElem?_getD, List.getElem?_eq_getElem h]
  rfl

theorem placeAll_fresh_at [DecidableEq K] (hash : K → Int) (n : Nat) (hn : 0 < n)
    (items : List (K × V)) (idx : Nat) :
    bucketPairs ((placeAll hash (List.replicate n (none : Bucket K V)) items).getD idx none)
      = items.filter (fun kv => bucketIndex hash n kv.1 = idx) := by
  have h := placeAll_at hash (List.replicate n (none : Bucket K V)) items
    (by simpa using hn) idx
  rw [List.length_replicate] at h
  rw [h, getD_replicate]
  rfl

theorem placeAll_fresh_WF [DecidableEq K] (hash : K → Int) (n : Nat) (hn : 0 < n)
    (items : List (K × V)) (hdis : items.Pairwise (fun a b => a.1 ≠ b.1)) :
    BucketsWF hash (placeAll hash (List.replicate n (none : Bucket K V)) items) := by
  have hlen : (placeAll hash (List.replicate n (none : Bucket K V)) items).length = n := by
    rw [placeAll_length, List.length_replicate]
  refine ⟨by rw [hlen]; exact hn, ?_, ?_⟩
  · intro idx kv hkv
    rw [placeAll_fresh_at hash n hn items idx] at hkv
    rw [hlen]
    have h := List.of_mem_filter hkv
    simpa using h
  · intro idx
    rw [placeAll_fresh_at hash n hn items idx]
    exact hdis.sublist (List.filter_sublist items)

theorem lookupBL_placeAll_fresh [DecidableEq K] (hash : K → Int) (n : Nat) (hn : 0 < n)
    (items : List (K × V)) (key : K) :
    lookupBL hash (placeAll hash (List.replicate n (none : Bucket K V)) items) key
      = listFind items key := by
  have hlen : (placeAll hash (List.replicate n (none : Bucket K V)) items).length = n := by
    rw [placeAll_length, List.length_replicate]
  rw [lookupBL, hlen, placeAll_fresh_at hash n hn items _]
  exact listFind_filter items key _ (fun kv hkv => by simp [hkv])

theorem mapItems_set_length (bl : List (Bucket K V)) (idx : Nat) (b : Bucket K V)
    (hidx : idx < bl.length) :
    (mapItems (bl.set idx b)).length + (bucketPairs (bl.getD idx none)).length
      = (mapItems bl).length + (bucketPairs b).length := by
  induction bl generalizing idx with
  | nil => simp at hidx
  | cons x xs ih =>
    cases idx with
    | zero =>
      simp only [List.set_cons_zero, mapItems, List.map_cons, List.flatten_cons,
        List.length_append, List.getD_cons_zero]
      omega
    | succ j =>
      have h := ih j (by simpa using hidx)
      simp only [List.set_cons_succ, mapItems, List.map_cons, List.flatten_cons,
        List.length_append, List.getD_cons_succ] at h ⊢
      omega

theorem mapItems_placeAll_length [DecidableEq K] (hash : K → Int)
    (bl : List (Bucket K V)) (hlen : 0 < bl.length) (items : List (K × V)) :
    (mapItems (placeAll hash bl items)).length = (mapItems bl).length + items.length := by
  induction items generalizing bl with
  | nil => simp [placeAll]
  | cons kv rest ih =>
    rw [placeAll, List.foldl_cons]
    have h1 : 0 < (placePair hash bl kv).length := by
      rw [placePair_length]
      exact hlen
    have ihh := ih (placePair hash bl kv) h1
    rw [placeAll] at ihh
    rw [ihh]
    have hidx : bucketIndex hash bl.length kv.1 < bl.length :=
      bucketIndex_lt hash _ hlen kv.1
    have hstep : (mapItems (placePair hash bl kv)).length = (mapItems bl).length + 1 := by
      simp only [placePair]
      split
      · have h2 := mapItems_set_length bl (bucketIndex hash bl.length kv.1)
          (some (bucketPairs (bl.getD (bucketIndex hash bl.length kv.1) none) ++ [kv])) hidx
        simp only [bucketPairs_some, List.length_append, List.length_cons,
          List.length_nil] at h2
        omega
      · rename_i htr
        have hf : bucketTruthy (bl.getD (bucketIndex hash bl.length kv.1) none) = false := by
          revert htr
          cases bucketTruthy (bl.getD (bucketIndex hash bl.length kv.1) none) <;> simp
        have h2 := mapItems_set_length bl (bucketIndex hash bl.length kv.1) (some [kv]) hidx
        rw [bucketPairs_of_not_truthy _ hf] at h2
        simp only [bucketPairs_some, List.length_cons, List.length_nil] at h2
        omega
    rw [hstep]
    simp only [List.length_cons]
    omega

theorem wf_items_pairwise [DecidableEq K] (hash : K → Int) (bl : List (Bucket K V))
    (hwf : BucketsWF hash bl) : (mapItems bl).Pairwise (fun a b => a.1 ≠ b.1) := by
  obtain ⟨hpos, hplace, hdis⟩ := hwf
  rw [mapItems, List.pairwise_flatten]
  constructor
  · intro l hl
    rw [List.mem_map] at hl
    obtain ⟨b, hb, rfl⟩ := hl
    obtain ⟨i, hi, rfl⟩ := List.mem_iff_getElem.mp hb
    have h := hdis i
    rw [getD_eq_getElem bl i none hi] at h
    exact h
  · rw [List.pairwise_map, List.pairwise_iff_getElem]
    intro i j hi hj hij
    intro a ha b hb2
    have hai := hplace i a (by rw [getD_eq_getElem bl i none hi]; exact ha)
    have hbj := hplace j b (by rw [getD_eq_getElem bl j none hj]; exact hb2)
    intro haeq
    rw [haeq] at hai
    omega

theorem lookupBL_eq_listFind [DecidableEq K] (hash : K → Int) (bl : List (Bucket K V))
    (hwf : BucketsWF hash bl) (key : K) :
    lookupBL hash bl key = listFind (mapItems bl) key := by
  obtain ⟨hpos, hplace, hdis⟩ := hwf
  have hidx : bucketIndex hash bl.length key < bl.length := bucketIndex_lt hash _ hpos key
  rw [lookupBL]
  cases hfind : listFind (bucketPairs (bl.getD (bucketIndex hash bl.length key) none)) key with
  | some v =>
    have hmem := listFind_mem _ _ _ hfind
    have hmem2 : (key, v) ∈ mapItems bl := by
      rw [mapItems, List.mem_flatten]
      refine ⟨bucketPairs (bl.getD (bucketIndex hash bl.length key) none), ?_, hmem⟩
      rw [List.mem_map]
      exact ⟨_, by rw [getD_eq_getElem _ _ _ hidx]; exact List.getElem_mem _, rfl⟩
    exact (listFind_of_mem _ _ _ (wf_items_pairwise hash bl ⟨hpos, hplace, hdis⟩) hmem2).symm
  | none =>
    symm
    rw [listFind_eq_none]
    intro kv hkv hk1
    rw [mapItems, List.mem_flatten] at hkv
    obtain ⟨l, hl, hkvl⟩ := hkv
    rw [List.mem_map] at hl
    obtain ⟨b, hb, rfl⟩ := hl
    obtain ⟨i, hi, rfl⟩ := List.mem_iff_getElem.mp hb
    have hplace_i := hplace i kv (by rw [getD_eq_getElem _ _ _ hi]; exact hkvl)
    rw [hk1] at hplace_i
    rw [listFind_eq_none, hplace_i] at hfind
    exact hfind kv (by rw [getD_eq_getElem _ _ _ hi]; exact hkvl) hk1

/-! ### The hash-map layer: reading through the vector and the evolver -/

theorem persistent_of_no_extra (e : VEvolver α) (h : e.extraTail = []) :
    e.persistent = e.asVector := by
  rw [VEvolver.persistent, h]
  rfl

theorem evolver_get_eq_vector_get (e : VEvolver α) (i : Nat) (hi : i < e.count) :
    e.get (i : Int) = e.asVector.get (i : Int) := by
  have hnonneg : ¬ ((i : Int) < 0) := by omega
  have hzone : ¬ ((e.count : Int) ≤ (i : Int)
      ∧ (i : Int) < (e.count : Int) + e.extraTail.length) := by
    intro hcon
    omega
  rw [VEvolver.get, PVector.get]
  simp only [hnonneg, if_false]
  rw [if_neg hzone]

theorem evolver_get_toList (e : VEvolver α) (hwf : e.WF) (i : Nat) (hi : i < e.count) :
    e.get (i : Int) = e.asVector.toList[i]? := by
  rw [evolver_get_eq_vector_get e i hi]
  exact get_in_range e.asVector hwf i hi

theorem mevolver_getBucket_eq (hash : K → Int) (be : VEvolver (Bucket K V))
    (hwf : be.WF) (hex : be.extraTail = [])
    (hpos : 0 < be.asVector.toList.length) (key : K) :
    MEvolver.getBucket hash be key
      = (bucketIndex hash be.asVector.toList.length key,
         be.asVector.toList.getD (bucketIndex hash be.asVector.toList.length key) none) := by
  have hcnt : be.count = be.asVector.toList.length := count_eq_toList_length be.asVector hwf
  have hlen2 : be.length = be.asVector.toList.length := by
    rw [VEvolver.length, hex]
    simp [hcnt]
  have hidx : bucketIndex hash be.asVector.toList.length key < be.asVector.toList.length :=
    bucketIndex_lt hash _ hpos key
  rw [MEvolver.getBucket]
  simp only [hlen2]
  rw [evolver_get_toList be hwf _ (by rw [hcnt]; exact hidx)]
  rw [List.getElem?_eq_getElem hidx, getD_eq_getElem _ _ _ hidx]
  rfl

theorem mevolver_getitem_eq_lookupBL [DecidableEq K] (hash : K → Int) (e : MEvolver K V)
    (hwf : e.bucketsEvolver.WF) (hex : e.bucketsEvolver.extraTail = [])
    (hpos : 0 < e.bucketsEvolver.asVector.toList.length) (key : K) :
    MEvolver.getitem hash e key
      = lookupBL hash e.bucketsEvolver.asVector.toList key := by
  rw [MEvolver.getitem]
  simp only [mevolver_getBucket_eq hash e.bucketsEvolver hwf hex hpos key]
  rw [lookupBL]
  by_cases htr : bucketTruthy (e.bucketsEvolver.asVector.toList.getD
      (bucketIndex hash e.bucketsEvolver.asVector.toList.length key) none) = true
  · rw [if_pos htr]
  · have hf : bucketTruthy (e.bucketsEvolver.asVector.toList.getD
        (bucketIndex hash e.bucketsEvolver.asVector.toList.length key) none) = false := by
      revert htr
      cases bucketTruthy (e.bucketsEvolver.asVector.toList.getD
        (bucketIndex hash e.bucketsEvolver.asVector.toList.length key) none) <;> simp
    rw [if_neg htr, bucketPairs_of_not_truthy _ hf]
    rfl

theorem pmap_getBucket_eq (hash : K → Int) (buckets : PVector (Bucket K V))
    (hwf : buckets.WF) (hpos : 0 < buckets.toList.length) (key : K) :
    PMap.getBucket hash buckets key
      = (bucketIndex hash buckets.toList.length key,
         buckets.toList.getD (bucketIndex hash buckets.toList.length key) none) := by
  have hcnt : buckets.count = buckets.toList.length := count_eq_toList_length buckets hwf
  have hidx : bucketIndex hash buckets.toList.length key < buckets.toList.length :=
    bucketIndex_lt hash _ hpos key
  rw [PMap.getBucket]
  simp only [hcnt]
  rw [get_in_range buckets hwf _ (by rw [hcnt]; exact hidx)]
  rw [List.getElem?_eq_getElem hidx, getD_eq_getElem _ _ _ hidx]
  rfl

theorem pmap_getitem_eq_lookupBL [DecidableEq K] (hash : K → Int) (m : PMap K V)
    (hwf : m.buckets.WF) (hpos : 0 < m.buckets.toList.length) (key : K) :
    PMap.getitem hash m key = lookupBL hash m.buckets.toList key := by
  rw [PMap.getitem, PMap.getitemBuckets]
  simp only [pmap_getBucket_eq hash m.buckets hwf hpos key]
  rw [lookupBL]
  by_cases htr : bucketTruthy (m.buckets.toList.getD
      (bucketIndex hash m.buckets.toList.length key) none) = true
  · rw [if_pos htr]
  · have hf : bucketTruthy (m.buckets.toList.getD
        (bucketIndex hash m.buckets.toList.length key) none) = false := by
      revert htr
      cases bucketTruthy (m.buckets.toList.getD
        (bucketIndex hash m.buckets.toList.length key) none) <;> simp
    rw [if_neg htr, bucketPairs_of_not_truthy _ hf]
    rfl

theorem mapItems_replicate (n : Nat) :
    mapItems (List.replicate n (none : Bucket K V)) = [] := by
  induction n with
  | zero => rfl
  | succ m ih =>
    rw [List.replicate_succ, mapItems, List.map_cons, List.flatten_cons]
    rw [mapItems] at ih
    rw [ih]
    rfl

theorem reallocate_spec [DecidableEq K] (hash : K → Int) (e : MEvolver K V)
    (hwf : MEvolver.WF hash e) (n : Nat) (hn : 0 < n) :
    MEvolver.WF hash (e.reallocate hash n)
    ∧ (∀ q, MEvolver.getitem hash (e.reallocate hash n) q = MEvolver.getitem hash e q)
    ∧ (e.reallocate hash n).size = e.size
    ∧ (e.reallocate hash n).originalPMap = e.originalPMap
    ∧ (e.reallocate hash n).isDirty = false
    ∧ (e.reallocate hash n).bucketsEvolver.asVector.toList.length = n := by
  obtain ⟨hvwf, hex, hbwf, hsize⟩ := hwf
  have hpos : 0 < e.bucketsEvolver.asVector.toList.length := hbwf.1
  have hpers : e.bucketsEvolver.persistent = e.bucketsEvolver.asVector :=
    persistent_of_no_extra _ hex
  have hitems : allItems e.bucketsEvolver.persistent.toList
      = mapItems e.bucketsEvolver.asVector.toList := by
    rw [hpers, allItems_eq]
  have hreall : e.reallocate hash n
      = { e with bucketsEvolver := VEvolver.reset (pvector (placeAll hash
          (List.replicate n none) (mapItems e.bucketsEvolver.asVector.toList))) } := by
    rw [MEvolver.reallocate]
    simp only [hitems]
  obtain ⟨hpwf, hptol⟩ := pvector_spec (placeAll hash
    (List.replicate n (none : Bucket K V)) (mapItems e.bucketsEvolver.asVector.toList))
  have hreset_tol : (VEvolver.reset (pvector (placeAll hash
      (List.replicate n none) (mapItems e.bucketsEvolver.asVector.toList)))).asVector.toList
      = placeAll hash (List.replicate n none) (mapItems e.bucketsEvolver.asVector.toList) := by
    rw [show (VEvolver.reset (pvector (placeAll hash (List.replicate n none)
      (mapItems e.bucketsEvolver.asVector.toList)))).asVector
      = pvector (placeAll hash (List.replicate n none)
        (mapItems e.bucketsEvolver.asVector.toList)) from rfl]
    exact hptol
  have hitems_dis := wf_items_pairwise hash _ hbwf
  have hnewwf := placeAll_fresh_WF hash n hn (mapItems e.bucketsEvolver.asVector.toList)
    hitems_dis
  have hnewlen : (placeAll hash (List.replicate n (none : Bucket K V))
      (mapItems e.bucketsEvolver.asVector.toList)).length = n := by
    rw [placeAll_length, List.length_replicate]
  refine ⟨⟨?_, ?_, ?_, ?_⟩, ?_, ?_, ?_, ?_, ?_⟩
  · rw [hreall]
    exact hpwf
  · rw [hreall]
    rfl
  · rw [hreall]
    simp only [hreset_tol]
    exact hnewwf
  · rw [hreall]
    simp only [hreset_tol]
    rw [mapItems_placeAll_length hash _ (by rw [List.length_replicate]; exact hn),
      mapItems_replicate]
    simpa using hsize
  · intro q
    rw [mevolver_getitem_eq_lookupBL hash (e.reallocate hash n)
        (by rw [hreall]; exact hpwf) (by rw [hreall]; rfl) ?_ q,
      mevolver_getitem_eq_lookupBL hash e hvwf hex hpos q]
    · rw [hreall]
      simp only [hreset_tol]
      rw [lookupBL_placeAll_fresh hash n hn _ q]
      exact (lookupBL_eq_listFind hash _ hbwf q).symm
    · rw [hreall]
      simp only [hreset_tol, hnewlen]
      exact hn
  · rw [hreall]
  · rw [hreall]
  · rw [hreall]
    rfl
  · rw [hreall]
    simp only [hreset_tol]
    exact hnewlen

/-! ### The hash-map layer: `__setitem__` -/

theorem lookupBL_set [DecidableEq K] (hash : K → Int) (bl : List (Bucket K V))
    (idx : Nat) (newPairs : List (K × V)) (q : K) (hidx : idx < bl.length) :
    lookupBL hash (bl.set idx (some newPairs)) q
      = if bucketIndex hash bl.length q = idx then listFind newPairs q
        else lookupBL hash bl q := by
  rw [lookupBL, lookupBL, List.length_set]
  by_cases h : bucketIndex hash bl.length q = idx
  · rw [if_pos h, h, getD_set_self _ _ _ _ hidx, bucketPairs_some]
  · rw [if_neg h, getD_set_ne _ _ _ _ _ (fun hh => h hh.symm)]

theorem BucketsWF_set [DecidableEq K] (hash : K → Int) (bl : List (Bucket K V))
    (hwf : BucketsWF hash bl) (idx : Nat) (hidx : idx < bl.length)
    (newPairs : List (K × V))
    (hplace : ∀ kv ∈ newPairs, bucketIndex hash bl.length kv.1 = idx)
    (hdis : newPairs.Pairwise (fun a b => a.1 ≠ b.1)) :
    BucketsWF hash (bl.set idx (some newPairs)) := by
  obtain ⟨hpos, hplace0, hdis0⟩ := hwf
  refine ⟨by rw [List.length_set]; exact hpos, ?_, ?_⟩
  · intro j kv hkv
    rw [List.length_set]
    by_cases hj : idx = j
    · subst hj
      rw [getD_set_self _ _ _ _ hidx, bucketPairs_some] at hkv
      exact hplace kv hkv
    · rw [getD_set_ne _ _ _ _ _ hj] at hkv
      exact hplace0 j kv hkv
  · intro j
    by_cases hj : idx = j
    · subst hj
      rw [getD_set_self _ _ _ _ hidx, bucketPairs_some]
      exact hdis
    · rw [getD_set_ne _ _ _ _ _ hj]
      exact hdis0 j

theorem fst_replace [DecidableEq K] (key : K) (val : V) (kv : K × V) :
    (if kv.1 ≠ key then kv else (kv.1, val)).1 = kv.1 := by
  split <;> rfl

theorem listFind_map_replace_self [DecidableEq K] (l : List (K × V)) (key : K)
    (val : V) (v : V) (h : listFind l key = some v) :
    listFind (l.map (fun kv => if kv.1 ≠ key then kv else (kv.1, val))) key
      = some val := by
  induction l with
  | nil => simp [listFind] at h
  | cons kv rest ih =>
    obtain ⟨k, w⟩ := kv
    rw [listFind] at h
    rw [List.map_cons]
    by_cases hk : k = key
    · have h1 : (if ((k, w) : K × V).1 ≠ key then (k, w) else ((k, w).1, val))
          = (k, val) := by
        rw [if_neg (by simp [hk])]

      rw [h1, listFind, if_pos hk]
    · have h1 : (if ((k, w) : K × V).1 ≠ key then (k, w) else ((k, w).1, val))
          = (k, w) := by
        rw [if_pos (by simp [hk])]
      rw [h1, listFind, if_neg hk]
      rw [if_neg hk] at h
      exact ih h

theorem listFind_map_replace_other [DecidableEq K] (l : List (K × V)) (key : K)
    (val : V) (q : K) (hq : q ≠ key) :
    listFind (l.map (fun kv => if kv.1 ≠ key then kv else (kv.1, val))) q
      = listFind l q := by
  induction l with
  | nil => rfl
  | cons kv rest ih =>
    obtain ⟨k, w⟩ := kv
    rw [List.map_cons]
    by_cases hk : k = key
    · have h1 : (if ((k, w) : K × V).1 ≠ key then (k, w) else ((k, w).1, val))
          = (k, val) := by
        rw [if_neg (by simp [hk])]
      rw [h1, listFind, listFind,
        if_neg (by rw [hk]; exact fun hh => hq hh.symm),
        if_neg (by rw [hk]; exact fun hh => hq hh.symm)]
      exact ih
    · have h1 : (if ((k, w) : K × V).1 ≠ key then (k, w) else ((k, w).1, val))
          = (k, w) := by
        rw [if_pos (by simp [hk])]
      rw [h1, listFind, listFind]
      by_cases hkq : k = q
      · rw [if_pos hkq, if_pos hkq]
      · rw [if_neg hkq, if_neg hkq]
        exact ih

theorem getitem_after_set [DecidableEq K] (hash : K → Int) (e' : MEvolver K V)
    (bl : List (Bucket K V)) (idx : Nat) (np : List (K × V))
    (hwf' : e'.bucketsEvolver.WF) (hex' : e'.bucketsEvolver.extraTail = [])
    (htol' : e'.bucketsEvolver.asVector.toList = bl.set idx (some np))
    (hidx : idx < bl.length) (q : K) :
    MEvolver.getitem hash e' q
      = if bucketIndex hash bl.length q = idx then listFind np q
        else lookupBL hash bl q := by
  rw [mevolver_getitem_eq_lookupBL hash e' hwf' hex'
      (by rw [htol', List.length_set]; omega) q, htol']
  exact lookupBL_set hash bl idx np q hidx

theorem setitem_write_step (hash : K → Int) (e : MEvolver K V)
    (hvwf : e.bucketsEvolver.WF) (hex : e.bucketsEvolver.extraTail = [])
    (idx : Nat) (hidx : idx < e.bucketsEvolver.asVector.toList.length)
    (np : List (K × V)) :
    ∃ be', e.bucketsEvolver.set (idx : Int) (some np) = some be'
      ∧ be'.WF ∧ be'.extraTail = [] ∧ be'.dirtied = true
      ∧ be'.asVector.toList = e.bucketsEvolver.asVector.toList.set idx (some np) := by
  have hcnt : e.bucketsEvolver.count = e.bucketsEvolver.asVector.toList.length :=
    count_eq_toList_length e.bucketsEvolver.asVector hvwf
  obtain ⟨be', hset, hwf', habs, hcnt', hext', hdirt⟩ :=
    evolver_set_in_range e.bucketsEvolver hvwf idx (by omega) (some np)
  refine ⟨be', hset, hwf', hext'.trans hex, hdirt, ?_⟩
  have h := habs
  rw [VEvolver.absList, VEvolver.absList, hext', hex, List.append_nil,
    List.append_nil] at h
  exact h

theorem setitem_norealloc_spec [DecidableEq K] (hash : K → Int)
    (pyIs : V → V → Bool) (hsound : ∀ a b, pyIs a b = true → a = b)
    (e : MEvolver K V) (hwf : MEvolver.WF hash e) (key : K) (val : V) :
    ∃ e', MEvolver.setitem hash (fun _ _ => false) pyIs e key val = some e'
      ∧ MEvolver.WF hash e'
      ∧ (∀ q, MEvolver.getitem hash e' q
          = if q = key then some val else MEvolver.getitem hash e q)
      ∧ e'.size = e.size + (if (MEvolver.getitem hash e key).isNone then 1 else 0)
      ∧ e'.originalPMap = e.originalPMap
      ∧ ((∃ v, MEvolver.getitem hash e key = some v ∧ pyIs v val = true)
          ∨ e'.isDirty = true)
      ∧ e'.bucketsEvolver.asVector.toList.length
          = e.bucketsEvolver.asVector.toList.length := by
  obtain ⟨hvwf, hex, hbwf, hsize⟩ := hwf
  have hpos : 0 < e.bucketsEvolver.asVector.toList.length := hbwf.1
  have hidx : bucketIndex hash e.bucketsEvolver.asVector.toList.length key
      < e.bucketsEvolver.asVector.toList.length := bucketIndex_lt hash _ hpos key
  have hget : ∀ q, MEvolver.getitem hash e q
      = lookupBL hash e.bucketsEvolver.asVector.toList q :=
    fun q => mevolver_getitem_eq_lookupBL hash e hvwf hex hpos q
  have hgetkey : MEvolver.getitem hash e key
      = listFind (bucketPairs (e.bucketsEvolver.asVector.toList.getD
          (bucketIndex hash e.bucketsEvolver.asVector.toList.length key) none)) key := by
    rw [hget key, lookupBL]
  rw [MEvolver.setitem]
  simp only [Bool.false_eq_true, if_false,
    mevolver_getBucket_eq hash e.bucketsEvolver hvwf hex hpos key]
  by_cases htr : bucketTruthy (e.bucketsEvolver.asVector.toList.getD
      (bucketIndex hash e.bucketsEvolver.asVector.toList.length key) none) = true
  · rw [if_pos htr]
    split
    · rename_i v hfind
      by_cases hpi : pyIs v val = true
      · rw [if_pos hpi]
        refine ⟨e, rfl, ⟨hvwf, hex, hbwf, hsize⟩, ?_, ?_, rfl,
          Or.inl ⟨v, by rw [hgetkey, hfind], hpi⟩, rfl⟩
        · intro q
          by_cases hq : q = key
          · rw [hq, if_pos rfl, hgetkey, hfind, hsound v val hpi]
          · rw [if_neg hq]
        · rw [hgetkey, hfind]
          simp
      · rw [if_neg hpi]
        obtain ⟨be', hset, hwf', hex', hdirt, htol'⟩ :=
          setitem_write_step hash e hvwf hex _ hidx
            ((bucketPairs (e.bucketsEvolver.asVector.toList.getD
              (bucketIndex hash e.bucketsEvolver.asVector.toList.length key) none)).map
              (fun kv => if kv.1 ≠ key then kv else (kv.1, val)))
        rw [hset, Option.map_some']
        refine ⟨_, rfl, ⟨hwf', hex', ?_, ?_⟩, ?_, ?_, rfl, Or.inr ?_, by rw [htol', List.length_set]⟩
        · rw [htol']
          refine BucketsWF_set hash _ hbwf _ hidx _ ?_ ?_
          · intro kv hkv
            rw [List.mem_map] at hkv
            obtain ⟨kv0, hkv0, rfl⟩ := hkv
            rw [fst_replace]
            exact hbwf.2.1 _ kv0 hkv0
          · refine List.Pairwise.map _ ?_ (hbwf.2.2 _)
            intro a b hab
            rw [fst_replace, fst_replace]
            exact hab
        · show e.size = _
          rw [htol']
          have hmi := mapItems_set_length (e.bucketsEvolver.asVector.toList)
            (bucketIndex hash e.bucketsEvolver.asVector.toList.length key)
            (some ((bucketPairs (e.bucketsEvolver.asVector.toList.getD
              (bucketIndex hash e.bucketsEvolver.asVector.toList.length key) none)).map
              (fun kv => if kv.1 ≠ key then kv else (kv.1, val)))) hidx
          rw [bucketPairs_some, List.length_map] at hmi
          omega
        · intro q
          rw [getitem_after_set hash _ _ _ _ hwf' hex' htol' hidx q]
          by_cases hq : q = key
          · rw [hq, if_pos rfl, if_pos rfl]
            exact listFind_map_replace_self _ key val v hfind
          · rw [if_neg hq]
            by_cases hbq : bucketIndex hash e.bucketsEvolver.asVector.toList.length q
                = bucketIndex hash e.bucketsEvolver.asVector.toList.length key
            · rw [if_pos hbq, hget q, lookupBL, hbq]
              exact listFind_map_replace_other _ key val q hq
            · rw [if_neg hbq, hget q]
        · show e.size = _
          rw [hgetkey, hfind]
          simp
        · simp [MEvolver.isDirty, VEvolver.isDirty, hdirt]
    · rename_i hfind
      obtain ⟨be', hset, hwf', hex', hdirt, htol'⟩ :=
        setitem_write_step hash e hvwf hex _ hidx
          ((key, val) :: bucketPairs (e.bucketsEvolver.asVector.toList.getD
            (bucketIndex hash e.bucketsEvolver.asVector.toList.length key) none))
      rw [hset, Option.map_some']
      refine ⟨_, rfl, ⟨hwf', hex', ?_, ?_⟩, ?_, ?_, rfl, Or.inr ?_, by rw [htol', List.length_set]⟩
      · rw [htol']
        refine BucketsWF_set hash _ hbwf _ hidx _ ?_ ?_
        · intro kv hkv
          rcases List.mem_cons.mp hkv with rfl | hkv0
          · rfl
          · exact hbwf.2.1 _ kv hkv0
        · rw [List.pairwise_cons]
          refine ⟨?_, hbwf.2.2 _⟩
          intro kv hkv0
          exact fun hh => ((listFind_eq_none _ _).mp hfind kv hkv0) hh.symm
      · show e.size + 1 = _
        rw [htol']
        have hmi := mapItems_set_length (e.bucketsEvolver.asVector.toList)
          (bucketIndex hash e.bucketsEvolver.asVector.toList.length key)
          (some ((key, val) :: bucketPairs (e.bucketsEvolver.asVector.toList.getD
            (bucketIndex hash e.bucketsEvolver.asVector.toList.length key) none))) hidx
        rw [bucketPairs_some, List.length_cons] at hmi
        omega
      · intro q
        rw [getitem_after_set hash _ _ _ _ hwf' hex' htol' hidx q]
        by_cases hq : q = key
        · rw [hq, if_pos rfl, if_pos rfl, listFind, if_pos rfl]
        · rw [if_neg hq]
          have hne : ¬ (key = q) := fun hh => hq hh.symm
          by_cases hbq : bucketIndex hash e.bucketsEvolver.asVector.toList.length q
              = bucketIndex hash e.bucketsEvolver.asVector.toList.length key
          · rw [if_pos hbq, hget q, lookupBL, hbq, listFind, if_neg hne]
          · rw [if_neg hbq, hget q]
      · show e.size + 1 = _
        rw [hgetkey, hfind]
        simp
      · simp [MEvolver.isDirty, VEvolver.isDirty, hdirt]
  · rw [if_neg htr]
    have hl0 : bucketPairs (e.bucketsEvolver.asVector.toList.getD
        (bucketIndex hash e.bucketsEvolver.asVector.toList.length key) none) = [] := by
      refine bucketPairs_of_not_truthy _ ?_
      revert htr
      cases bucketTruthy (e.bucketsEvolver.asVector.toList.getD
        (bucketIndex hash e.bucketsEvolver.asVector.toList.length key) none) <;> simp
    obtain ⟨be', hset, hwf', hex', hdirt, htol'⟩ :=
      setitem_write_step hash e hvwf hex _ hidx [(key, val)]
    rw [hset, Option.map_some']
    refine ⟨_, rfl, ⟨hwf', hex', ?_, ?_⟩, ?_, ?_, rfl, Or.inr ?_, by rw [htol', List.length_set]⟩
    · rw [htol']
      refine BucketsWF_set hash _ hbwf _ hidx _ ?_ ?_
      · intro kv hkv
        rcases List.mem_cons.mp hkv with rfl | hkv0
        · rfl
        · simp at hkv0
      · simp
    · show e.size + 1 = _
      rw [htol']
      have hmi := mapItems_set_length (e.bucketsEvolver.asVector.toList)
        (bucketIndex hash e.bucketsEvolver.asVector.toList.length key)
        (some [(key, val)]) hidx
      rw [bucketPairs_some, hl0] at hmi
      simp only [List.length_cons, List.length_nil] at hmi
      omega
    · intro q
      rw [getitem_after_set hash _ _ _ _ hwf' hex' htol' hidx q]
      by_cases hq : q = key
      · rw [hq, if_pos rfl, if_pos rfl, listFind, if_pos rfl]
      · rw [if_neg hq]
        have hne : ¬ (key = q) := fun hh => hq hh.symm
        by_cases hbq : bucketIndex hash e.bucketsEvolver.asVector.toList.length q
            = bucketIndex hash e.bucketsEvolver.asVector.toList.length key
        · rw [if_pos hbq, hget q, lookupBL, hbq, hl0]
          simp [listFind, hne]
        · rw [if_neg hbq, hget q]
    · show e.size + 1 = _
      rw [hgetkey, hl0]
      rfl
    · simp [MEvolver.isDirty, VEvolver.isDirty, hdirt]

theorem setitem_realloc_split [DecidableEq K] (hash : K → Int)
    (loadCheck : Nat → Nat → Bool) (pyIs : V → V → Bool) (e : MEvolver K V)
    (key : K) (val : V) :
    MEvolver.setitem hash loadCheck pyIs e key val
      = MEvolver.setitem hash (fun _ _ => false) pyIs
          (if loadCheck e.bucketsEvolver.length e.size
           then e.reallocate hash (2 * e.bucketsEvolver.length) else e) key val := by
  cases hlc : loadCheck e.bucketsEvolver.length e.size
  · rw [if_neg (by simp [hlc])]
    rw [MEvolver.setitem, MEvolver.setitem]
    simp only [hlc, Bool.false_eq_true, if_false]
  · rw [if_pos (by simp [hlc])]
    rw [MEvolver.setitem, MEvolver.setitem]
    simp only [hlc, Bool.false_eq_true, if_false, if_true]

/-- `PMap._Evolver.__setitem__` on a well-formed session always succeeds
and performs the pointwise update of the key–value view; the running size
counts the keys; the session stays well formed for every reallocation
schedule.  The final disjunct records when the write is skipped: only
when the stored value is `pyIs`-identical to the new one (otherwise the
bucket evolver is dirty afterwards). -/
theorem setitem_spec [DecidableEq K] (hash : K → Int) (loadCheck : Nat → Nat → Bool)
    (pyIs : V → V → Bool) (hsound : ∀ a b, pyIs a b = true → a = b)
    (e : MEvolver K V) (hwf : MEvolver.WF hash e) (key : K) (val : V) :
    ∃ e', MEvolver.setitem hash loadCheck pyIs e key val = some e'
      ∧ MEvolver.WF hash e'
      ∧ (∀ q, MEvolver.getitem hash e' q
          = if q = key then some val else MEvolver.getitem hash e q)
      ∧ e'.size = e.size + (if (MEvolver.getitem hash e key).isNone then 1 else 0)
      ∧ e'.originalPMap = e.originalPMap
      ∧ ((∃ v, MEvolver.getitem hash e key = some v ∧ pyIs v val = true)
          ∨ e'.isDirty = true)
      ∧ (e'.bucketsEvolver.asVector.toList.length
            = e.bucketsEvolver.asVector.toList.length
        ∨ e'.bucketsEvolver.asVector.toList.length
            = 2 * e.bucketsEvolver.asVector.toList.length) := by
  rw [setitem_realloc_split hash loadCheck pyIs e key val]
  by_cases hlc : loadCheck e.bucketsEvolver.length e.size = true
  · rw [if_pos hlc]
    have hcnt : e.bucketsEvolver.count = e.bucketsEvolver.asVector.toList.length :=
      count_eq_toList_length e.bucketsEvolver.asVector hwf.1
    have hlen : e.bucketsEvolver.length = e.bucketsEvolver.asVector.toList.length := by
      rw [VEvolver.length, hwf.2.1]
      simp [hcnt]
    have hn : 0 < 2 * e.bucketsEvolver.length := by
      have h1 : 0 < e.bucketsEvolver.asVector.toList.length := hwf.2.2.1.1
      omega
    obtain ⟨hwf1, hget1, hsz1, horig1, _, hlen1⟩ :=
      reallocate_spec hash e hwf (2 * e.bucketsEvolver.length) hn
    obtain ⟨e', heq, hwf', hget', hsz', horig', hdirty', hblen'⟩ :=
      setitem_norealloc_spec hash pyIs hsound
        (e.reallocate hash (2 * e.bucketsEvolver.length)) hwf1 key val
    refine ⟨e', heq, hwf', ?_, ?_, by rw [horig', horig1], ?_, ?_⟩
    · intro q
      rw [hget' q, hget1 q]
    · rw [hsz', hsz1, hget1 key]
    · rcases hdirty' with ⟨v, hv, hpi⟩ | hd
      · exact Or.inl ⟨v, by rw [← hget1 key]; exact hv, hpi⟩
      · exact Or.inr hd
    · right
      rw [hblen', hlen1, hlen]
  · rw [if_neg hlc]
    obtain ⟨e', heq, hwf', hget', hsz', horig', hdirty', hblen'⟩ :=
      setitem_norealloc_spec hash pyIs hsound e hwf key val
    exact ⟨e', heq, hwf', hget', hsz', horig', hdirty', Or.inl hblen'⟩

/-! ### The hash-map layer: `evolver`, `persistent` and `set` -/

theorem pmap_evolver_wf [DecidableEq K] (hash : K → Int) (m : PMap K V)
    (hwf : PMap.WF hash m) : MEvolver.WF hash (PMap.evolver m) := by
  obtain ⟨h1, h2, h3⟩ := hwf
  exact ⟨h1, rfl, h2, h3⟩

theorem evolver_getitem_init [DecidableEq K] (hash : K → Int) (m : PMap K V)
    (hwf : PMap.WF hash m) (q : K) :
    MEvolver.getitem hash (PMap.evolver m) q = PMap.getitem hash m q := by
  obtain ⟨h1, h2, h3⟩ := hwf
  rw [mevolver_getitem_eq_lookupBL hash (PMap.evolver m) h1 rfl h2.1 q]
  rw [pmap_getitem_eq_lookupBL hash m h1 h2.1 q]
  rfl

theorem mevolver_persistent_dirty [DecidableEq K] (hash : K → Int) (e : MEvolver K V)
    (hwf : MEvolver.WF hash e) (hd : e.isDirty = true) :
    PMap.WF hash e.persistent
    ∧ (∀ q, PMap.getitem hash e.persistent q = MEvolver.getitem hash e q)
    ∧ e.persistent.size = e.size := by
  obtain ⟨h1, h2, h3, h4⟩ := hwf
  have hbp : e.bucketsEvolver.persistent = e.bucketsEvolver.asVector :=
    persistent_of_no_extra _ h2
  have hpm : e.persistent = ⟨e.size, e.bucketsEvolver.asVector⟩ := by
    rw [MEvolver.persistent, if_pos hd, hbp]
  rw [hpm]
  refine ⟨⟨h1, h3, h4⟩, ?_, rfl⟩
  intro q
  rw [pmap_getitem_eq_lookupBL hash
    (⟨e.size, e.bucketsEvolver.asVector⟩ : PMap K V) h1 h3.1 q]
  rw [mevolver_getitem_eq_lookupBL hash e h1 h2 h3.1 q]

theorem mevolver_persistent_clean (e : MEvolver K V) (hd : e.isDirty = false) :
    MEvolver.persistent e = e.originalPMap := by
  rw [MEvolver.persistent, if_neg (by simp [hd])]

theorem pmap_set_spec [DecidableEq K] (hash : K → Int) (loadCheck : Nat → Nat → Bool)
    (pyIs : V → V → Bool) (hsound : ∀ a b, pyIs a b = true → a = b)
    (m : PMap K V) (hwf : PMap.WF hash m) (key : K) (val : V) :
    ∃ m', PMap.set hash loadCheck pyIs m key val = some m'
      ∧ PMap.WF hash m'
      ∧ (∀ q, PMap.getitem hash m' q
          = if q = key then some val else PMap.getitem hash m q)
      ∧ m'.size = m.size + (if (PMap.getitem hash m key).isNone then 1 else 0) := by
  obtain ⟨e', heq, hewf', hget', hsz', horig', hdirty', _⟩ :=
    setitem_spec hash loadCheck pyIs hsound (PMap.evolver m)
      (pmap_evolver_wf hash m hwf) key val
  have hginit : ∀ q, MEvolver.getitem hash (PMap.evolver m) q = PMap.getitem hash m q :=
    evolver_getitem_init hash m hwf
  have horig2 : e'.originalPMap = m := horig'
  rw [PMap.set, heq, Option.map_some']
  cases hd : e'.isDirty
  · rcases hdirty' with ⟨v, hv, hpi⟩ | hdd
    · have hval : v = val := hsound v val hpi
      have hkey : PMap.getitem hash m key = some val := by
        rw [← hginit key, hv, hval]
      have hm' : MEvolver.persistent e' = m := by
        rw [mevolver_persistent_clean e' hd, horig2]
      rw [hm']
      refine ⟨m, rfl, hwf, ?_, ?_⟩
      · intro q
        by_cases hq : q = key
        · rw [if_pos hq, hq, hkey]
        · rw [if_neg hq]
      · rw [hkey]
        simp
    · rw [hdd] at hd
      exact absurd hd (by simp)
  · obtain ⟨hpwf, hpget, hpsz⟩ := mevolver_persistent_dirty hash e' hewf' hd
    refine ⟨_, rfl, hpwf, ?_, ?_⟩
    · intro q
      rw [hpget q, hget' q]
      by_cases hq : q = key
      · rw [if_pos hq, if_pos hq]
      · rw [if_neg hq, if_neg hq, hginit q]
    · rw [hpsz, hsz', hginit key]
      rfl

/-- One evolver session of map writes simulates the corresponding direct
`PMap.set` calls, provided no write is skipped by the identity test
(`pyIs` constantly false).  The session's running state stays pointwise
equal to the directly built map, and stays dirty once it has written. -/
theorem map_runs_match [DecidableEq K] (hash : K → Int) (loadCheck : Nat → Nat → Bool)
    (pyIs : V → V → Bool) (hsound : ∀ a b, pyIs a b = true → a = b)
    (hnoskip : ∀ a b, pyIs a b = false)
    (ops : List (MOp K V)) (m0 md : PMap K V) (e : MEvolver K V)
    (hmwf : PMap.WF hash md) (hewf : MEvolver.WF hash e)
    (hrel : ∀ q, MEvolver.getitem hash e q = PMap.getitem hash md q)
    (hsz : e.size = md.size) (horig : e.originalPMap = m0)
    (hd : e.isDirty = true
      ∨ ((∀ q, MEvolver.getitem hash e q = PMap.getitem hash m0 q)
          ∧ e.size = m0.size)) :
    ∃ md' e', runMapDirect hash loadCheck pyIs md ops = some md'
      ∧ runMapEvolver hash loadCheck pyIs e ops = some e'
      ∧ PMap.WF hash md' ∧ MEvolver.WF hash e'
      ∧ (∀ q, MEvolver.getitem hash e' q = PMap.getitem hash md' q)
      ∧ e'.size = md'.size ∧ e'.originalPMap = m0
      ∧ (e'.isDirty = true
        ∨ ((∀ q, MEvolver.getitem hash e' q = PMap.getitem hash m0 q)
            ∧ e'.size = m0.size)) := by
  induction ops generalizing md e with
  | nil => exact ⟨md, e, rfl, rfl, hmwf, hewf, hrel, hsz, horig, hd⟩
  | cons op rest ih =>
    obtain ⟨k, v⟩ := op
    obtain ⟨md1, hmd1, hmwf1, hmget1, hmsz1⟩ :=
      pmap_set_spec hash loadCheck pyIs hsound md hmwf k v
    obtain ⟨e1, he1, hewf1, heget1, hesz1, horig1, hd1, _⟩ :=
      setitem_spec hash loadCheck pyIs hsound e hewf k v
    have hrel1 : ∀ q, MEvolver.getitem hash e1 q = PMap.getitem hash md1 q := by
      intro q
      rw [heget1 q, hmget1 q]
      by_cases hq : q = k
      · rw [if_pos hq, if_pos hq]
      · rw [if_neg hq, if_neg hq]
        exact hrel q
    have hsz1' : e1.size = md1.size := by
      rw [hesz1, hmsz1, hsz, hrel k]
    have hdirty1 : e1.isDirty = true := by
      rcases hd1 with ⟨w, _, hpi⟩ | hdd
      · rw [hnoskip w v] at hpi
        exact absurd hpi (by simp)
      · exact hdd
    have hrd : runMapDirect hash loadCheck pyIs md (MOp.set k v :: rest)
        = runMapDirect hash loadCheck pyIs md1 rest := by
      rw [runMapDirect, hmd1, Option.some_bind]
    have hre : runMapEvolver hash loadCheck pyIs e (MOp.set k v :: rest)
        = runMapEvolver hash loadCheck pyIs e1 rest := by
      rw [runMapEvolver, he1, Option.some_bind]
    rw [hrd, hre]
    exact ih md1 e1 hmwf1 hewf1 hrel1 hsz1' (horig1.trans horig) (Or.inl hdirty1)

theorem emptyPMap_wf [DecidableEq K] (hash : K → Int) :
    PMap.WF hash (emptyPMap : PMap K V) := by
  obtain ⟨hvwf, htol⟩ := pvector_spec (List.replicate 8 (none : Bucket K V))
  refine ⟨hvwf, ?_, ?_⟩
  · show BucketsWF hash (pvector (List.replicate 8 (none : Bucket K V))).toList
    rw [htol]
    refine ⟨by simp, ?_, ?_⟩
    · intro idx kv hkv
      rw [getD_replicate] at hkv
      simp [bucketPairs] at hkv
    · intro idx
      rw [getD_replicate]
      simp [bucketPairs]
  · show 0 = (mapItems (pvector (List.replicate 8 (none : Bucket K V))).toList).length
    rw [htol, mapItems_replicate]
    rfl

theorem emptyPMap_getitem [DecidableEq K] (hash : K → Int) (q : K) :
    PMap.getitem hash (emptyPMap : PMap K V) q = none := by
  obtain ⟨hvwf, htol⟩ := pvector_spec (List.replicate 8 (none : Bucket K V))
  have hwf := emptyPMap_wf (V := V) hash
  rw [pmap_getitem_eq_lookupBL hash emptyPMap hwf.1 hwf.2.1.1 q]
  show lookupBL hash (pvector (List.replicate 8 (none : Bucket K V))).toList q = none
  rw [htol, lookupBL, getD_replicate]
  rfl

/-- An evolver session of map writes, then `persistent()`, agrees with the
directly built map — provided the identity test never skips a write. -/
theorem map_session_equiv [DecidableEq K] (hash : K → Int) (loadCheck : Nat → Nat → Bool)
    (pyIs : V → V → Bool) (hsound : ∀ a b, pyIs a b = true → a = b)
    (hnoskip : ∀ a b, pyIs a b = false) (m : PMap K V) (hwf : PMap.WF hash m)
    (ops : List (MOp K V)) :
    ∃ md' e', runMapDirect hash loadCheck pyIs m ops = some md'
      ∧ runMapEvolver hash loadCheck pyIs (PMap.evolver m) ops = some e'
      ∧ (∀ q, PMap.getitem hash (MEvolver.persistent e') q = PMap.getitem hash md' q)
      ∧ (MEvolver.persistent e').size = md'.size := by
  obtain ⟨md', e', h1, h2, hmwf', hewf', hrel', hsz', horig', hd'⟩ :=
    map_runs_match hash loadCheck pyIs hsound hnoskip ops m m (PMap.evolver m)
      hwf (pmap_evolver_wf hash m hwf) (evolver_getitem_init hash m hwf) rfl rfl
      (Or.inr ⟨evolver_getitem_init hash m hwf, rfl⟩)
  have hpp : (∀ q, PMap.getitem hash (MEvolver.persistent e') q
      = PMap.getitem hash md' q) ∧ (MEvolver.persistent e').size = md'.size := by
    cases hd : e'.isDirty
    · rcases hd' with hdd | ⟨hg, hs⟩
      · rw [hdd] at hd
        exact absurd hd (by simp)
      · rw [mevolver_persistent_clean e' hd, horig']
        constructor
        · intro q
          rw [← hg q, hrel' q]
        · rw [← hs, hsz']
    · obtain ⟨hpwf, hpget, hpsz⟩ := mevolver_persistent_dirty hash e' hewf' hd
      constructor
      · intro q
        rw [hpget q, hrel' q]
      · rw [hpsz, hsz']
  exact ⟨md', e', h1, h2, hpp.1, hpp.2⟩

/-- Folding direct `PMap.set` calls over fresh, pairwise-distinct keys
succeeds and gives each key its value, leaves other keys unchanged, and
adds one to the size per key — for every reallocation schedule. -/
theorem pmap_insert_list [DecidableEq K] (hash : K → Int) (loadCheck : Nat → Nat → Bool)
    (pyIs : V → V → Bool) (hsound : ∀ a b, pyIs a b = true → a = b) :
    ∀ (kvs : List (K × V)) (m : PMap K V), PMap.WF hash m →
    (∀ kv ∈ kvs, PMap.getitem hash m kv.1 = none) →
    kvs.Pairwise (fun a b => a.1 ≠ b.1) →
    ∃ m', runMapDirect hash loadCheck pyIs m
        (kvs.map (fun kv => MOp.set kv.1 kv.2)) = some m'
      ∧ PMap.WF hash m' ∧ m'.size = m.size + kvs.length
      ∧ (∀ kv ∈ kvs, PMap.getitem hash m' kv.1 = some kv.2)
      ∧ (∀ q, (∀ kv ∈ kvs, kv.1 ≠ q) → PMap.getitem hash m' q = PMap.getitem hash m q) := by
  intro kvs
  induction kvs with
  | nil => exact fun m hwf _ _ => ⟨m, rfl, hwf, by simp, by simp, fun q _ => rfl⟩
  | cons kv rest ih =>
    intro m hwf hfresh hdis
    obtain ⟨k, v⟩ := kv
    obtain ⟨m1, hm1, hwf1, hget1, hsz1⟩ :=
      pmap_set_spec hash loadCheck pyIs hsound m hwf k v
    rw [List.pairwise_cons] at hdis
    have hfresh1 : ∀ kv ∈ rest, PMap.getitem hash m1 kv.1 = none := by
      intro kv hkv
      rw [hget1 kv.1, if_neg (fun hh => (hdis.1 kv hkv) hh.symm)]
      exact hfresh kv (List.mem_cons_of_mem _ hkv)
    obtain ⟨m', hrun, hwf', hsz', hmem', hframe'⟩ := ih m1 hwf1 hfresh1 hdis.2
    have hstep : runMapDirect hash loadCheck pyIs m
        (((k, v) :: rest).map (fun kv => MOp.set kv.1 kv.2))
        = runMapDirect hash loadCheck pyIs m1
            (rest.map (fun kv => MOp.set kv.1 kv.2)) := by
      rw [List.map_cons, runMapDirect, hm1, Option.some_bind]
    refine ⟨m', by rw [hstep]; exact hrun, hwf', ?_, ?_, ?_⟩
    · rw [hsz', hsz1, hfresh (k, v) (List.mem_cons_self _ _)]
      simp [List.length_cons]
      omega
    · intro kv hkv
      rcases List.mem_cons.mp hkv with rfl | hkv0
      · show PMap.getitem hash m' k = some v
        rw [hframe' k (fun kv2 hkv2 => (hdis.1 kv2 hkv2).symm), hget1 k, if_pos rfl]
      · exact hmem' kv hkv0
    · intro q hq
      rw [hframe' q (fun kv2 hkv2 => hq kv2 (List.mem_cons_of_mem _ hkv2)),
        hget1 q, if_neg (fun hh => (hq (k, v) (List.mem_cons_self _ _)) hh.symm)]

/-- The same fresh-keys insertion through one evolver session. -/
theorem session_insert_fresh [DecidableEq K] (hash : K → Int)
    (loadCheck : Nat → Nat → Bool) (pyIs : V → V → Bool)
    (hsound : ∀ a b, pyIs a b = true → a = b) :
    ∀ (kvs : List (K × V)) (e : MEvolver K V), MEvolver.WF hash e →
    (∀ kv ∈ kvs, MEvolver.getitem hash e kv.1 = none) →
    kvs.Pairwise (fun a b => a.1 ≠ b.1) →
    ∃ e', runMapEvolver hash loadCheck pyIs e
        (kvs.map (fun kv => MOp.set kv.1 kv.2)) = some e'
      ∧ MEvolver.WF hash e' ∧ e'.size = e.size + kvs.length
      ∧ (∀ kv ∈ kvs, MEvolver.getitem hash e' kv.1 = some kv.2)
      ∧ (∀ q, (∀ kv ∈ kvs, kv.1 ≠ q) →
          MEvolver.getitem hash e' q = MEvolver.getitem hash e q)
      ∧ e'.originalPMap = e.originalPMap := by
  intro kvs
  induction kvs with
  | nil => exact fun e hwf _ _ => ⟨e, rfl, hwf, by simp, by simp, fun q _ => rfl, rfl⟩
  | cons kv rest ih =>
    intro e hwf hfresh hdis
    obtain ⟨k, v⟩ := kv
    obtain ⟨e1, he1, hwf1, hget1, hsz1, horig1, _, _⟩ :=
      setitem_spec hash loadCheck pyIs hsound e hwf k v
    rw [List.pairwise_cons] at hdis
    have hfresh1 : ∀ kv ∈ rest, MEvolver.getitem hash e1 kv.1 = none := by
      intro kv hkv
      rw [hget1 kv.1, if_neg (fun hh => (hdis.1 kv hkv) hh.symm)]
      exact hfresh kv (List.mem_cons_of_mem _ hkv)
    obtain ⟨e', hrun, hwf', hsz', hmem', hframe', horig'⟩ := ih e1 hwf1 hfresh1 hdis.2
    have hstep : runMapEvolver hash loadCheck pyIs e
        (((k, v) :: rest).map (fun kv => MOp.set kv.1 kv.2))
        = runMapEvolver hash loadCheck pyIs e1
            (rest.map (fun kv => MOp.set kv.1 kv.2)) := by
      rw [List.map_cons, runMapEvolver, he1, Option.some_bind]
    refine ⟨e', by rw [hstep]; exact hrun, hwf', ?_, ?_, ?_, horig'.trans horig1⟩
    · rw [hsz', hsz1, hfresh (k, v) (List.mem_cons_self _ _)]
      simp [List.length_cons]
      omega
    · intro kv hkv
      rcases List.mem_cons.mp hkv with rfl | hkv0
      · show MEvolver.getitem hash e' k = some v
        rw [hframe' k (fun kv2 hkv2 => (hdis.1 kv2 hkv2).symm), hget1 k, if_pos rfl]
      · exact hmem' kv hkv0
    · intro q hq
      rw [hframe' q (fun kv2 hkv2 => hq kv2 (List.mem_cons_of_mem _ hkv2)),
        hget1 q, if_neg (fun hh => (hq (k, v) (List.mem_cons_self _ _)) hh.symm)]

theorem found_truthy [DecidableEq K] (b : Bucket K V) (key : K) (v : V)
    (h : listFind (bucketPairs b) key = some v) : bucketTruthy b = true := by
  cases b with
  | none => simp [bucketPairs, listFind] at h
  | some l =>
    cases l with
    | nil => simp [bucketPairs, listFind] at h
    | cons x xs => rfl

/-- When the load check fires and the (post-reallocation) stored value is
`pyIs`-identical to the new one, `__setitem__` leaves the session exactly
in the reallocated state — whose bucket evolver is fresh, hence clean.
This is the data-loss scenario of `PMap._Evolver.persistent`. -/
theorem setitem_skip_realloc [DecidableEq K] (hash : K → Int)
    (loadCheck : Nat → Nat → Bool) (pyIs : V → V → Bool) (e : MEvolver K V)
    (hwf : MEvolver.WF hash e)
    (hlc : loadCheck e.bucketsEvolver.length e.size = true)
    (key : K) (val : V) (v : V)
    (hv : MEvolver.getitem hash e key = some v) (hpi : pyIs v val = true) :
    MEvolver.setitem hash loadCheck pyIs e key val
      = some (e.reallocate hash (2 * e.bucketsEvolver.length)) := by
  have hn : 0 < 2 * e.bucketsEvolver.length := by
    have h1 : 0 < e.bucketsEvolver.asVector.toList.length := hwf.2.2.1.1
    have h2 : e.bucketsEvolver.count = e.bucketsEvolver.asVector.toList.length :=
      count_eq_toList_length e.bucketsEvolver.asVector hwf.1
    rw [VEvolver.length]
    omega
  obtain ⟨hwf1, hget1, _, _, _, _⟩ :=
    reallocate_spec hash e hwf (2 * e.bucketsEvolver.length) hn
  obtain ⟨h1, h2, h3, h4⟩ := hwf1
  have hv1 : MEvolver.getitem hash (e.reallocate hash (2 * e.bucketsEvolver.length)) key
      = some v := by
    rw [hget1 key]
    exact hv
  rw [mevolver_getitem_eq_lookupBL hash _ h1 h2 h3.1 key, lookupBL] at hv1
  have htr := found_truthy _ key v hv1
  rw [setitem_realloc_split hash loadCheck pyIs e key val, if_pos hlc,
    MEvolver.setitem]
  simp only [Bool.false_eq_true, if_false,
    mevolver_getBucket_eq hash _ h1 h2 h3.1 key]
  rw [if_pos htr]
  simp only [hv1]
  rw [if_pos hpi]

theorem setitem_skip_norealloc [DecidableEq K] (hash : K → Int)
    (loadCheck : Nat → Nat → Bool) (pyIs : V → V → Bool) (e : MEvolver K V)
    (hwf : MEvolver.WF hash e)
    (hlc : loadCheck e.bucketsEvolver.length e.size = false)
    (key : K) (val : V) (v : V)
    (hv : MEvolver.getitem hash e key = some v) (hpi : pyIs v val = true) :
    MEvolver.setitem hash loadCheck pyIs e key val = some e := by
  obtain ⟨h1, h2, h3, h4⟩ := hwf
  have hv1 := hv
  rw [mevolver_getitem_eq_lookupBL hash e h1 h2 h3.1 key, lookupBL] at hv1
  have htr := found_truthy _ key v hv1
  rw [setitem_realloc_split hash loadCheck pyIs e key val, if_neg (by simp [hlc]),
    MEvolver.setitem]
  simp only [Bool.false_eq_true, if_false,
    mevolver_getBucket_eq hash _ h1 h2 h3.1 key]
  rw [if_pos htr]
  simp only [hv1]
  rw [if_pos hpi]

theorem evolver_isDirty_init (m : PMap K V) :
    MEvolver.isDirty (PMap.evolver m) = false := rfl

/-- `PMap.set` with a stored value that is `pyIs`-identical to the new
one returns the very same map, whether or not the load check fires. -/
theorem pmap_set_identity [DecidableEq K] (hash : K → Int)
    (loadCheck : Nat → Nat → Bool) (pyIs : V → V → Bool)
    (m : PMap K V) (hwf : PMap.WF hash m) (key : K) (val : V) (v : V)
    (hv : PMap.getitem hash m key = some v) (hpi : pyIs v val = true) :
    PMap.set hash loadCheck pyIs m key val = some m := by
  have hewf := pmap_evolver_wf hash m hwf
  have hev : MEvolver.getitem hash (PMap.evolver m) key = some v := by
    rw [evolver_getitem_init hash m hwf key]
    exact hv
  rw [PMap.set]
  by_cases hlc : loadCheck (PMap.evolver m).bucketsEvolver.length (PMap.evolver m).size = true
  · have hn : 0 < 2 * (PMap.evolver m).bucketsEvolver.length := by
      have h1 : 0 < (PMap.evolver m).bucketsEvolver.asVector.toList.length := hewf.2.2.1.1
      have h2 : (PMap.evolver m).bucketsEvolver.count
          = (PMap.evolver m).bucketsEvolver.asVector.toList.length :=
        count_eq_toList_length (PMap.evolver m).bucketsEvolver.asVector hewf.1
      rw [VEvolver.length]
      omega
    obtain ⟨_, _, _, horig, hclean, _⟩ :=
      reallocate_spec hash (PMap.evolver m) hewf
        (2 * (PMap.evolver m).bucketsEvolver.length) hn
    rw [setitem_skip_realloc hash loadCheck pyIs (PMap.evolver m) hewf hlc key val v hev hpi,
      Option.map_some', mevolver_persistent_clean _ hclean, horig]
    rfl
  · have hlc2 : loadCheck (PMap.evolver m).bucketsEvolver.length (PMap.evolver m).size
        = false := by
      revert hlc
      cases loadCheck (PMap.evolver m).bucketsEvolver.length (PMap.evolver m).size <;> simp
    rw [setitem_skip_norealloc hash loadCheck pyIs (PMap.evolver m) hewf hlc2 key val v hev hpi,
      Option.map_some', mevolver_persistent_clean _ (evolver_isDirty_init m)]
    rfl

theorem pvector_count (l : List α) : (pvector l).count = l.length := by
  obtain ⟨hwf, htol⟩ := pvector_spec l
  rw [count_eq_toList_length _ hwf, htol]

theorem emptyPMap_bucket_count : (emptyPMap : PMap K V).buckets.count = 8 := by
  show (pvector (List.replicate 8 (none : Bucket K V))).count = 8
  rw [pvector_count, List.length_replicate]

theorem emptyPMap_bucket_toList_length :
    (emptyPMap : PMap K V).buckets.toList.length = 8 := by
  show (pvector (List.replicate 8 (none : Bucket K V))).toList.length = 8
  rw [(pvector_spec _).2, List.length_replicate]

theorem runMapEvolver_append [DecidableEq K] (hash : K → Int)
    (loadCheck : Nat → Nat → Bool) (pyIs : V → V → Bool)
    (l1 l2 : List (MOp K V)) (e : MEvolver K V) :
    runMapEvolver hash loadCheck pyIs e (l1 ++ l2)
      = (runMapEvolver hash loadCheck pyIs e l1).bind
          (fun e1 => runMapEvolver hash loadCheck pyIs e1 l2) := by
  induction l1 generalizing e with
  | nil => rfl
  | cons op rest ih =>
    obtain ⟨k, v⟩ := op
    rw [List.cons_append, runMapEvolver, runMapEvolver]
    cases MEvolver.setitem hash loadCheck pyIs e k v with
    | none => rfl
    | some e1 =>
      rw [Option.some_bind, Option.some_bind, ih e1]

theorem runMapDirect_append [DecidableEq K] (hash : K → Int)
    (loadCheck : Nat → Nat → Bool) (pyIs : V → V → Bool)
    (l1 l2 : List (MOp K V)) (m : PMap K V) :
    runMapDirect hash loadCheck pyIs m (l1 ++ l2)
      = (runMapDirect hash loadCheck pyIs m l1).bind
          (fun m1 => runMapDirect hash loadCheck pyIs m1 l2) := by
  induction l1 generalizing m with
  | nil => rfl
  | cons op rest ih =>
    obtain ⟨k, v⟩ := op
    rw [List.cons_append, runMapDirect, runMapDirect]
    cases PMap.set hash loadCheck pyIs m k v with
    | none => rfl
    | some m1 =>
      rw [Option.some_bind, Option.some_bind, ih m1]

/-- Through one evolver session, the bucket count only ever doubles:
it remains `2 ^ j` times its initial value. -/
theorem run_evolver_bucket_count [DecidableEq K] (hash : K → Int)
    (loadCheck : Nat → Nat → Bool) (pyIs : V → V → Bool)
    (hsound : ∀ a b, pyIs a b = true → a = b) :
    ∀ (ops : List (MOp K V)) (e : MEvolver K V), MEvolver.WF hash e →
    ∀ e', runMapEvolver hash loadCheck pyIs e ops = some e' →
    ∃ j, e'.bucketsEvolver.asVector.toList.length
      = 2 ^ j * e.bucketsEvolver.asVector.toList.length := by
  intro ops
  induction ops with
  | nil =>
    intro e hwf e' hrun
    rw [runMapEvolver] at hrun
    injection hrun with hrun
    exact ⟨0, by rw [hrun]; ring⟩
  | cons op rest ih =>
    intro e hwf e' hrun
    obtain ⟨k, v⟩ := op
    obtain ⟨e1, he1, hwf1, _, _, _, _, hlen1⟩ :=
      setitem_spec hash loadCheck pyIs hsound e hwf k v
    rw [runMapEvolver, he1, Option.some_bind] at hrun
    obtain ⟨j, hj⟩ := ih e1 hwf1 e' hrun
    rcases hlen1 with h | h
    · exact ⟨j, by rw [hj, h]⟩
    · exact ⟨j + 1, by rw [hj, h]; ring⟩

/-- A direct `PMap.set` preserves or doubles the bucket count. -/
theorem pmap_set_bucket_count [DecidableEq K] (hash : K → Int)
    (loadCheck : Nat → Nat → Bool) (pyIs : V → V → Bool)
    (hsound : ∀ a b, pyIs a b = true → a = b)
    (m : PMap K V) (hwf : PMap.WF hash m) (key : K) (val : V)
    (m' : PMap K V) (hset : PMap.set hash loadCheck pyIs m key val = some m') :
    m'.buckets.toList.length = m.buckets.toList.length
      ∨ m'.buckets.toList.length = 2 * m.buckets.toList.length := by
  obtain ⟨e', heq, hewf', _, _, horig', _, hlen'⟩ :=
    setitem_spec hash loadCheck pyIs hsound (PMap.evolver m)
      (pmap_evolver_wf hash m hwf) key val
  rw [PMap.set, heq, Option.map_some'] at hset
  injection hset with hset
  rw [← hset]
  cases hd : e'.isDirty
  · rw [mevolver_persistent_clean e' hd, horig']
    left
    rfl
  · have hbp : e'.bucketsEvolver.persistent = e'.bucketsEvolver.asVector :=
      persistent_of_no_extra _ hewf'.2.1
    have hb : (MEvolver.persistent e').buckets = e'.bucketsEvolver.asVector := by
      rw [MEvolver.persistent, if_pos hd]
      exact hbp
    rw [hb]
    exact hlen'

/-- Folding direct `PMap.set` calls only ever doubles the bucket count. -/
theorem run_direct_bucket_count [DecidableEq K] (hash : K → Int)
    (loadCheck : Nat → Nat → Bool) (pyIs : V → V → Bool)
    (hsound : ∀ a b, pyIs a b = true → a = b) :
    ∀ (ops : List (MOp K V)) (m : PMap K V), PMap.WF hash m →
    ∀ m', runMapDirect hash loadCheck pyIs m ops = some m' →
    ∃ j, m'.buckets.toList.length = 2 ^ j * m.buckets.toList.length := by
  intro ops
  induction ops with
  | nil =>
    intro m hwf m' hrun
    rw [runMapDirect] at hrun
    injection hrun with hrun
    exact ⟨0, by rw [hrun]; ring⟩
  | cons op rest ih =>
    intro m hwf m' hrun
    obtain ⟨k, v⟩ := op
    obtain ⟨m1, hm1, hwf1, _, _⟩ :=
      pmap_set_spec hash loadCheck pyIs hsound m hwf k v
    rw [runMapDirect, hm1, Option.some_bind] at hrun
    obtain ⟨j, hj⟩ := ih m1 hwf1 m' hrun
    rcases pmap_set_bucket_count hash loadCheck pyIs hsound m hwf k v m1 hm1 with h | h
    · exact ⟨j, by rw [hj, h]⟩
    · exact ⟨j + 1, by rw [hj, h]; ring⟩

/-! ### Claim C1: evolver equivalence -/

/-- C1.  Evolver equivalence.  The vector half holds unconditionally: a
sequence of `set`/`append` operations through one `PVector._Evolver`
session followed by `persistent()` realizes exactly the element sequence
of the same operations applied as direct persistent calls (both runs
raise `IndexError` at the same operation, covered by `runs_match`).  The
map half is proved under the guard that the identity test `v is val`
never skips a write (`pyIs` constantly false): without that guard the
claim is false — see `C1_counterexample`, where a reallocation resets
the bucket evolver's dirty flag, an identity skip follows, and
`persistent()` hands back the original map, discarding twelve earlier
writes. -/
theorem C1_evolver_equivalence :
    (∀ (α : Type) (v : PVector α) (ops : List (VOp α)) (vd : PVector α),
      v.WF → runDirect v ops = some vd →
      ∃ e', runEvolver (VEvolver.reset v) ops = some e'
        ∧ e'.persistent.WF ∧ e'.persistent.toList = vd.toList)
    ∧ (∀ (K V : Type) [DecidableEq K] (hash : K → Int)
        (loadCheck : Nat → Nat → Bool) (pyIs : V → V → Bool),
        (∀ a b, pyIs a b = false) →
        ∀ m : PMap K V, PMap.WF hash m → ∀ ops : List (MOp K V),
        ∃ md' e', runMapDirect hash loadCheck pyIs m ops = some md'
          ∧ runMapEvolver hash loadCheck pyIs (PMap.evolver m) ops = some e'
          ∧ (∀ q, PMap.getitem hash (MEvolver.persistent e') q
              = PMap.getitem hash md' q)
          ∧ (MEvolver.persistent e').size = md'.size) := by
  constructor
  · intro α v ops vd hwf hdir
    have hres := evolver_reset_spec v hwf
    rcases runs_match ops v (VEvolver.reset v) hwf hres.1 hres.2.symm with
      ⟨h1, _⟩ | ⟨vd2, e', h1, h2, _, hewf, htol⟩
    · rw [hdir] at h1
      exact absurd h1 (by simp)
    · rw [hdir] at h1
      injection h1 with h1
      obtain ⟨hpwf, hptol⟩ := evolver_persistent_spec e' hewf
      exact ⟨e', h2, hpwf, by rw [hptol, ← htol, h1]⟩
  · intro K V inst hash loadCheck pyIs hnoskip m hwf ops
    exact map_session_equiv hash loadCheck pyIs
      (fun a b hab => absurd (by rw [hnoskip a b] at hab; exact hab) (by simp))
      hnoskip m hwf ops

/-- C1, refuted for maps as literally claimed: from the empty map, twelve
inserts of fresh keys `0..11` followed by a write of key `0` with an
identical value.  The thirteenth operation triggers the reallocation
(the schedule used here fires exactly when `size = 12`, which on this
trajectory is precisely when the source's float check
`len < 0.67 * size` fires: the bucket count stays 8 while size runs
0..12, and `8 < 0.67 * s` first holds at `s = 12`), the fresh bucket
evolver is clean, the identity test skips the write, and `persistent()`
returns the untouched original empty map — the direct run keeps all
twelve keys. -/
theorem C1_counterexample :
    ∃ md' e',
      runMapDirect (fun n : Nat => (n : Int)) (fun _ size => decide (size = 12))
        (fun a b : Nat => a == b) emptyPMap
        ((((List.range 12).map (fun i => ((i : Nat), (0 : Nat)))).map
          (fun kv => MOp.set kv.1 kv.2)) ++ [MOp.set 0 0]) = some md'
      ∧ runMapEvolver (fun n : Nat => (n : Int)) (fun _ size => decide (size = 12))
        (fun a b : Nat => a == b) (PMap.evolver emptyPMap)
        ((((List.range 12).map (fun i => ((i : Nat), (0 : Nat)))).map
          (fun kv => MOp.set kv.1 kv.2)) ++ [MOp.set 0 0]) = some e'
      ∧ PMap.getitem (fun n : Nat => (n : Int)) md' (5 : Nat) = some 0
      ∧ PMap.getitem (fun n : Nat => (n : Int)) (MEvolver.persistent e') (5 : Nat)
          = none := by
  have hsound : ∀ a b : Nat, (a == b) = true → a = b := by
    intro a b h
    simpa using h
  have hdis : ((List.range 12).map (fun i => ((i : Nat), (0 : Nat)))).Pairwise
      (fun a b => a.1 ≠ b.1) := by
    rw [List.pairwise_map]
    exact (List.pairwise_lt_range 12).imp (fun h => Nat.ne_of_lt h)
  have hwfE : PMap.WF (fun n : Nat => (n : Int)) (emptyPMap : PMap Nat Nat) :=
    emptyPMap_wf _
  have hewf0 := pmap_evolver_wf (fun n : Nat => (n : Int)) emptyPMap hwfE
  have hfreshE : ∀ kv ∈ (List.range 12).map (fun i => ((i : Nat), (0 : Nat))),
      MEvolver.getitem (fun n : Nat => (n : Int))
        (PMap.evolver (emptyPMap : PMap Nat Nat)) kv.1 = none := by
    intro kv _
    rw [evolver_getitem_init _ emptyPMap hwfE kv.1, emptyPMap_getitem]
  obtain ⟨e12, hrun12, hwf12, hsz12, hmem12, _, horig12⟩ :=
    session_insert_fresh (fun n : Nat => (n : Int)) (fun _ size => decide (size = 12))
      (fun a b : Nat => a == b) hsound
      ((List.range 12).map (fun i => ((i : Nat), (0 : Nat))))
      (PMap.evolver emptyPMap) hewf0 hfreshE hdis
  have hsz12' : e12.size = 12 := by
    rw [hsz12]
    simp [PMap.evolver, emptyPMap]
  have hget12_0 : MEvolver.getitem (fun n : Nat => (n : Int)) e12 0 = some 0 := by
    refine hmem12 ((0 : Nat), (0 : Nat)) ?_
    rw [List.mem_map]
    exact ⟨0, by simp, rfl⟩
  have hlc13 : decide (e12.size = 12) = true := by
    rw [hsz12']
    simp
  have h13 := setitem_skip_realloc (fun n : Nat => (n : Int))
    (fun _ size => decide (size = 12)) (fun a b : Nat => a == b) e12 hwf12 hlc13
    0 0 0 hget12_0 rfl
  have hn13 : 0 < 2 * e12.bucketsEvolver.length := by
    have h1 : 0 < e12.bucketsEvolver.asVector.toList.length := hwf12.2.2.1.1
    have h2 : e12.bucketsEvolver.count = e12.bucketsEvolver.asVector.toList.length :=
      count_eq_toList_length e12.bucketsEvolver.asVector hwf12.1
    rw [VEvolver.length]
    omega
  obtain ⟨_, _, _, horig13, hclean13, _⟩ :=
    reallocate_spec (fun n : Nat => (n : Int)) e12 hwf12
      (2 * e12.bucketsEvolver.length) hn13
  have hrunE : runMapEvolver (fun n : Nat => (n : Int))
      (fun _ size => decide (size = 12)) (fun a b : Nat => a == b)
      (PMap.evolver emptyPMap)
      ((((List.range 12).map (fun i => ((i : Nat), (0 : Nat)))).map
        (fun kv => MOp.set kv.1 kv.2)) ++ [MOp.set 0 0])
      = some (e12.reallocate (fun n : Nat => (n : Int))
          (2 * e12.bucketsEvolver.length)) := by
    rw [runMapEvolver_append, hrun12, Option.some_bind, runMapEvolver, h13,
      Option.some_bind, runMapEvolver]
  have hpersE : MEvolver.persistent (e12.reallocate (fun n : Nat => (n : Int))
      (2 * e12.bucketsEvolver.length)) = emptyPMap := by
    rw [mevolver_persistent_clean _ hclean13, horig13, horig12]
    rfl
  have hfreshD : ∀ kv ∈ (List.range 12).map (fun i => ((i : Nat), (0 : Nat))),
      PMap.getitem (fun n : Nat => (n : Int)) (emptyPMap : PMap Nat Nat) kv.1 = none :=
    fun kv _ => emptyPMap_getitem _ _
  obtain ⟨m12, hrunD12, hwfD12, hszD12, hmemD12, _⟩ :=
    pmap_insert_list (fun n : Nat => (n : Int)) (fun _ size => decide (size = 12))
      (fun a b : Nat => a == b) hsound
      ((List.range 12).map (fun i => ((i : Nat), (0 : Nat))))
      emptyPMap hwfE hfreshD hdis
  have hgetD12_5 : PMap.getitem (fun n : Nat => (n : Int)) m12 5 = some 0 := by
    refine hmemD12 ((5 : Nat), (0 : Nat)) ?_
    rw [List.mem_map]
    exact ⟨5, by simp, rfl⟩
  obtain ⟨m13, hm13, _, hgetD13, _⟩ :=
    pmap_set_spec (fun n : Nat => (n : Int)) (fun _ size => decide (size = 12))
      (fun a b : Nat => a == b) hsound m12 hwfD12 0 0
  have hrunD : runMapDirect (fun n : Nat => (n : Int))
      (fun _ size => decide (size = 12)) (fun a b : Nat => a == b) emptyPMap
      ((((List.range 12).map (fun i => ((i : Nat), (0 : Nat)))).map
        (fun kv => MOp.set kv.1 kv.2)) ++ [MOp.set 0 0]) = some m13 := by
    rw [runMapDirect_append, hrunD12, Option.some_bind, runMapDirect, hm13,
      Option.some_bind, runMapDirect]
  refine ⟨m13, _, hrunD, hrunE, ?_, ?_⟩
  · rw [hgetD13 5, if_neg (by decide), hgetD12_5]
  · rw [hpersE, emptyPMap_getitem]

/-! ### Claims C3, C5 and C7 -/

/-- C3.  Map resize transparency: starting from the empty map (8
buckets), inserting pairwise-distinct keys one by one with `set` never
loses a key.  After each insertion — i.e. after any prefix `l1` of the
insertion sequence — `get` of every key inserted so far returns the
value inserted with it, and the size counts the insertions.  The
reallocation schedule (`loadCheck`, standing for the source's
`len < 0.67 * size` float test) and the identity test are arbitrary, so
this holds across all intervening bucket reallocations, for every `N`
(in particular every `N ≤ 1000`). -/
theorem C3_insert_never_loses (K V : Type) [DecidableEq K] (hash : K → Int)
    (loadCheck : Nat → Nat → Bool) (pyIs : V → V → Bool)
    (hsound : ∀ a b, pyIs a b = true → a = b)
    (kvs : List (K × V)) (hdis : kvs.Pairwise (fun a b => a.1 ≠ b.1))
    (l1 l2 : List (K × V)) (hsplit : kvs = l1 ++ l2) :
    ∃ m', runMapDirect hash loadCheck pyIs emptyPMap
        (l1.map (fun kv => MOp.set kv.1 kv.2)) = some m'
      ∧ m'.size = l1.length
      ∧ ∀ kv ∈ l1, PMap.getitem hash m' kv.1 = some kv.2 := by
  have hdis1 : l1.Pairwise (fun a b => a.1 ≠ b.1) := by
    subst hsplit
    exact hdis.sublist (List.sublist_append_left l1 l2)
  obtain ⟨m', hrun, _, hsz, hmem, _⟩ :=
    pmap_insert_list hash loadCheck pyIs hsound l1 emptyPMap (emptyPMap_wf hash)
      (fun kv _ => emptyPMap_getitem hash kv.1) hdis1
  refine ⟨m', hrun, ?_, hmem⟩
  rw [hsz]
  show 0 + l1.length = l1.length
  omega

theorem C3_witness :
    (∀ a b : Nat, (fun _ _ : Nat => false) a b = true → a = b)
    ∧ ([((1 : Nat), (10 : Nat)), (2, 20)].Pairwise (fun a b => a.1 ≠ b.1))
    ∧ ([((1 : Nat), (10 : Nat)), (2, 20)] = [((1 : Nat), (10 : Nat))] ++ [(2, 20)])
    ∧ (∃ m', runMapDirect (fun n : Nat => (n : Int)) (fun _ _ => false)
          (fun _ _ : Nat => false) emptyPMap
          ([((1 : Nat), (10 : Nat))].map (fun kv => MOp.set kv.1 kv.2)) = some m'
        ∧ m'.size = [((1 : Nat), (10 : Nat))].length
        ∧ ∀ kv ∈ [((1 : Nat), (10 : Nat))],
            PMap.getitem (fun n : Nat => (n : Int)) m' kv.1 = some kv.2) :=
  ⟨fun a b h => absurd h (by simp), by simp, rfl,
    C3_insert_never_loses Nat Nat (fun n : Nat => (n : Int)) (fun _ _ => false)
      (fun _ _ : Nat => false) (fun a b h => absurd h (by simp))
      [((1 : Nat), (10 : Nat)), (2, 20)] (by simp)
      [((1 : Nat), (10 : Nat))] [(2, 20)] rfl⟩

/-- C5 (amended).  (i) `m.set(key, val)` with the stored value
`pyIs`-identical to `val` returns the same map, whether or not the load
check fires.  (ii) `persistent()` returns the original map object
exactly when the underlying bucket-vector evolver is clean
(`is_dirty()` false); (iii) otherwise it builds a new map from the final
size and the realized bucket vector.  The original claim's "when no
write occurred during the session" is not equivalent to (ii): a
reallocation resets the dirty flag even when earlier writes occurred —
see `C5_counterexample`. -/
theorem C5_identity_noop_and_persistent :
    (∀ (K V : Type) [DecidableEq K] (hash : K → Int)
      (loadCheck : Nat → Nat → Bool) (pyIs : V → V → Bool)
      (m : PMap K V), PMap.WF hash m →
      ∀ (key : K) (val v : V), PMap.getitem hash m key = some v →
      pyIs v val = true → PMap.set hash loadCheck pyIs m key val = some m)
    ∧ (∀ (K V : Type) (e : MEvolver K V), e.isDirty = false →
        MEvolver.persistent e = e.originalPMap)
    ∧ (∀ (K V : Type) (e : MEvolver K V), e.isDirty = true →
        MEvolver.persistent e = ⟨e.size, e.bucketsEvolver.persistent⟩) := by
  refine ⟨?_, ?_, ?_⟩
  · intro K V inst hash loadCheck pyIs m hwf key val v hv hpi
    exact pmap_set_identity hash loadCheck pyIs m hwf key val v hv hpi
  · intro K V e hd
    exact mevolver_persistent_clean e hd
  · intro K V e hd
    rw [MEvolver.persistent, if_pos hd]

/-- C5, the "otherwise builds a new map" direction refuted as literally
claimed, on a trajectory the source's real float check produces: from
the empty map, twelve inserts of fresh keys `0..11` followed by a write
of key `0` with an identical value.  The schedule used here fires
exactly when `size = 12`, which on this trajectory is precisely when
`len < 0.67 * size` fires (the bucket count stays 8 while the size runs
0..12, and `8 < 0.67 * s` first holds at `s = 12`).  The thirteenth
operation therefore reallocates — installing a fresh clean bucket
evolver — and the identity test then skips the write, so although
twelve writes occurred during the session (key `5` is readable in the
final evolver state), `persistent()` returns the untouched original
empty map instead of building a new map from the final size and
buckets. -/
theorem C5_counterexample :
    ∃ e',
      runMapEvolver (fun n : Nat => (n : Int)) (fun _ size => decide (size = 12))
        (fun a b : Nat => a == b) (PMap.evolver emptyPMap)
        ((((List.range 12).map (fun i => ((i : Nat), (0 : Nat)))).map
          (fun kv => MOp.set kv.1 kv.2)) ++ [MOp.set 0 0]) = some e'
      ∧ MEvolver.getitem (fun n : Nat => (n : Int)) e' (5 : Nat) = some 0
      ∧ MEvolver.persistent e' = emptyPMap
      ∧ PMap.getitem (fun n : Nat => (n : Int)) (emptyPMap : PMap Nat Nat) (5 : Nat)
          = none := by
  have hsound : ∀ a b : Nat, (a == b) = true → a = b := by
    intro a b h
    simpa using h
  have hdis : ((List.range 12).map (fun i => ((i : Nat), (0 : Nat)))).Pairwise
      (fun a b => a.1 ≠ b.1) := by
    rw [List.pairwise_map]
    exact (List.pairwise_lt_range 12).imp (fun h => Nat.ne_of_lt h)
  have hwfE : PMap.WF (fun n : Nat => (n : Int)) (emptyPMap : PMap Nat Nat) :=
    emptyPMap_wf _
  have hewf0 := pmap_evolver_wf (fun n : Nat => (n : Int)) emptyPMap hwfE
  have hfreshE : ∀ kv ∈ (List.range 12).map (fun i => ((i : Nat), (0 : Nat))),
      MEvolver.getitem (fun n : Nat => (n : Int))
        (PMap.evolver (emptyPMap : PMap Nat Nat)) kv.1 = none := by
    intro kv _
    rw [evolver_getitem_init _ emptyPMap hwfE kv.1, emptyPMap_getitem]
  obtain ⟨e12, hrun12, hwf12, hsz12, hmem12, _, horig12⟩ :=
    session_insert_fresh (fun n : Nat => (n : Int)) (fun _ size => decide (size = 12))
      (fun a b : Nat => a == b) hsound
      ((List.range 12).map (fun i => ((i : Nat), (0 : Nat))))
      (PMap.evolver emptyPMap) hewf0 hfreshE hdis
  have hsz12a : e12.size = 12 := by
    rw [hsz12]
    simp [PMap.evolver, emptyPMap]
  have hget12_0 : MEvolver.getitem (fun n : Nat => (n : Int)) e12 0 = some 0 := by
    refine hmem12 ((0 : Nat), (0 : Nat)) ?_
    rw [List.mem_map]
    exact ⟨0, by simp, rfl⟩
  have hget12_5 : MEvolver.getitem (fun n : Nat => (n : Int)) e12 5 = some 0 := by
    refine hmem12 ((5 : Nat), (0 : Nat)) ?_
    rw [List.mem_map]
    exact ⟨5, by simp, rfl⟩
  have hlc13 : decide (e12.size = 12) = true := by
    rw [hsz12a]
    simp
  have h13 := setitem_skip_realloc (fun n : Nat => (n : Int))
    (fun _ size => decide (size = 12)) (fun a b : Nat => a == b) e12 hwf12 hlc13
    0 0 0 hget12_0 rfl
  have hn13 : 0 < 2 * e12.bucketsEvolver.length := by
    have h1 : 0 < e12.bucketsEvolver.asVector.toList.length := hwf12.2.2.1.1
    have h2 : e12.bucketsEvolver.count = e12.bucketsEvolver.asVector.toList.length :=
      count_eq_toList_length e12.bucketsEvolver.asVector hwf12.1
    rw [VEvolver.length]
    omega
  obtain ⟨_, hget13, _, horig13, hclean13, _⟩ :=
    reallocate_spec (fun n : Nat => (n : Int)) e12 hwf12
      (2 * e12.bucketsEvolver.length) hn13
  refine ⟨e12.reallocate (fun n : Nat => (n : Int)) (2 * e12.bucketsEvolver.length),
    ?_, ?_, ?_, emptyPMap_getitem _ _⟩
  · rw [runMapEvolver_append, hrun12, Option.some_bind, runMapEvolver, h13,
      Option.some_bind, runMapEvolver]
  · rw [hget13 5]
    exact hget12_5
  · rw [mevolver_persistent_clean _ hclean13, horig13, horig12]
    rfl

theorem run_evolver_wf [DecidableEq K] (hash : K → Int)
    (loadCheck : Nat → Nat → Bool) (pyIs : V → V → Bool)
    (hsound : ∀ a b, pyIs a b = true → a = b) :
    ∀ (ops : List (MOp K V)) (e : MEvolver K V), MEvolver.WF hash e →
    ∀ e', runMapEvolver hash loadCheck pyIs e ops = some e' → MEvolver.WF hash e' := by
  intro ops
  induction ops with
  | nil =>
    intro e hwf e' hrun
    rw [runMapEvolver] at hrun
    injection hrun with hrun
    rw [← hrun]
    exact hwf
  | cons op rest ih =>
    intro e hwf e' hrun
    obtain ⟨k, v⟩ := op
    obtain ⟨e1, he1, hwf1, _, _, _, _, _⟩ :=
      setitem_spec hash loadCheck pyIs hsound e hwf k v
    rw [runMapEvolver, he1, Option.some_bind] at hrun
    exact ih e1 hwf1 e' hrun

/-- C7 (amended).  The empty map has 8 buckets, and writes — whether a
fold of direct `set` calls or one evolver session plus `persistent()` —
only ever double the bucket count, for every reallocation schedule.
Hence every map reachable from the empty map through writes has
`8 * 2 ^ j` buckets, a power of two that is at least 8.  For maps built
with `pmap(initial, pre_size)` with a nonempty `initial` the original
claim is false (`_turbo_mapping` allocates `pre_size or 2 * len(initial)`
buckets) — see `C7_counterexample`. -/
theorem C7_bucket_count :
    (∀ (K V : Type), (emptyPMap : PMap K V).buckets.toList.length = 8)
    ∧ (∀ (K V : Type) [DecidableEq K] (hash : K → Int)
        (loadCheck : Nat → Nat → Bool) (pyIs : V → V → Bool),
        (∀ a b, pyIs a b = true → a = b) →
        ∀ (ops : List (MOp K V)) (m' : PMap K V),
        runMapDirect hash loadCheck pyIs emptyPMap ops = some m' →
        ∃ j, m'.buckets.toList.length = 8 * 2 ^ j)
    ∧ (∀ (K V : Type) [DecidableEq K] (hash : K → Int)
        (loadCheck : Nat → Nat → Bool) (pyIs : V → V → Bool),
        (∀ a b, pyIs a b = true → a = b) →
        ∀ (ops : List (MOp K V)) (e' : MEvolver K V),
        runMapEvolver hash loadCheck pyIs (PMap.evolver emptyPMap) ops = some e' →
        ∃ j, (MEvolver.persistent e').buckets.toList.length = 8 * 2 ^ j) := by
  refine ⟨?_, ?_, ?_⟩
  · intro K V
    exact emptyPMap_bucket_toList_length
  · intro K V inst hash loadCheck pyIs hsound ops m' hrun
    obtain ⟨j, hj⟩ := run_direct_bucket_count hash loadCheck pyIs hsound ops
      emptyPMap (emptyPMap_wf hash) m' hrun
    refine ⟨j, ?_⟩
    rw [hj, emptyPMap_bucket_toList_length]
    ring
  · intro K V inst hash loadCheck pyIs hsound ops e' hrun
    have hewf0 := pmap_evolver_wf hash (emptyPMap : PMap K V) (emptyPMap_wf hash)
    have hwf' := run_evolver_wf hash loadCheck pyIs hsound ops
      (PMap.evolver emptyPMap) hewf0 e' hrun
    cases hd : e'.isDirty
    · rw [mevolver_persistent_clean e' hd]
      obtain ⟨j, hj⟩ := run_evolver_bucket_count hash loadCheck pyIs hsound ops
        (PMap.evolver emptyPMap) hewf0 e' hrun
      refine ⟨0, ?_⟩
      have : e'.originalPMap = (emptyPMap : PMap K V) := by
        have horiginv : ∀ (ops2 : List (MOp K V)) (e : MEvolver K V),
            MEvolver.WF hash e →
            ∀ e2, runMapEvolver hash loadCheck pyIs e ops2 = some e2 →
            e2.originalPMap = e.originalPMap := by
          intro ops2
          induction ops2 with
          | nil =>
            intro e hwf e2 hrun2
            rw [runMapEvolver] at hrun2
            injection hrun2 with hrun2
            rw [← hrun2]
          | cons op rest ih =>
            intro e hwf e2 hrun2
            obtain ⟨k, v⟩ := op
            obtain ⟨e1, he1, hwf1, _, _, horig1, _, _⟩ :=
              setitem_spec hash loadCheck pyIs hsound e hwf k v
            rw [runMapEvolver, he1, Option.some_bind] at hrun2
            exact (ih e1 hwf1 e2 hrun2).trans horig1
        exact horiginv ops (PMap.evolver emptyPMap) hewf0 e' hrun
      rw [this, emptyPMap_bucket_toList_length]
      norm_num
    · have hbp : e'.bucketsEvolver.persistent = e'.bucketsEvolver.asVector :=
        persistent_of_no_extra _ hwf'.2.1
      have hb : (MEvolver.persistent e').buckets = e'.bucketsEvolver.asVector := by
        rw [MEvolver.persistent, if_pos hd]
        exact hbp
      obtain ⟨j, hj⟩ := run_evolver_bucket_count hash loadCheck pyIs hsound ops
        (PMap.evolver emptyPMap) hewf0 e' hrun
      refine ⟨j, ?_⟩
      rw [hb, hj]
      have h8 : (PMap.evolver (emptyPMap : PMap K V)).bucketsEvolver.asVector.toList.length
          = 8 := emptyPMap_bucket_toList_length
      rw [h8]
      ring

/-- C7, refuted as literally claimed: `pmap` applied to a one-pair
mapping allocates `2 * 1 = 2` buckets (fewer than 8), and with
`pre_size = 5` it allocates 5 buckets (not a power of two). -/
theorem C7_counterexample :
    (pmapOf (fun n : Nat => (n : Int)) [((0 : Nat), (0 : Nat))] 0).buckets.count = 2
    ∧ (pmapOf (fun n : Nat => (n : Int)) [((0 : Nat), (0 : Nat))] 5).buckets.count
        = 5 := by
  constructor
  · rw [pmapOf, if_neg (by simp), turboMapping]
    simp only
    rw [pvector_count, placeAll_length, List.length_replicate]
    norm_num
  · rw [pmapOf, if_neg (by simp), turboMapping]
    simp only
    rw [pvector_count, placeAll_length, List.length_replicate]
    norm_num

/-! ### Claims C2 and C4 -/

/-- C2.  Append behavior: `v2 = v1.append(x)` has `len(v2) = len(v1) + 1`,
`v2[i] == v1[i]` for every `i < len(v1)`, and `v2[len(v1)] == x`.  The
claim's final part — `v1` itself observably unchanged — is inherent in
the embedding: `append` is a pure function of `v1` (the structural
sharing of the Python implementation never mutates the argument), so
every `v1[i]` denotes the same value before and after. -/
theorem C2_append_behavior (α : Type) (v1 : PVector α) (hwf : v1.WF) (x : α) :
    (v1.append x).count = v1.count + 1
    ∧ (∀ i : Nat, i < v1.count → (v1.append x).get (i : Int) = v1.get (i : Int))
    ∧ (v1.append x).get (v1.count : Int) = some x := by
  obtain ⟨hwfa, htola, hcnta⟩ := append_spec v1 x hwf
  have hlen : v1.count = v1.toList.length := count_eq_toList_length v1 hwf
  refine ⟨hcnta, ?_, ?_⟩
  · intro i hi
    rw [get_in_range _ hwfa i (by omega), get_in_range _ hwf i hi, htola]
    exact List.getElem?_append_left (by omega)
  · rw [get_in_range _ hwfa v1.count (by omega), htola, hlen,
      List.getElem?_append_right (le_refl _)]
    simp

theorem C2_witness :
    (pvector [1, 2] : PVector Nat).WF
    ∧ (((pvector [1, 2] : PVector Nat).append 5).count
          = (pvector [1, 2] : PVector Nat).count + 1
      ∧ (∀ i : Nat, i < (pvector [1, 2] : PVector Nat).count →
          ((pvector [1, 2] : PVector Nat).append 5).get (i : Int)
            = (pvector [1, 2] : PVector Nat).get (i : Int))
      ∧ ((pvector [1, 2] : PVector Nat).append 5).get
          (((pvector [1, 2] : PVector Nat).count : Nat) : Int) = some 5) :=
  ⟨(pvector_spec [1, 2]).1,
    C2_append_behavior Nat (pvector [1, 2]) (pvector_spec [1, 2]).1 5⟩

/-- C4.  `set` trichotomy, with a negative `i` resolved as `i + count`:
at `i == count` it is `append`; inside `[0, count)` it replaces position
`i` (and keeps the length); outside `[0, count]` it raises
`IndexError` (`none`). -/
theorem C4_set_trichotomy (α : Type) (v : PVector α) (hwf : v.WF) (i : Int) (val : α) :
    ((if i < 0 then i + (v.count : Int) else i) = (v.count : Int) →
      v.set i val = some (v.append val))
    ∧ (∀ (h0 : 0 ≤ (if i < 0 then i + (v.count : Int) else i))
        (h1 : (if i < 0 then i + (v.count : Int) else i) < (v.count : Int)),
        ∃ w, v.set i val = some w ∧ w.count = v.count
          ∧ w.toList = v.toList.set (if i < 0 then i + (v.count : Int) else i).toNat val)
    ∧ (¬ (0 ≤ (if i < 0 then i + (v.count : Int) else i)
          ∧ (if i < 0 then i + (v.count : Int) else i) ≤ (v.count : Int)) →
        v.set i val = none) := by
  refine ⟨fun h => set_at_count v i val h, ?_, ?_⟩
  · intro h0 h1
    obtain ⟨w, hw, _, htol, hcnt⟩ := set_int_in_range v hwf i val h0 h1
    exact ⟨w, hw, hcnt, htol⟩
  · intro h
    refine set_out_of_range v i val ?_ ?_ <;> omega

theorem C4_witness :
    (pvector [7] : PVector Nat).WF
    ∧ (((if (1 : Int) < 0 then (1 : Int) + ((pvector [7] : PVector Nat).count : Int)
          else (1 : Int)) = ((pvector [7] : PVector Nat).count : Int) →
        (pvector [7] : PVector Nat).set 1 9
          = some ((pvector [7] : PVector Nat).append 9))
      ∧ (∀ (h0 : 0 ≤ (if (1 : Int) < 0
            then (1 : Int) + ((pvector [7] : PVector Nat).count : Int) else (1 : Int)))
          (h1 : (if (1 : Int) < 0
            then (1 : Int) + ((pvector [7] : PVector Nat).count : Int) else (1 : Int))
              < ((pvector [7] : PVector Nat).count : Int)),
          ∃ w, (pvector [7] : PVector Nat).set 1 9 = some w
            ∧ w.count = (pvector [7] : PVector Nat).count
            ∧ w.toList = (pvector [7] : PVector Nat).toList.set
                (if (1 : Int) < 0
                  then (1 : Int) + ((pvector [7] : PVector Nat).count : Int)
                  else (1 : Int)).toNat 9)
      ∧ (¬ (0 ≤ (if (1 : Int) < 0
            then (1 : Int) + ((pvector [7] : PVector Nat).count : Int) else (1 : Int))
          ∧ (if (1 : Int) < 0
              then (1 : Int) + ((pvector [7] : PVector Nat).count : Int) else (1 : Int))
            ≤ ((pvector [7] : PVector Nat).count : Int)) →
        (pvector [7] : PVector Nat).set 1 9 = none)) :=
  ⟨(pvector_spec [7]).1, C4_set_trichotomy Nat (pvector [7]) (pvector_spec [7]).1 1 9⟩

/-! ### Claim C10: deque pops -/

theorem plistRest_length (l : List α) : (plistRest l).length = l.length - 1 := by
  cases l <;> simp [plistRest]

theorem popLists_stop (p s : List α) (count : Int)
    (h : ¬ (0 < count ∧ (p.isEmpty = false ∨ s.isEmpty = false))) :
    popLists p s count = (p, s) := by
  rw [popLists.eq_def, dif_neg h]

theorem popLists_zero (p s : List α) : popLists p s 0 = (p, s) :=
  popLists_stop p s 0 (by simp)

theorem popLists_drain : ∀ (n : Nat) (count : Int), count.toNat ≤ n →
    ∀ (p s : List α), (p.length : Int) + s.length ≤ count →
    popLists p s count = ([], []) := by
  intro n
  induction n with
  | zero =>
    intro count hc p s hlen
    have hz : p.length = 0 ∧ s.length = 0 := by
      constructor <;> omega
    obtain ⟨hp, hs⟩ := hz
    rw [List.length_eq_zero] at hp hs
    subst hp
    subst hs
    exact popLists_stop [] [] count (by simp)
  | succ m ih =>
    intro count hc p s hlen
    by_cases hps : p = [] ∧ s = []
    · obtain ⟨rfl, rfl⟩ := hps
      exact popLists_stop [] [] count (by simp)
    · have hne : p.isEmpty = false ∨ s.isEmpty = false := by
        rcases not_and_or.mp hps with h | h
        · exact Or.inl (by simpa using h)
        · exact Or.inr (by simpa using h)
      have hlen1 : 1 ≤ p.length + s.length := by
        rcases not_and_or.mp hps with h | h
        · have := List.length_pos.mpr h
          omega
        · have := List.length_pos.mpr h
          omega
      have hcpos : 0 < count := by omega
      have hc1 : (count - 1).toNat ≤ m := by omega
      rw [popLists.eq_def, dif_pos ⟨hcpos, hne⟩]
      by_cases hr : (plistRest p).isEmpty = false
      · rw [if_pos hr]
        apply ih (count - 1) hc1 _ s
        have hrl := plistRest_length p
        have hpne : p ≠ [] := by
          intro hh
          subst hh
          simp [plistRest] at hr
        have hp1 := List.length_pos.mpr hpne
        omega
      · rw [if_neg hr]
        by_cases hp : p.isEmpty = false
        · rw [if_pos hp]
          apply ih (count - 1) hc1 s.reverse []
          have hpne : p ≠ [] := by simpa using hp
          have hp1 := List.length_pos.mpr hpne
          simp only [List.length_reverse, List.length_nil]
          omega
        · rw [if_neg hp]
          apply ih (count - 1) hc1 (plistRest s.reverse) []
          have hpe : p = [] := by
            revert hp
            cases p <;> simp
          have hsne : s ≠ [] := fun hh => hps ⟨hpe, hh⟩
          have hs1 := List.length_pos.mpr hsne
          have hrl := plistRest_length (s.reverse : List α)
          simp only [List.length_reverse] at hrl
          simp only [List.length_nil]
          omega

/-- C10.  Deque pops never fail (both are total functions of the
embedding, matching the source: `_EmptyPList.rest` is itself, so
`_pop_lists` never touches `first`).  For a deque whose stored length is
consistent, popping `n ≥ 0` elements yields length `max(len - n, 0)`
(stated with truncated subtraction); popping at least `len` elements —
in particular popping the empty deque — yields the empty deque; and
`pop(-n)` is `popleft(n)` and vice versa. -/
theorem C10_deque_pop (α : Type) (d : PDeque α) (n : Nat)
    (hlen : d.length = d.leftList.length + d.rightList.length) :
    ((d.pop (n : Int)).length = d.length - n
      ∧ (d.popleft (n : Int)).length = d.length - n)
    ∧ (d.length ≤ n →
        d.pop (n : Int) = ⟨[], [], 0, d.maxlen⟩
        ∧ d.popleft (n : Int) = ⟨[], [], 0, d.maxlen⟩)
    ∧ (d.pop (-(n : Int)) = d.popleft (n : Int)
      ∧ d.popleft (-(n : Int)) = d.pop (n : Int)) := by
  have hnn : ¬ ((n : Int) < 0) := by omega
  refine ⟨⟨?_, ?_⟩, ?_, ?_⟩
  · rw [PDeque.pop, if_neg hnn]
    show ((max ((d.length : Int) - n) 0).toNat) = d.length - n
    omega
  · rw [PDeque.popleft, if_neg hnn]
    show ((max ((d.length : Int) - n) 0).toNat) = d.length - n
    omega
  · intro hle
    have hdrain1 : popLists d.rightList d.leftList (n : Int) = ([], []) := by
      apply popLists_drain n (n : Int) (by omega)
      omega
    have hdrain2 : popLists d.leftList d.rightList (n : Int) = ([], []) := by
      apply popLists_drain n (n : Int) (by omega)
      omega
    have hX : (max ((d.length : Int) - n) 0).toNat = 0 := by omega
    constructor
    · rw [PDeque.pop, if_neg hnn, PDeque.popPos]
      simp only [hdrain1]
      rw [hX]
    · rw [PDeque.popleft, if_neg hnn, PDeque.popleftPos]
      simp only [hdrain2]
      rw [hX]
  · by_cases hz : n = 0
    · subst hz
      have hX : (max ((d.length : Int) - ((0 : Nat) : Int)) 0).toNat = d.length := by
        omega
      constructor
      · rw [PDeque.pop, PDeque.popleft, if_neg (by omega), if_neg (by omega),
          PDeque.popPos, PDeque.popleftPos]
        simp only [neg_zero, Nat.cast_zero, popLists_zero]
      · rw [PDeque.pop, PDeque.popleft, if_neg (by omega), if_neg (by omega),
          PDeque.popPos, PDeque.popleftPos]
        simp only [neg_zero, Nat.cast_zero, popLists_zero]
    · have hpos : 0 < n := Nat.pos_of_ne_zero hz
      constructor
      · rw [PDeque.pop, if_pos (by omega), PDeque.popleft, if_neg hnn, neg_neg]
      · rw [PDeque.popleft, if_pos (by omega), PDeque.pop, if_neg hnn, neg_neg]

theorem C10_witness :
    (PDeque.length (⟨[1, 2], [3], 3, none⟩ : PDeque Nat)
        = List.length (PDeque.leftList (⟨[1, 2], [3], 3, none⟩ : PDeque Nat))
          + List.length (PDeque.rightList (⟨[1, 2], [3], 3, none⟩ : PDeque Nat)))
    ∧ ((PDeque.length (PDeque.pop (⟨[1, 2], [3], 3, none⟩ : PDeque Nat) ((2 : Nat) : Int))
          = PDeque.length (⟨[1, 2], [3], 3, none⟩ : PDeque Nat) - 2
        ∧ PDeque.length (PDeque.popleft (⟨[1, 2], [3], 3, none⟩ : PDeque Nat) ((2 : Nat) : Int))
          = PDeque.length (⟨[1, 2], [3], 3, none⟩ : PDeque Nat) - 2)
      ∧ (PDeque.length (⟨[1, 2], [3], 3, none⟩ : PDeque Nat) ≤ 2 →
          PDeque.pop (⟨[1, 2], [3], 3, none⟩ : PDeque Nat) ((2 : Nat) : Int)
            = ⟨[], [], 0, PDeque.maxlen (⟨[1, 2], [3], 3, none⟩ : PDeque Nat)⟩
          ∧ PDeque.popleft (⟨[1, 2], [3], 3, none⟩ : PDeque Nat) ((2 : Nat) : Int)
            = ⟨[], [], 0, PDeque.maxlen (⟨[1, 2], [3], 3, none⟩ : PDeque Nat)⟩)
      ∧ (PDeque.pop (⟨[1, 2], [3], 3, none⟩ : PDeque Nat) (-((2 : Nat) : Int))
          = PDeque.popleft (⟨[1, 2], [3], 3, none⟩ : PDeque Nat) ((2 : Nat) : Int)
        ∧ PDeque.popleft (⟨[1, 2], [3], 3, none⟩ : PDeque Nat) (-((2 : Nat) : Int))
          = PDeque.pop (⟨[1, 2], [3], 3, none⟩ : PDeque Nat) ((2 : Nat) : Int))) :=
  ⟨rfl, C10_deque_pop Nat ⟨[1, 2], [3], 3, none⟩ 2 rfl⟩

/-! ### Claim C9: the comparison protocol -/

/-- C9.  Every comparison method of `PVector` is wrapped by `_comparator`,
so against a non-vector operand all six — the four orderings and also
`__eq__`/`__ne__` themselves — return `NotImplemented` (`none`) rather
than `False`; totality of `v == x` and `v != x` holds at the host
operator level, where the dispatch (`hostBoolOp`) always produces a
boolean for every operand, thanks to the identity fallback. -/
theorem C9_comparator_protocol (α : Type) [DecidableEq α]
    (cmp : α → α → Ordering) (pyIsV : PVector α → PVector α → Bool)
    (v : PVector α) (x y : PyVal α) (h : PyVal.isVec x = false)
    (rev : Option Bool) (fb : Bool) :
    (vec_ltM cmp (.vec v) x = none ∧ vec_leM cmp (.vec v) x = none
      ∧ vec_gtM cmp (.vec v) x = none ∧ vec_geM cmp (.vec v) x = none
      ∧ vec_eqM pyIsV (.vec v) x = none ∧ vec_neM (.vec v) x = none)
    ∧ ((hostBoolOp (vec_eqM pyIsV (.vec v) y) rev fb).isSome = true
      ∧ (hostBoolOp (vec_neM (.vec v) y) rev fb).isSome = true) := by
  have htot : ∀ (fwd : Option Bool), (hostBoolOp fwd rev fb).isSome = true := by
    intro fwd
    cases fwd with
    | some b => rfl
    | none =>
      cases rev with
      | some b => rfl
      | none => rfl
  cases x with
  | vec w => simp [PyVal.isVec] at h
  | other n =>
    exact ⟨⟨rfl, rfl, rfl, rfl, rfl, rfl⟩, htot _, htot _⟩

theorem C9_witness :
    (PyVal.isVec (PyVal.other 0 : PyVal Nat) = false)
    ∧ ((vec_ltM compare (PyVal.vec (pvector [1])) (PyVal.other 0 : PyVal Nat) = none
        ∧ vec_leM compare (PyVal.vec (pvector [1])) (PyVal.other 0 : PyVal Nat) = none
        ∧ vec_gtM compare (PyVal.vec (pvector [1])) (PyVal.other 0 : PyVal Nat) = none
        ∧ vec_geM compare (PyVal.vec (pvector [1])) (PyVal.other 0 : PyVal Nat) = none
        ∧ vec_eqM (fun _ _ => false) (PyVal.vec (pvector [1]))
            (PyVal.other 0 : PyVal Nat) = none
        ∧ vec_neM (PyVal.vec (pvector [1])) (PyVal.other 0 : PyVal Nat) = none)
      ∧ ((hostBoolOp (vec_eqM (fun _ _ => false) (PyVal.vec (pvector [1]))
            (PyVal.other 1 : PyVal Nat)) none false).isSome = true
        ∧ (hostBoolOp (vec_neM (PyVal.vec (pvector [1]))
            (PyVal.other 1 : PyVal Nat)) none false).isSome = true)) :=
  ⟨rfl, C9_comparator_protocol Nat compare (fun _ _ => false) (pvector [1])
    (PyVal.other 0) (PyVal.other 1) rfl none false⟩

/-! ### Claim C6: freeze and thaw -/

theorem freezeList_eq_map (xs : List PyObj) : freezeList xs = xs.map freeze := by
  induction xs with
  | nil => rw [freezeList, List.map_nil]
  | cons x xs ih => rw [freezeList, List.map_cons, ih]

theorem freezeVals_eq_map (kvs : List (PyObj × PyObj)) :
    freezeVals kvs = kvs.map (fun kv => (kv.1, freeze kv.2)) := by
  induction kvs with
  | nil => rw [freezeVals, List.map_nil]
  | cons kv kvs ih =>
    obtain ⟨k, v⟩ := kv
    rw [freezeVals, List.map_cons, ih]

theorem thawList_eq_map (xs : List PyObj) : thawList xs = xs.map thaw := by
  induction xs with
  | nil => rw [thawList, List.map_nil]
  | cons x xs ih => rw [thawList, List.map_cons, ih]

theorem thawVals_eq_map (kvs : List (PyObj × PyObj)) :
    thawVals kvs = kvs.map (fun kv => (kv.1, thaw kv.2)) := by
  induction kvs with
  | nil => rw [thawVals, List.map_nil]
  | cons kv kvs ih =>
    obtain ⟨k, v⟩ := kv
    rw [thawVals, List.map_cons, ih]

theorem thaw_freeze_native :
    ∀ (d : Nat) (x : PyObj), nativeB d x = true → thaw (freeze x) = x := by
  intro d
  induction d with
  | zero =>
    intro x hx
    cases x with
    | int n => rw [freeze, thaw]
    | str t => rw [freeze, thaw]
    | list xs => simp [nativeB, PyObj.isAtom] at hx
    | tuple xs => simp [nativeB, PyObj.isAtom] at hx
    | set xs => simp [nativeB, PyObj.isAtom] at hx
    | dict kvs => simp [nativeB, PyObj.isAtom] at hx
    | pvec xs => simp [nativeB, PyObj.isAtom] at hx
    | pmap kvs => simp [nativeB, PyObj.isAtom] at hx
    | pset xs => simp [nativeB, PyObj.isAtom] at hx
  | succ m ih =>
    intro x hx
    cases x with
    | int n => rw [freeze, thaw]
    | str t => rw [freeze, thaw]
    | set xs => rw [freeze, thaw]
    | list xs =>
      simp only [nativeB, List.all_eq_true] at hx
      rw [freeze, thaw, thawList_eq_map, freezeList_eq_map, List.map_map]
      have hpt : ∀ y ∈ xs, (thaw ∘ freeze) y = id y := by
        intro y hy
        exact ih y (hx y hy)
      rw [List.map_congr_left hpt, List.map_id]
    | tuple xs =>
      simp only [nativeB, List.all_eq_true] at hx
      rw [freeze, thaw, thawList_eq_map, freezeList_eq_map, List.map_map]
      have hpt : ∀ y ∈ xs, (thaw ∘ freeze) y = id y := by
        intro y hy
        exact ih y (hx y hy)
      rw [List.map_congr_left hpt, List.map_id]
    | dict kvs =>
      simp only [nativeB, List.all_eq_true] at hx
      rw [freeze, thaw, thawVals_eq_map, freezeVals_eq_map, List.map_map]
      have hpt : ∀ kv ∈ kvs,
          ((fun kv : PyObj × PyObj => (kv.1, thaw kv.2))
            ∘ (fun kv : PyObj × PyObj => (kv.1, freeze kv.2))) kv = id kv := by
        intro kv hkv
        have hv := (Bool.and_eq_true _ _).mp (hx kv hkv)
        show ((kv.1, thaw (freeze kv.2)) : PyObj × PyObj) = kv
        rw [ih kv.2 hv.2]
      rw [List.map_congr_left hpt, List.map_id]
    | pvec xs => simp [nativeB] at hx
    | pmap kvs => simp [nativeB] at hx
    | pset xs => simp [nativeB] at hx

/-- C6.  For every value built from nested native list/dict/set/tuple
containers (any depth, so in particular up to depth 3),
`thaw (freeze x) = x`; and `freeze` on a dict recurses on the values
only, leaving the keys unconverted — in particular freezing the
counterpart of `{'a': {1, 2}}` yields a map whose value at `'a'` is the
persistent set `{1, 2}` while the key stays a native string. -/
theorem C6_freeze_thaw (d : Nat) (x : PyObj) (hx : nativeB d x = true)
    (kvs : List (PyObj × PyObj)) :
    thaw (freeze x) = x
    ∧ freeze (.dict kvs) = .pmap (kvs.map (fun kv => (kv.1, freeze kv.2)))
    ∧ freeze (.dict [(.str "a", .set [.int 1, .int 2])])
        = .pmap [(.str "a", .pset [.int 1, .int 2])] := by
  refine ⟨thaw_freeze_native d x hx, ?_, ?_⟩
  · rw [freeze, freezeVals_eq_map]
  · rw [freeze, freezeVals, freezeVals, freeze]

theorem C6_witness :
    (nativeB 3 (.list [.dict [(.str "a", .set [.int 1])],
        .tuple [.int 2, .list [.int 3]]]) = true)
    ∧ (thaw (freeze (.list [.dict [(.str "a", .set [.int 1])],
          .tuple [.int 2, .list [.int 3]]]))
        = .list [.dict [(.str "a", .set [.int 1])],
          .tuple [.int 2, .list [.int 3]]]
      ∧ freeze (.dict [(.str "b", .list [.int 4])])
        = .pmap ([(.str "b", .list [.int 4])].map (fun kv => (kv.1, freeze kv.2)))
      ∧ freeze (.dict [(.str "a", .set [.int 1, .int 2])])
        = .pmap [(.str "a", .pset [.int 1, .int 2])]) :=
  ⟨rfl, C6_freeze_thaw 3 (.list [.dict [(.str "a", .set [.int 1])],
      .tuple [.int 2, .list [.int 3]]]) rfl [(.str "b", .list [.int 4])]⟩

/-! ### Claim C8: record validation -/

theorem isEmpty_false_iff (l : List α) : l.isEmpty = false ↔ l ≠ [] := by
  cases l <;> simp

theorem recops_accum [DecidableEq K] (hash : K → Int) (loadCheck : Nat → Nat → Bool)
    (pyIs : V → V → Bool) (hsound : ∀ a b, pyIs a b = true → a = b)
    (cls : RecordCls K V EC MF) :
    ∀ (ops : List (K × V)) (e : PRecEvolver K V EC MF),
      MEvolver.WF hash e.base →
      (∀ kv ∈ ops, ∃ f, cls.fields kv.1 = some f
        ∧ f.factory kv.2 = Except.ok kv.2 ∧ f.hasType = false) →
      ∃ e', runRecOps hash loadCheck pyIs cls e ops = some e'
        ∧ e'.invariantErrorCodes = e.invariantErrorCodes ++ fieldCodes cls ops
        ∧ e'.missingFields = e.missingFields
        ∧ MEvolver.WF hash e'.base := by
  intro ops
  induction ops with
  | nil =>
    intro e hwf _
    exact ⟨e, rfl, by simp [fieldCodes], rfl, hwf⟩
  | cons kv ops ih =>
    intro e hwf hops
    obtain ⟨k, v⟩ := kv
    obtain ⟨f, hf, hfac, hht⟩ := hops (k, v) (List.mem_cons_self _ _)
    obtain ⟨b, hb, hbwf, -, -, -, -, -⟩ :=
      setitem_spec hash loadCheck pyIs hsound e.base hwf k v
    by_cases hinv : (f.invariant v).1 = true
    · have hset : PRecEvolver.setitem hash loadCheck pyIs cls e k v
          = some { e with base := b } := by
        simp only [PRecEvolver.setitem, hf, hfac, hht, hinv, hb, Bool.false_and,
          Bool.false_eq_true, if_false, if_true, Option.map_some']
      obtain ⟨e'', hrun2, hc2, hm2, hwf2⟩ :=
        ih { e with base := b } hbwf (fun kv hkv => hops kv (List.mem_cons_of_mem _ hkv))
      refine ⟨e'', ?_, ?_, hm2, hwf2⟩
      · simp only [runRecOps, hset]
        exact hrun2
      · rw [hc2]
        show e.invariantErrorCodes ++ fieldCodes cls ops = _
        simp only [fieldCodes, hf, hinv, if_true, List.nil_append]
    · have hset : PRecEvolver.setitem hash loadCheck pyIs cls e k v
          = some { e with
                   base := b,
                   invariantErrorCodes := e.invariantErrorCodes ++ [(f.invariant v).2] } := by
        simp only [PRecEvolver.setitem, hf, hfac, hht, hinv, hb, Bool.false_and,
          Bool.false_eq_true, if_false, Option.map_some']
      obtain ⟨e'', hrun2, hc2, hm2, hwf2⟩ :=
        ih { e with
             base := b,
             invariantErrorCodes := e.invariantErrorCodes ++ [(f.invariant v).2] } hbwf
          (fun kv hkv => hops kv (List.mem_cons_of_mem _ hkv))
      refine ⟨e'', ?_, ?_, hm2, hwf2⟩
      · simp only [runRecOps, hset]
        exact hrun2
      · rw [hc2]
        show (e.invariantErrorCodes ++ [(f.invariant v).2]) ++ fieldCodes cls ops = _
        simp only [fieldCodes, hf, hinv, Bool.false_eq_true, if_false,
          List.append_assoc, List.singleton_append]

/-- C8.  Error aggregation in record validation is complete per stage,
not globally: a session of straight-through writes accumulates one code
for every write whose field invariant rejects the value (never only the
first); `persistent` then raises a single `InvariantException` carrying
all accumulated field codes together with every missing mandatory field
whenever either list is nonempty — without evaluating the global
invariants — and only when both lists are empty does it evaluate the
global invariants, raising one exception with the codes of every failing
one. -/
theorem C8_record_validation [DecidableEq K] (hash : K → Int)
    (loadCheck : Nat → Nat → Bool) (pyIs : V → V → Bool)
    (hsound : ∀ a b, pyIs a b = true → a = b)
    (cls : RecordCls K V EC MF) (m : PMap K V) (hwf : PMap.WF hash m)
    (ops : List (K × V))
    (hops : ∀ kv ∈ ops, ∃ f, cls.fields kv.1 = some f
      ∧ f.factory kv.2 = Except.ok kv.2 ∧ f.hasType = false) :
    ∃ e', runRecOps hash loadCheck pyIs cls (PRecEvolver.init m) ops = some e'
      ∧ e'.invariantErrorCodes = fieldCodes cls ops
      ∧ e'.missingFields = []
      ∧ (fieldCodes cls ops ≠ []
          ∨ missingNow hash cls (MEvolver.persistent e'.base) ≠ [] →
          PRecEvolver.persistent hash cls e'
            = .error (fieldCodes cls ops,
                missingNow hash cls (MEvolver.persistent e'.base)))
      ∧ (fieldCodes cls ops = [] →
          missingNow hash cls (MEvolver.persistent e'.base) = [] →
          globalCodes cls (MEvolver.persistent e'.base) ≠ [] →
          PRecEvolver.persistent hash cls e'
            = .error (globalCodes cls (MEvolver.persistent e'.base), []))
      ∧ (fieldCodes cls ops = [] →
          missingNow hash cls (MEvolver.persistent e'.base) = [] →
          globalCodes cls (MEvolver.persistent e'.base) = [] →
          PRecEvolver.persistent hash cls e'
            = .ok (MEvolver.persistent e'.base)) := by
  obtain ⟨e', hrun, hc, hm, hbwf⟩ := recops_accum hash loadCheck pyIs hsound cls ops
    (PRecEvolver.init m) (pmap_evolver_wf hash m hwf) hops
  have hc' : e'.invariantErrorCodes = fieldCodes cls ops := by
    rw [hc]
    rfl
  have hm' : e'.missingFields = [] := hm
  refine ⟨e', hrun, hc', hm', ?_, ?_, ?_⟩
  · intro hne
    have hcond : e'.invariantErrorCodes.isEmpty = false
        ∨ (e'.missingFields
            ++ missingNow hash cls (MEvolver.persistent e'.base)).isEmpty = false := by
      rcases hne with h | h
      · exact Or.inl ((isEmpty_false_iff _).mpr (by rw [hc']; exact h))
      · refine Or.inr ((isEmpty_false_iff _).mpr ?_)
        rw [hm', List.nil_append]
        exact h
    simp only [PRecEvolver.persistent]
    rw [if_pos hcond, hc', hm', List.nil_append]
  · intro hfc hmn hg
    have h1 : e'.invariantErrorCodes = [] := by rw [hc', hfc]
    have h2 : e'.missingFields
        ++ missingNow hash cls (MEvolver.persistent e'.base) = [] := by
      rw [hm', hmn, List.append_nil]
    have hcond : ¬ (e'.invariantErrorCodes.isEmpty = false
        ∨ (e'.missingFields
            ++ missingNow hash cls (MEvolver.persistent e'.base)).isEmpty = false) := by
      rw [h1, h2]
      simp
    simp only [PRecEvolver.persistent]
    rw [if_neg hcond, if_pos ((isEmpty_false_iff _).mpr hg)]
  · intro hfc hmn hg
    have h1 : e'.invariantErrorCodes = [] := by rw [hc', hfc]
    have h2 : e'.missingFields
        ++ missingNow hash cls (MEvolver.persistent e'.base) = [] := by
      rw [hm', hmn, List.append_nil]
    have hcond : ¬ (e'.invariantErrorCodes.isEmpty = false
        ∨ (e'.missingFields
            ++ missingNow hash cls (MEvolver.persistent e'.base)).isEmpty = false) := by
      rw [h1, h2]
      simp
    have hcond2 : ¬ ((globalCodes cls (MEvolver.persistent e'.base)).isEmpty = false) := by
      rw [hg]
      simp
    simp only [PRecEvolver.persistent]
    rw [if_neg hcond, if_neg hcond2]

theorem C8_counterexample :
    ∃ e', runRecOps (fun k : Nat => (k : Int)) (fun _ _ => false) (fun _ _ => false) cls0
        (PRecEvolver.init (emptyPMap : PMap Nat Nat)) [(0, 5)] = some e'
      ∧ PRecEvolver.persistent (fun k : Nat => (k : Int)) cls0 e'
          = Except.error ([1], [])
      ∧ globalCodes cls0 (MEvolver.persistent e'.base) = [2]
      ∧ 2 ∉ ([1] : List Nat) := by
  have hops : ∀ kv ∈ ([(0, 5)] : List (Nat × Nat)),
      ∃ f, cls0.fields kv.1 = some f
        ∧ f.factory kv.2 = Except.ok kv.2 ∧ f.hasType = false := by
    intro kv hkv
    simp only [List.mem_singleton] at hkv
    subst hkv
    exact ⟨_, rfl, rfl, rfl⟩
  obtain ⟨e', hrun, hc, hm, hbwf⟩ := recops_accum (fun k : Nat => (k : Int))
    (fun _ _ => false) (fun _ _ => false) (by intro a b h; simp at h) cls0
    [(0, 5)] (PRecEvolver.init (emptyPMap : PMap Nat Nat))
    (pmap_evolver_wf _ _ (emptyPMap_wf _)) hops
  have hc' : e'.invariantErrorCodes = [1] := by
    rw [hc]
    rfl
  have hm' : e'.missingFields = [] := hm
  refine ⟨e', hrun, ?_, rfl, by decide⟩
  have hcond : e'.invariantErrorCodes.isEmpty = false
      ∨ (e'.missingFields
          ++ missingNow (fun k : Nat => (k : Int)) cls0 (MEvolver.persistent e'.base)).isEmpty
        = false := by
    exact Or.inl (by rw [hc']; rfl)
  simp only [PRecEvolver.persistent]
  rw [if_pos hcond, hc', hm']
  rfl

theorem C8_witness :
    PMap.WF (fun k : Nat => (k : Int)) (emptyPMap : PMap Nat Nat)
    ∧ (∃ e', runRecOps (fun k : Nat => (k : Int)) (fun _ _ => false) (fun _ _ => false) cls0
          (PRecEvolver.init (emptyPMap : PMap Nat Nat)) [(0, 5)] = some e'
        ∧ e'.invariantErrorCodes = fieldCodes cls0 [(0, 5)]
        ∧ e'.missingFields = []
        ∧ (fieldCodes cls0 [(0, 5)] ≠ []
            ∨ missingNow (fun k : Nat => (k : Int)) cls0 (MEvolver.persistent e'.base) ≠ [] →
            PRecEvolver.persistent (fun k : Nat => (k : Int)) cls0 e'
              = .error (fieldCodes cls0 [(0, 5)],
                  missingNow (fun k : Nat => (k : Int)) cls0 (MEvolver.persistent e'.base)))
        ∧ (fieldCodes cls0 [(0, 5)] = [] →
            missingNow (fun k : Nat => (k : Int)) cls0 (MEvolver.persistent e'.base) = [] →
            globalCodes cls0 (MEvolver.persistent e'.base) ≠ [] →
            PRecEvolver.persistent (fun k : Nat => (k : Int)) cls0 e'
              = .error (globalCodes cls0 (MEvolver.persistent e'.base), []))
        ∧ (fieldCodes cls0 [(0, 5)] = [] →
            missingNow (fun k : Nat => (k : Int)) cls0 (MEvolver.persistent e'.base) = [] →
            globalCodes cls0 (MEvolver.persistent e'.base) = [] →
            PRecEvolver.persistent (fun k : Nat => (k : Int)) cls0 e'
              = .ok (MEvolver.persistent e'.base))) :=
  ⟨emptyPMap_wf _,
    C8_record_validation (fun k : Nat => (k : Int)) (fun _ _ => false) (fun _ _ => false)
      (by intro a b h; simp at h) cls0 emptyPMap (emptyPMap_wf _) [(0, 5)]
      (by
        intro kv hkv
        simp only [List.mem_singleton] at hkv
        subst hkv
        exact ⟨_, rfl, rfl, rfl⟩)⟩

end Pyrsistent
